import Mathlib

/-!
Verification of the `jhr_skip_list` C++ library (a skip list with widths,
single header `jhr_skip_list.hpp`).

The program state is embedded shallowly: nodes live in an arena addressed by
`NodeId` (index into a list; index 0 is the head sentinel, freed nodes are
tombstoned with `none`).  Member functions become explicit state passing;
operations that can hit undefined behaviour in C++ (null dereference,
out-of-bounds access, running off a corrupted chain) return `Option`, where
`none` models the crash/UB.  `size_t` arithmetic that can wrap (the width
updates in `remove`) is taken modulo `2 ^ 64`.  The element type `T` is
instantiated at `Int`, which has the `<` and `==` operators the template
requires.
-/

namespace jhr

/-- Identifier of a node in the arena; id 0 is the head sentinel. -/
abbrev NodeId := Nat

/-- Embeds `jhr::Skip_Link`: a width and a forward pointer
(`nullptr` is `none`). -/
structure Skip_Link where
  width : Nat
  node : Option NodeId
deriving DecidableEq

/-- Embeds `jhr::Skip_Node`: the owned element (`ptr_`, `none` for the head
sentinel's null pointer) and the link array `forward_` (its length is the
node's level). -/
structure Skip_Node where
  ptr : Option Int
  forward : List Skip_Link
deriving DecidableEq

/-- Embeds `jhr::Skip_List`: the configuration (`kMaxLevel_`, `p_`), the
current level `level_`, the element counter `width_`, and the node arena
(the C++ heap); `arena.get? 0` is `head_`. -/
structure Skip_List where
  kMaxLevel : Nat
  p : Rat
  level : Nat
  width : Nat
  arena : List (Option Skip_Node)
deriving DecidableEq

/-- Modulus of `size_t` arithmetic. -/
def M64 : Nat := 2 ^ 64

/-- `size_t` subtraction `a - b` (wraps modulo `2 ^ 64`; both arguments are
below `2 ^ 64` wherever it is used). -/
def stSub (a b : Nat) : Nat := (a + M64 - b) % M64

/-- `size_t` addition modulo `2 ^ 64`. -/
def stAdd (a b : Nat) : Nat := (a + b) % M64

/-- Dereference a node pointer: `none` when the id is out of the arena or the
node was freed (UB in the C++). -/
def nodeAt (s : Skip_List) (x : NodeId) : Option Skip_Node :=
  match s.arena.get? x with
  | some (some n) => some n
  | _ => none

/-- Read `x->forward_[l]`; fails when the node is invalid or `l` is outside
its link array (UB in the C++). -/
def linkAt (s : Skip_List) (x : NodeId) (l : Nat) : Option Skip_Link :=
  (nodeAt s x).bind (fun n => n.forward.get? l)

/-- Read `x->forward_[l].node`. -/
def targetAt (s : Skip_List) (x : NodeId) (l : Nat) : Option (Option NodeId) :=
  (linkAt s x l).map Skip_Link.node

/-- Read `x->forward_[l].width`. -/
def widthAt (s : Skip_List) (x : NodeId) (l : Nat) : Option Nat :=
  (linkAt s x l).map Skip_Link.width

/-- Read `*(x->ptr_)`: fails when the node is invalid or its element pointer
is null (UB in the C++). -/
def elemAt (s : Skip_List) (x : NodeId) : Option Int :=
  (nodeAt s x).bind Skip_Node.ptr

/-- Read `x->ptr_` itself (the pointer, possibly null). -/
def ptrAt (s : Skip_List) (x : NodeId) : Option (Option Int) :=
  (nodeAt s x).map Skip_Node.ptr

/-- Length of `x`'s link array. -/
def lenAt (s : Skip_List) (x : NodeId) : Option Nat :=
  (nodeAt s x).map (fun n => n.forward.length)

/-- Write `x->forward_[l].node = v`; fails on an invalid node or level. -/
def setLinkNode (s : Skip_List) (x : NodeId) (l : Nat) (v : Option NodeId) :
    Option Skip_List :=
  match s.arena.get? x with
  | some (some n) =>
    match n.forward.get? l with
    | some lk =>
      let n' : Skip_Node := { n with forward := n.forward.set l { lk with node := v } }
      some { s with arena := s.arena.set x (some n') }
    | none => none
  | _ => none

/-- Write `x->forward_[l].width = w`; fails on an invalid node or level. -/
def setLinkWidth (s : Skip_List) (x : NodeId) (l : Nat) (w : Nat) :
    Option Skip_List :=
  match s.arena.get? x with
  | some (some n) =>
    match n.forward.get? l with
    | some lk =>
      let n' : Skip_Node := { n with forward := n.forward.set l { lk with width := w } }
      some { s with arena := s.arena.set x (some n') }
    | none => none
  | _ => none

/-- `delete x`: tombstone the node; double free or freeing a bad pointer is
UB. -/
def freeNode (s : Skip_List) (x : NodeId) : Option Skip_List :=
  match s.arena.get? x with
  | some (some _) => some { s with arena := s.arena.set x none }
  | _ => none

/-- Embeds the `Skip_Node` constructor: the link array has `level` entries,
each default-initialised to `{width 1, node nullptr}`. -/
def createNode (ptr : Int) (level : Nat) : Skip_Node :=
  { ptr := some ptr, forward := List.replicate level { width := 1, node := none } }

/-- Embeds the `Skip_List` constructors: head sentinel with a null element
and `max_level` default links, `level_ = 1`, `width_ = 0`.  The default
constructor is `initSL 16 (mkRat 1 2)`. -/
def initSL (max_level : Nat) (p : Rat) : Skip_List :=
  let head : Skip_Node :=
    { ptr := none, forward := List.replicate max_level { width := 1, node := none } }
  { kMaxLevel := max_level, p := p, level := 1, width := 0, arena := [some head] }

/-- Loop of `Skip_List::RandomLevel`, with the level-increment count as
fuel (the C++ loop is bounded by the cap, so a fuel of `cap + 1` is never
exhausted): `while (rnd < p_ && level < kMaxLevel_ - 1) { level++; rnd = ...; }`.
`draws` is the stream `std::rand() / RAND_MAX`; once the supplied list is
exhausted the stream yields 1 (a legal value of that expression). -/
def RandomLevelAux (p : Rat) (cap : Nat) (draws : List Rat) :
    Nat → Nat → Nat → Nat
  | level, _, 0 => level
  | level, idx, fuel + 1 =>
    if draws.getD idx 1 < p ∧ level < cap then
      RandomLevelAux p cap draws (level + 1) (idx + 1) fuel
    else level

/-- Embeds `Skip_List::RandomLevel` (lines 395-404): starts at level 1 and
grows while the draw is below `p_`, capped at `kMaxLevel_ - 1` (a `size_t`
subtraction). -/
def Skip_List.RandomLevel (s : Skip_List) (draws : List Rat) : Nat :=
  RandomLevelAux s.p (stSub s.kMaxLevel 1) draws 1 0 (stSub s.kMaxLevel 1 + 1)

/-- Embeds `Skip_List::length` (line 187): returns `width_`. -/
def Skip_List.length (s : Skip_List) : Nat := s.width

/-- Embeds `Skip_List::empty` (line 180): `!head_->forward_[0].node`. -/
def Skip_List.emptyB (s : Skip_List) : Option Bool :=
  (targetAt s 0 0).map Option.isNone

/-- Inner `while` of `Skip_List::at` (lines 212-217):
`while (x->forward_[i-1].node != nullptr && x->forward_[i-1].width <= w)`.
Returns `Sum.inl y` for the early `return x` when `w` hits 0, `Sum.inr`
when the loop exits normally.  The state is threaded through to record that
the loop performs no store. -/
def atInner (l : Nat) :
    Skip_List → NodeId → Nat → Nat → Option (Skip_List × (Sum NodeId (NodeId × Nat)))
  | _, _, _, 0 => none
  | s, x, w, fuel + 1 =>
    match linkAt s x l with
    | none => none
    | some lk =>
      match lk.node with
      | none => some (s, Sum.inr (x, w))
      | some y =>
        if lk.width ≤ w then
          if w - lk.width = 0 then some (s, Sum.inl y)
          else atInner l s y (w - lk.width) fuel
        else some (s, Sum.inr (x, w))

/-- Outer `for` of `Skip_List::at` (lines 211-218), levels `level_` down
to 1. -/
def atOuter : Skip_List → Nat → NodeId → Nat → Option (Skip_List × Option NodeId)
  | s, 0, _, _ => some (s, none)
  | s, i + 1, x, w =>
    match atInner i s x w (s.arena.length + 1) with
    | none => none
    | some (s', Sum.inl y) => some (s', some y)
    | some (s', Sum.inr (x', w')) => atOuter s' i x' w'

/-- Embeds `Skip_List::at` (lines 203-221): guard `index >= width_`, then the
rank descent with budget `w = index + 1`.  The returned `Skip_List` is the
state of the list after the call; the result is the returned node
(`some none` = `nullptr`). -/
def Skip_List.atIndex (s : Skip_List) (index : Nat) :
    Option (Skip_List × Option NodeId) :=
  if s.width ≤ index then some (s, none)
  else atOuter s s.level 0 (index + 1)

/-- Embeds `Skip_List::operator[]` (line 175): `{ return at(index); }`. -/
def Skip_List.opIndex (s : Skip_List) (index : Nat) :
    Option (Skip_List × Option NodeId) :=
  s.atIndex index

/-- Key-mode scan at one level, shared shape of the `while` loops of `find`
(lines 296-299) and `remove` (lines 415-418):
`while (x->forward_[i-1].node != nullptr && *(x->forward_[i-1].node->ptr_) < *ptr) x = ...`. -/
def scanKey (s : Skip_List) (key : Int) (l : Nat) : NodeId → Nat → Option NodeId
  | _, 0 => none
  | x, fuel + 1 =>
    match targetAt s x l with
    | none => none
    | some none => some x
    | some (some y) =>
      match elemAt s y with
      | none => none
      | some v => if v < key then scanKey s key l y fuel else some x

/-- Level loop of `Skip_List::find` (lines 295-300). -/
def findLoop (s : Skip_List) (key : Int) : Nat → NodeId → Option NodeId
  | 0, x => some x
  | i + 1, x =>
    match scanKey s key i x (s.arena.length + 1) with
    | none => none
    | some x' => findLoop s key i x'

/-- Embeds `Skip_List::find` (lines 291-305).  After the descent the code
steps to `x = x->forward_[0].node` and dereferences `*(x->ptr_)` with no
null check, so an empty list or a key above every element is UB (`none`).
`some none` models the `return nullptr` (not found). -/
def Skip_List.find (s : Skip_List) (key : Int) : Option (Option NodeId) :=
  match findLoop s key s.level 0 with
  | none => none
  | some x =>
    match targetAt s x 0 with
    | none => none
    | some none => none
    | some (some y) =>
      match elemAt s y with
      | none => none
      | some v => some (if v = key then some y else none)

/-- Descent of `Skip_List::remove` (lines 414-420), recording the update
trail `update[i-1] = x` into a `level_`-sized zero-initialised array. -/
def removeDescend (s : Skip_List) (key : Int) :
    Nat → NodeId → List (Option NodeId) → Option (NodeId × List (Option NodeId))
  | 0, x, U => some (x, U)
  | i + 1, x, U =>
    match scanKey s key i x (s.arena.length + 1) with
    | none => none
    | some x' => removeDescend s key i x' (U.set i (some x'))

/-- Unlink loop of `Skip_List::remove` (lines 427-442), iteration index `i`
with `k` iterations left.  Branch 1: `update[i]->forward_[i].width--`
(with `size_t` wrap-around).  Branch 2: re-point the predecessor past `x`,
null `x`'s own link, and merge the widths. -/
def removeLoopAux (U : List (Option NodeId)) (x : NodeId) :
    Skip_List → Nat → Nat → Option Skip_List
  | s, _, 0 => some s
  | s, i, k + 1 =>
    match U.get? i with
    | none => none
    | some none => none
    | some (some u) =>
      match targetAt s u i with
      | none => none
      | some t =>
        if t ≠ some x then
          match widthAt s u i with
          | none => none
          | some w =>
            match setLinkWidth s u i (stSub w 1) with
            | none => none
            | some s' => removeLoopAux U x s' (i + 1) k
        else
          match targetAt s x i with
          | none => none
          | some xt =>
            match setLinkNode s u i xt with
            | none => none
            | some s1 =>
              match setLinkNode s1 x i none with
              | none => none
              | some s2 =>
                match widthAt s2 x i with
                | none => none
                | some xw =>
                  if 0 < xw then
                    match widthAt s2 u i with
                    | none => none
                    | some uw =>
                      match setLinkWidth s2 u i (stAdd uw (stSub xw 1)) with
                      | none => none
                      | some s3 => removeLoopAux U x s3 (i + 1) k
                  else
                    match setLinkWidth s2 u i 0 with
                    | none => none
                    | some s3 => removeLoopAux U x s3 (i + 1) k

/-- Shrink loop of `Skip_List::remove` (line 450):
`while (level_ > 1 && head_->forward_[level_ - 1].node == nullptr) level_--;`. -/
def shrinkLoop (s : Skip_List) : Nat → Option Nat
  | 0 => some 0
  | 1 => some 1
  | lvl + 2 =>
    match targetAt s 0 (lvl + 1) with
    | none => none
    | some none => shrinkLoop s (lvl + 1)
    | some (some _) => some (lvl + 2)

/-- Embeds `Skip_List::remove` (lines 408-453).  Note the missing null check
before `*(x->ptr_)` at line 425 (UB on an absent successor) and that
`width_` is never decremented.  Returns the removed element
(`some (s', some v)`), `some (s, none)` for the not-found `return nullptr`,
`none` for UB. -/
def Skip_List.remove (s : Skip_List) (key : Int) : Option (Skip_List × Option Int) :=
  match removeDescend s key s.level 0 (List.replicate s.level none) with
  | none => none
  | some (x0, U) =>
    match targetAt s x0 0 with
    | none => none
    | some none => none
    | some (some x) =>
      match elemAt s x with
      | none => none
      | some v =>
        if ¬ (v = key) then some (s, none)
        else
          match removeLoopAux U x s 0 s.level with
          | none => none
          | some s1 =>
            match elemAt s1 x with
            | none => none
            | some old =>
              match freeNode s1 x with
              | none => none
              | some s2 =>
                match shrinkLoop s2 s2.level with
                | none => none
                | some lvl' => some ({ s2 with level := lvl' }, some old)

/-- Key-mode scan with width accumulation, the `while` loop of
`Skip_List::insert` (lines 323-327): also sums `width_sum += ...width`. -/
def scanKeyW (s : Skip_List) (key : Int) (l : Nat) :
    NodeId → Nat → Nat → Option (NodeId × Nat)
  | _, _, 0 => none
  | x, acc, fuel + 1 =>
    match linkAt s x l with
    | none => none
    | some lk =>
      match lk.node with
      | none => some (x, acc)
      | some y =>
        match elemAt s y with
        | none => none
        | some v =>
          if v < key then scanKeyW s key l y (stAdd acc lk.width) fuel
          else some (x, acc)

/-- Descent of `Skip_List::insert` (lines 319-331), filling the
`kMaxLevel_`-sized zero-initialised `update` and `update_width` arrays. -/
def insDescend (s : Skip_List) (key : Int) :
    Nat → NodeId → List (Option NodeId) → List Nat →
    Option (NodeId × List (Option NodeId) × List Nat)
  | 0, x, U, W => some (x, U, W)
  | i + 1, x, U, W =>
    match scanKeyW s key i x 0 (s.arena.length + 1) with
    | none => none
    | some (x', wsum) => insDescend s key i x' (U.set i (some x')) (W.set i wsum)

/-- Raise loop of `Skip_List::insert` (lines 338-343): for the new top
levels set `update[i] = head_` and `head_->forward_[i].width = 0`. -/
def raiseLoopAux :
    Skip_List → List (Option NodeId) → Nat → Nat → Option (Skip_List × List (Option NodeId))
  | s, U, _, 0 => some (s, U)
  | s, U, i, k + 1 =>
    match setLinkWidth s 0 i 0 with
    | none => none
    | some s' => raiseLoopAux s' (U.set i (some 0)) (i + 1) k

/-- Splice loop of `Skip_List::insert` (lines 353-375), iteration index `i`
with `k` iterations left: link the new node in at level `i` and, for
`i > 0`, recompute the widths
(`width_before = update_width[i-1] + update[i-1]->forward_[i-1].width`,
new width `update[i]->forward_[i].width + 1 - width_before` when the old
width is positive, else 0). -/
def spliceLoopAux (U : List (Option NodeId)) (W : List Nat) (newId : NodeId) :
    Skip_List → Nat → Nat → Option Skip_List
  | s, _, 0 => some s
  | s, i, k + 1 =>
    match U.get? i with
    | none => none
    | some none => none
    | some (some u) =>
      match targetAt s u i with
      | none => none
      | some t =>
        match setLinkNode s newId i t with
        | none => none
        | some s1 =>
          match setLinkNode s1 u i (some newId) with
          | none => none
          | some s2 =>
            if i = 0 then spliceLoopAux U W newId s2 (i + 1) k
            else
              match U.get? (i - 1) with
              | none => none
              | some none => none
              | some (some u') =>
                match widthAt s2 u' (i - 1) with
                | none => none
                | some pw =>
                  match W.get? (i - 1) with
                  | none => none
                  | some uw =>
                    match widthAt s2 u i with
                    | none => none
                    | some cw =>
                      match setLinkWidth s2 newId i
                          (if 0 < cw then stSub (stAdd cw 1) (stAdd uw pw) else 0) with
                      | none => none
                      | some s3 =>
                        match setLinkWidth s3 u i (stAdd uw pw) with
                        | none => none
                        | some s4 => spliceLoopAux U W newId s4 (i + 1) k

/-- Tail of `Skip_List::insert` after the duplicate check (lines 351-382):
create the node, splice it in at every level below `lvl`, and increment
`width_`.  Returns the new node's id. -/
def insFinish (s : Skip_List) (U : List (Option NodeId)) (W : List Nat)
    (key : Int) (lvl : Nat) : Option (Skip_List × NodeId) :=
  match spliceLoopAux U W s.arena.length
      { s with arena := s.arena ++ [some (createNode key lvl)] } 0 lvl with
  | none => none
  | some s4 => some ({ s4 with width := stAdd s4.width 1 }, s.arena.length)

/-- Duplicate check and tail of `Skip_List::insert` (lines 347-382), run on
the state after the level raise:
`if (x->forward_[0].node != nullptr) if (*(x->forward_[0].node->ptr_) == *ptr) return ...`. -/
def insAfterRaise (s : Skip_List) (U : List (Option NodeId)) (W : List Nat)
    (key : Int) (x : NodeId) (lvl : Nat) : Option (Skip_List × NodeId) :=
  match targetAt s x 0 with
  | none => none
  | some (some y) =>
    match elemAt s y with
    | none => none
    | some v => if v = key then some (s, y) else insFinish s U W key lvl
  | some none => insFinish s U W key lvl

/-- Embeds `Skip_List::insert` (lines 311-383): descent, random level,
optional raise of `level_`, duplicate check, splice.  Returns the node
holding the element (newly created, or pre-existing on a duplicate). -/
def Skip_List.insert (s : Skip_List) (key : Int) (draws : List Rat) :
    Option (Skip_List × NodeId) :=
  match insDescend s key s.level 0 (List.replicate s.kMaxLevel none)
      (List.replicate s.kMaxLevel 0) with
  | none => none
  | some (x, U, W) =>
    if s.RandomLevel draws > s.level then
      match raiseLoopAux s U s.level (s.RandomLevel draws - s.level) with
      | none => none
      | some (s1, U1) =>
        insAfterRaise { s1 with level := s.RandomLevel draws } U1 W key x
          (s.RandomLevel draws)
    else insAfterRaise s U W key x (s.RandomLevel draws)

/-- Embeds the validity check of `Skip_List::MaxLevel` (line 391):
the C++ `0.0F <= p <= 1.0F` parses as `(0.0F <= p) <= 1.0F`, the boolean
converting to 0.0f or 1.0f (float comparisons on these exact values agree
with the rational ones). -/
def pCheckHolds (p : Rat) : Bool :=
  decide ((if (0 : Rat) ≤ p then (1 : Rat) else 0) ≤ 1)

/-- Embeds `Skip_List::MaxLevel` (lines 388-393):
`if (!(0.0F <= p <= 1.0F)) return 0; return static_cast<size_t>(log(N)/log(1/p));`.
The floating-point formula itself is abstracted as the parameter `formula`
(floating point is outside the embedding); the guard is embedded exactly. -/
def Skip_List.MaxLevel (formula : Nat → Rat → Nat) (N : Nat) (p : Rat) : Nat :=
  if ¬ pCheckHolds p then 0 else formula N p

/-- One public operation on the list: an insert (with the random draws its
`RandomLevel` call consumes) or a remove. -/
inductive SLOp where
  | ins (x : Int) (draws : List Rat) : SLOp
  | rem (x : Int) : SLOp
deriving DecidableEq

/-- Run one operation for its state effect; `none` when the C++ would hit
undefined behaviour. -/
def stepOp (s : Skip_List) : SLOp → Option Skip_List
  | .ins x draws => (s.insert x draws).map Prod.fst
  | .rem x => (s.remove x).map Prod.fst

/-- Run a sequence of operations. -/
def runOps (s : Skip_List) : List SLOp → Option Skip_List
  | [] => some s
  | op :: rest =>
    match stepOp s op with
    | none => none
    | some s' => runOps s' rest

/-- A state is reachable when some sequence of insert/remove operations
produces it from a freshly constructed list. -/
def Reachable (max_level : Nat) (p : Rat) (s : Skip_List) : Prop :=
  ∃ ops : List SLOp, runOps (initSL max_level p) ops = some s

/-- Walk the level-`l` chain starting after node `x`, collecting the ids
visited, with fuel (`none` on a dangling link or when the fuel runs out). -/
def chainFrom (s : Skip_List) (l : Nat) : NodeId → Nat → Option (List NodeId)
  | _, 0 => none
  | x, fuel + 1 =>
    match targetAt s x l with
    | none => none
    | some none => some []
    | some (some y) => (chainFrom s l y fuel).map (fun t => y :: t)

/-- Elements stored along the level-0 chain from the head sentinel. -/
def levelZeroElems (s : Skip_List) : Option (List Int) :=
  match chainFrom s 0 0 (s.arena.length + 1) with
  | none => none
  | some ids => ids.mapM (elemAt s)

/-- Abstract view of one stored node: its arena id, its element, and its
height (number of levels it participates in). -/
structure Entry where
  id : NodeId
  elem : Int
  ht : Nat
deriving DecidableEq

/-- Ids of the entries that participate in level `l` (their height exceeds
`l`), in list order. -/
def laneIds (A : List Entry) (l : Nat) : List NodeId :=
  (A.filter (fun e => decide (l < e.ht))).map Entry.id

/-- Entries whose element is below `key` (on a sorted abstract list this is
the prefix strictly before where `key` belongs). -/
def belowK (A : List Entry) (key : Int) : List Entry :=
  A.takeWhile (fun e => decide (e.elem < key))

/-- Entries from the first one whose element is not below `key`. -/
def afterK (A : List Entry) (key : Int) : List Entry :=
  A.dropWhile (fun e => decide (e.elem < key))

/-- The id of the last level-`l` node whose element is below `key` (the head
sentinel 0 when there is none): the node at which the key descent of the
C++ traversals rests on level `l`. -/
def predId (A : List Entry) (key : Int) (l : Nat) : NodeId :=
  (0 :: laneIds (belowK A key) l).getLast (List.cons_ne_nil 0 _)

/-- The level-`l` chain of the state `s` runs from the head sentinel exactly
through `ids`: consecutive links point at the next id and the last link is
null. -/
def laneOk (s : Skip_List) (l : Nat) (ids : List NodeId) : Prop :=
  List.Chain' (fun a b => targetAt s a l = some (some b)) (0 :: ids) ∧
  targetAt s ((0 :: ids).getLast (List.cons_ne_nil 0 ids)) l = some none

/-- The representation invariant tying a concrete state to an abstract list
of entries: a well-formed head sentinel, distinct valid node ids carrying
the stated elements and heights, strictly sorted elements, heights between
1 and `level_ ≤ kMaxLevel_`, and on every level `l` a chain running exactly
through the entries of height above `l`.  (The stored widths are deliberately
unconstrained: the code does not maintain them correctly.) -/
def SLRepr (s : Skip_List) (A : List Entry) : Prop :=
  s.kMaxLevel < M64 ∧
  1 ≤ s.level ∧ s.level ≤ s.kMaxLevel ∧
  ptrAt s 0 = some none ∧
  lenAt s 0 = some s.kMaxLevel ∧
  (0 :: A.map Entry.id).Nodup ∧
  (∀ e ∈ A, ptrAt s e.id = some (some e.elem) ∧ lenAt s e.id = some e.ht) ∧
  List.Chain' (fun a b => a < b) (A.map Entry.elem) ∧
  (∀ e ∈ A, 1 ≤ e.ht ∧ e.ht ≤ s.level) ∧
  (∀ l, l < s.kMaxLevel → laneOk s l (laneIds A l))

/-- Two list states that agree on configuration, current level, size, and
arena length (used to state frame properties of the mutation loops). -/
def MetaSame (s s' : Skip_List) : Prop :=
  s'.kMaxLevel = s.kMaxLevel ∧ s'.p = s.p ∧ s'.level = s.level ∧
  s'.width = s.width ∧ s'.arena.length = s.arena.length

/-- A kernel-reducible decision procedure for `List.Chain'` (the library
instance does not evaluate by `decide`). -/
def decChainAux {α : Type} (R : α → α → Prop) [DecidableRel R] :
    (L : List α) → Decidable (List.Chain' R L)
  | [] => isTrue List.chain'_nil
  | [a] => isTrue (List.chain'_singleton a)
  | a :: b :: L =>
    match inferInstanceAs (Decidable (R a b)), decChainAux R (b :: L) with
    | isTrue h1, isTrue h2 => isTrue (List.chain'_cons.mpr ⟨h1, h2⟩)
    | isFalse h1, _ => isFalse (fun hc => h1 (List.chain'_cons.mp hc).1)
    | _, isFalse h2 => isFalse (fun hc => h2 (List.chain'_cons.mp hc).2)

instance (priority := 2000) instDecChainRed {α : Type} (R : α → α → Prop)
    [DecidableRel R] (L : List α) : Decidable (List.Chain' R L) :=
  decChainAux R L

/-- The lane predicate is decidable (used to check concrete states). -/
instance decLaneOk (s : Skip_List) (l : Nat) (ids : List NodeId) :
    Decidable (laneOk s l ids) :=
  inferInstanceAs (Decidable
    (List.Chain' (fun a b => targetAt s a l = some (some b)) (0 :: ids) ∧
     targetAt s ((0 :: ids).getLast (List.cons_ne_nil 0 ids)) l = some none))

/-- The representation invariant is decidable (used to check concrete
states). -/
instance decSLRepr (s : Skip_List) (A : List Entry) : Decidable (SLRepr s A) :=
  inferInstanceAs (Decidable
    (s.kMaxLevel < M64 ∧
     1 ≤ s.level ∧ s.level ≤ s.kMaxLevel ∧
     ptrAt s 0 = some none ∧
     lenAt s 0 = some s.kMaxLevel ∧
     (0 :: A.map Entry.id).Nodup ∧
     (∀ e ∈ A, ptrAt s e.id = some (some e.elem) ∧ lenAt s e.id = some e.ht) ∧
     List.Chain' (fun a b => a < b) (A.map Entry.elem) ∧
     (∀ e ∈ A, 1 ≤ e.ht ∧ e.ht ≤ s.level) ∧
     (∀ l, l < s.kMaxLevel → laneOk s l (laneIds A l))))

/-- Test fixture: default-constructed list after `insert(5)` drawing level 2
(first draw 1/10 < 1/2, second 9/10 ≥ 1/2) and `insert(3)` drawing level 1
(draw 9/10).  Node id 1 holds 5 (level 2), node id 2 holds 3 (level 1). -/
def listA : Skip_List :=
  (runOps (initSL 16 (mkRat 1 2)) [SLOp.ins 5 [mkRat 1 10, mkRat 9 10], SLOp.ins 3 [mkRat 9 10]]).getD
    (initSL 16 (mkRat 1 2))

/-- Test fixture: default-constructed list after `insert(3)` (level 1)
followed by `remove(3)`. -/
def listB : Skip_List :=
  (runOps (initSL 16 (mkRat 1 2)) [SLOp.ins 3 [mkRat 9 10], SLOp.rem 3]).getD (initSL 16 (mkRat 1 2))

/-- Test fixture: default-constructed list holding only 3 (level 1). -/
def listC : Skip_List :=
  (runOps (initSL 16 (mkRat 1 2)) [SLOp.ins 3 [mkRat 9 10]]).getD (initSL 16 (mkRat 1 2))

/-- Test fixture: default-constructed list holding only 5 at level 1, with
`level_ = 1` (insert draw 9/10). -/
def listD : Skip_List :=
  (runOps (initSL 16 (mkRat 1 2)) [SLOp.ins 5 [mkRat 9 10]]).getD (initSL 16 (mkRat 1 2))

end jhr

namespace jhr

/-! ## Theorems -/

/-- Claim C1: FALSIFIED on the code.  In the reachable state `listA`
(elements 3 and 5, so the sorted sequence is `[3, 5]` and `size = 2`),
`at(0)` returns the node holding 5 rather than the rank-0 element 3, and
`at(1)` returns `nullptr` although `1 < size`.  The cause is `insert`'s
splice loop (lines 353-375), which never increments the span widths at
levels at or above the new node's level: after inserting 3 below the
level-2 node 5, `head_->forward_[1]` still has width 1 while spanning two
level-0 steps, so the rank descent of `at` miscounts. -/
theorem at_rank_wrong_on_listA :
    runOps (initSL 16 (mkRat 1 2)) [SLOp.ins 5 [mkRat 1 10, mkRat 9 10], SLOp.ins 3 [mkRat 9 10]] = some listA ∧
    listA.width = 2 ∧
    levelZeroElems listA = some [3, 5] ∧
    (listA.atIndex 0).map Prod.snd = some (some 1) ∧
    elemAt listA 1 = some 5 ∧
    (listA.atIndex 1).map Prod.snd = some none := by
  refine ⟨by decide, by decide, by decide, by decide, by decide, by decide⟩

/-- Claim C2: FALSIFIED on the code.  In the reachable state `listA` the
level-1 link out of the head sentinel points at node 1 with stored width 1,
but the number of level-0 steps from the head to node 1 is 2 (the level-0
chain is `[2, 1]`); moreover node 1's level-0 link has an absent target yet
carries width 1, not 0 (widths at level 0 are left at their default 1 and
the splice loop only rewrites widths at the levels below the new node's
level). -/
theorem width_invariant_broken_on_listA :
    runOps (initSL 16 (mkRat 1 2)) [SLOp.ins 5 [mkRat 1 10, mkRat 9 10], SLOp.ins 3 [mkRat 9 10]] = some listA ∧
    targetAt listA 0 1 = some (some 1) ∧
    widthAt listA 0 1 = some 1 ∧
    chainFrom listA 0 0 4 = some [2, 1] ∧
    targetAt listA 1 0 = some none ∧
    widthAt listA 1 0 = some 1 := by
  refine ⟨by decide, by decide, by decide, by decide, by decide, by decide⟩

/-- Claim C3: FALSIFIED on the code.  `remove` (lines 408-453) never
decrements `width_`: after inserting 3 and successfully removing it (the
call returns the element 3 and the level-0 chain becomes empty), `length()`
still returns 1 instead of 0. -/
theorem remove_does_not_decrement_size :
    runOps (initSL 16 (mkRat 1 2)) [SLOp.ins 3 [mkRat 9 10], SLOp.rem 3] = some listB ∧
    (listC.remove 3).map Prod.snd = some (some 3) ∧
    levelZeroElems listB = some [] ∧
    listB.length = 1 := by
  refine ⟨by decide, by decide, by decide, by decide⟩

/-- Claim C5: FALSIFIED on the code.  `find` (line 302) and `remove`
(line 425) dereference the level-0 successor with no null check, so on the
empty list, and for a key greater than every stored element, they hit a null
dereference (undefined behaviour, modelled as `none`) instead of returning
absent.  For an absent key that has a successor the code does return absent
without mutating anything (`find 5` on the list 3,7 and `remove 1` on
`listC`, which returns the state unchanged). -/
theorem find_remove_absent_key_crash :
    (initSL 16 (mkRat 1 2)).find 1 = none ∧
    (initSL 16 (mkRat 1 2)).remove 1 = none ∧
    listC.find 9 = none ∧
    listC.remove 9 = none ∧
    ((listC.insert 7 [mkRat 9 10]).map (fun q => q.1.find 5)) = some (some none) ∧
    listC.remove 1 = some (listC, none) := by
  refine ⟨by decide, by decide, by decide, by decide, by decide, by decide⟩

/-- Claim C9: FALSIFIED on the code (third leg).  After `insert(3)` the
call `find(3)` does return the node holding 3, and `remove(3)` does return
the element 3; but the subsequent `find(3)` dereferences the null level-0
successor of the now-empty list (undefined behaviour, modelled as `none`)
instead of returning absent. -/
theorem round_trip_find_after_remove_crashes :
    (listC.find 3).map (fun r => r.bind (elemAt listC)) = some (some 3) ∧
    (listC.remove 3).map Prod.snd = some (some 3) ∧
    runOps (initSL 16 (mkRat 1 2)) [SLOp.ins 3 [mkRat 9 10], SLOp.rem 3] = some listB ∧
    listB.find 3 = none := by
  refine ⟨by decide, by decide, by decide, by decide⟩

/-- Claim C6 counterexample: inserting the already-present key 5 into
`listD` (where `level_ = 1`) with random draws that yield level 3 returns
the existing node 1 and leaves `size` unchanged, but raises `currentLevel`
from 1 to 3 — the list state is not left entirely unchanged, refuting the
claim as stated. -/
theorem duplicate_insert_changes_level :
    listD.level = 1 ∧ elemAt listD 1 = some 5 ∧ listD.width = 1 ∧
    (listD.insert 5 [mkRat 1 10, mkRat 1 10, mkRat 9 10]).map (fun q => (q.1.level, q.1.width, q.2)) =
      some (3, 1, 1) := by
  refine ⟨by decide, by decide, by decide, by decide⟩

/-- Claim C7 counterexample: with the accepted constructor argument
`maxLevel = 1` the level generated by `RandomLevel` is 1, which exceeds
`maxLevel - 1 = 0`, refuting the claim as stated (the cap
`level < kMaxLevel_ - 1` cannot hold the start value 1 down). -/
theorem random_level_exceeds_cap_at_one :
    (initSL 1 (mkRat 1 2)).RandomLevel [mkRat 1 10, mkRat 1 10] = 1 ∧
    ¬ ((initSL 1 (mkRat 1 2)).RandomLevel [mkRat 1 10, mkRat 1 10] ≤ 1 - 1) := by
  refine ⟨by decide, by decide⟩

/-- Claim C8: FALSIFIED on the code.  The validity check
`!(0.0F <= p <= 1.0F)` at line 391 parses as `!((0.0F <= p) <= 1.0F)`,
whose inner comparison yields 0 or 1 — both `≤ 1` — so the guard passes
for every `p` and `MaxLevel` always evaluates the formula, never the
documented sentinel 0 (in particular for the out-of-range `p = 2`). -/
theorem max_level_guard_always_passes (formula : Nat → Rat → Nat) (N : Nat) (p : Rat) :
    pCheckHolds p = true ∧ Skip_List.MaxLevel formula N p = formula N p := by
  have h : pCheckHolds p = true := by
    unfold pCheckHolds
    by_cases h0 : (0 : Rat) ≤ p <;> simp [h0]
  exact ⟨h, by simp [Skip_List.MaxLevel, h]⟩


/-- The inner loop of `at` threads the state through unchanged: it performs
no store. -/
theorem atInner_fst (l : Nat) : ∀ (fuel : Nat) (s : Skip_List) (x : NodeId) (w : Nat)
    (r : Skip_List × (Sum NodeId (NodeId × Nat))),
    atInner l s x w fuel = some r → r.1 = s := by
  intro fuel
  induction fuel with
  | zero =>
    intro s x w r h
    exact absurd h (by simp [atInner])
  | succ n ih =>
    intro s x w r h
    rw [atInner] at h
    split at h
    · exact absurd h (by simp)
    · split at h
      · cases h; rfl
      · split at h
        · split at h
          · cases h; rfl
          · exact ih _ _ _ _ h
        · cases h; rfl

/-- The outer loop of `at` threads the state through unchanged. -/
theorem atOuter_fst : ∀ (i : Nat) (s : Skip_List) (x : NodeId) (w : Nat)
    (r : Skip_List × Option NodeId), atOuter s i x w = some r → r.1 = s := by
  intro i
  induction i with
  | zero =>
    intro s x w r h
    rw [atOuter] at h
    cases h; rfl
  | succ n ih =>
    intro s x w r h
    rw [atOuter] at h
    split at h
    · exact absurd h (by simp)
    · rename_i heq
      cases h
      exact atInner_fst _ _ _ _ _ _ heq
    · rename_i heq
      have h1 := atInner_fst _ _ _ _ _ _ heq
      have h2 := ih _ _ _ _ h
      exact h2.trans h1

/-- Claim C10: CONFIRMED.  `operator[]` is literally `at`, and `at` is
read-only: whenever the call returns (for any list state and any index, in
range or not) the list state it hands back is the one it was given — the
descent loops of `at` (lines 203-221) perform no store to any node, link,
level or size field. -/
theorem at_and_index_operator_read_only (s : Skip_List) (index : Nat) :
    s.opIndex index = s.atIndex index ∧
    ∀ (s' : Skip_List) (r : Option NodeId), s.atIndex index = some (s', r) → s' = s := by
  refine ⟨rfl, ?_⟩
  intro s' r h
  rw [Skip_List.atIndex] at h
  split at h
  · cases h; rfl
  · exact atOuter_fst _ _ _ _ _ h

/-- Witness for C10 at a concrete input: the empty default list and index 0
(out of range), where `at` returns `nullptr` and the state unchanged. -/
theorem at_and_index_operator_read_only_w :
    (initSL 16 (mkRat 1 2)).opIndex 0 = (initSL 16 (mkRat 1 2)).atIndex 0 ∧
    initSL 16 (mkRat 1 2) = initSL 16 (mkRat 1 2) := by
  refine ⟨(at_and_index_operator_read_only (initSL 16 (mkRat 1 2)) 0).1, ?_⟩
  exact (at_and_index_operator_read_only (initSL 16 (mkRat 1 2)) 0).2
    (initSL 16 (mkRat 1 2)) none (by decide)

end jhr

namespace jhr

/-- Reflexivity of `MetaSame`. -/
theorem MetaSame.refl (s : Skip_List) : MetaSame s s :=
  ⟨Eq.refl _, Eq.refl _, Eq.refl _, Eq.refl _, Eq.refl _⟩

/-- Transitivity of `MetaSame`. -/
theorem MetaSame.comp {s1 s2 s3 : Skip_List} (h1 : MetaSame s1 s2) (h2 : MetaSame s2 s3) :
    MetaSame s1 s3 := by
  obtain ⟨a1, b1, c1, d1, e1⟩ := h1
  obtain ⟨a2, b2, c2, d2, e2⟩ := h2
  exact ⟨a2.trans a1, b2.trans b1, c2.trans c1, d2.trans d1, e2.trans e1⟩

/-- `setLinkNode` changes one link field only: configuration, level, size and
arena length are untouched. -/
theorem setLinkNode_meta {s s' : Skip_List} {x : NodeId} {l : Nat} {v : Option NodeId}
    (h : setLinkNode s x l v = some s') : MetaSame s s' := by
  rw [setLinkNode] at h
  split at h <;> try exact Option.noConfusion h
  split at h <;> try exact Option.noConfusion h
  cases h
  exact ⟨rfl, rfl, rfl, rfl, by simp⟩

/-- `setLinkWidth` changes one link field only. -/
theorem setLinkWidth_meta {s s' : Skip_List} {x : NodeId} {l : Nat} {w : Nat}
    (h : setLinkWidth s x l w = some s') : MetaSame s s' := by
  rw [setLinkWidth] at h
  split at h <;> try exact Option.noConfusion h
  split at h <;> try exact Option.noConfusion h
  cases h
  exact ⟨rfl, rfl, rfl, rfl, by simp⟩

/-- `freeNode` tombstones one arena slot: configuration, level, size and
arena length are untouched. -/
theorem freeNode_meta {s s' : Skip_List} {x : NodeId}
    (h : freeNode s x = some s') : MetaSame s s' := by
  rw [freeNode] at h
  split at h <;> try exact Option.noConfusion h
  cases h
  exact ⟨rfl, rfl, rfl, rfl, by simp⟩

/-- The raise loop of `insert` only writes head widths. -/
theorem raiseLoopAux_meta : ∀ (k : Nat) (s : Skip_List) (U : List (Option NodeId))
    (i : Nat) (s1 : Skip_List) (U1 : List (Option NodeId)),
    raiseLoopAux s U i k = some (s1, U1) → MetaSame s s1 := by
  intro k
  induction k with
  | zero =>
    intro s U i s1 U1 h
    rw [raiseLoopAux] at h
    cases h
    exact MetaSame.refl s
  | succ n ih =>
    intro s U i s1 U1 h
    rw [raiseLoopAux] at h
    split at h <;> try exact Option.noConfusion h
    rename_i s' heq
    exact (setLinkWidth_meta heq).comp (ih _ _ _ _ _ h)

/-- The splice loop of `insert` only writes link fields. -/
theorem spliceLoopAux_meta : ∀ (k : Nat) (U : List (Option NodeId)) (W : List Nat)
    (newId : NodeId) (s : Skip_List) (i : Nat) (s1 : Skip_List),
    spliceLoopAux U W newId s i k = some s1 → MetaSame s s1 := by
  intro k
  induction k with
  | zero =>
    intro U W newId s i s1 h
    rw [spliceLoopAux] at h
    cases h
    exact MetaSame.refl s
  | succ n ih =>
    intro U W newId s i s1 h
    rw [spliceLoopAux] at h
    split at h <;> try exact Option.noConfusion h
    split at h <;> try exact Option.noConfusion h
    split at h <;> try exact Option.noConfusion h
    rename_i sa heqa
    split at h <;> try exact Option.noConfusion h
    rename_i sb heqb
    split at h
    · exact ((setLinkNode_meta heqa).comp (setLinkNode_meta heqb)).comp (ih _ _ _ _ _ _ h)
    · split at h <;> try exact Option.noConfusion h
      split at h <;> try exact Option.noConfusion h
      split at h <;> try exact Option.noConfusion h
      split at h <;> try exact Option.noConfusion h
      split at h <;> try exact Option.noConfusion h
      rename_i sc heqc
      split at h <;> try exact Option.noConfusion h
      rename_i sd heqd
      exact ((((setLinkNode_meta heqa).comp (setLinkNode_meta heqb)).comp
        (setLinkWidth_meta heqc)).comp (setLinkWidth_meta heqd)).comp (ih _ _ _ _ _ _ h)

/-- The unlink loop of `remove` only writes link fields. -/
theorem removeLoopAux_meta : ∀ (k : Nat) (U : List (Option NodeId)) (x : NodeId)
    (s : Skip_List) (i : Nat) (s1 : Skip_List),
    removeLoopAux U x s i k = some s1 → MetaSame s s1 := by
  intro k
  induction k with
  | zero =>
    intro U x s i s1 h
    rw [removeLoopAux] at h
    cases h
    exact MetaSame.refl s
  | succ n ih =>
    intro U x s i s1 h
    rw [removeLoopAux] at h
    split at h <;> try exact Option.noConfusion h
    split at h <;> try exact Option.noConfusion h
    split at h
    · split at h <;> try exact Option.noConfusion h
      split at h <;> try exact Option.noConfusion h
      rename_i sa heqa
      exact (setLinkWidth_meta heqa).comp (ih _ _ _ _ _ h)
    · split at h <;> try exact Option.noConfusion h
      split at h <;> try exact Option.noConfusion h
      rename_i sa heqa
      split at h <;> try exact Option.noConfusion h
      rename_i sb heqb
      split at h <;> try exact Option.noConfusion h
      split at h
      · split at h <;> try exact Option.noConfusion h
        split at h <;> try exact Option.noConfusion h
        rename_i sc heqc
        exact (((setLinkNode_meta heqa).comp (setLinkNode_meta heqb)).comp
          (setLinkWidth_meta heqc)).comp (ih _ _ _ _ _ h)
      · split at h <;> try exact Option.noConfusion h
        rename_i sc heqc
        exact (((setLinkNode_meta heqa).comp (setLinkNode_meta heqb)).comp
          (setLinkWidth_meta heqc)).comp (ih _ _ _ _ _ h)

/-- The level loop never goes below its start value. -/
theorem randomLevelAux_ge (p : Rat) (cap : Nat) (draws : List Rat) :
    ∀ (fuel level idx : Nat), level ≤ RandomLevelAux p cap draws level idx fuel := by
  intro fuel
  induction fuel with
  | zero => intro level idx; rw [RandomLevelAux]
  | succ n ih =>
    intro level idx
    rw [RandomLevelAux]
    split
    · exact le_trans (Nat.le_succ level) (ih (level + 1) (idx + 1))
    · exact le_refl level

/-- The level loop never exceeds the larger of its start value and the cap. -/
theorem randomLevelAux_le (p : Rat) (cap : Nat) (draws : List Rat) :
    ∀ (fuel level idx : Nat), RandomLevelAux p cap draws level idx fuel ≤ max level cap := by
  intro fuel
  induction fuel with
  | zero => intro level idx; rw [RandomLevelAux]; exact le_max_left _ _
  | succ n ih =>
    intro level idx
    rw [RandomLevelAux]
    split
    · rename_i hc
      refine le_trans (ih (level + 1) (idx + 1)) ?_
      have : level + 1 ≤ cap := hc.2
      omega
    · exact le_max_left _ _

/-- `RandomLevel` returns at least 1. -/
theorem RandomLevel_pos (s : Skip_List) (d : List Rat) : 1 ≤ s.RandomLevel d :=
  randomLevelAux_ge _ _ _ _ _ _

/-- `RandomLevel` returns at most `max 1 (kMaxLevel_ - 1)` (the `size_t`
difference). -/
theorem RandomLevel_le (s : Skip_List) (d : List Rat) :
    s.RandomLevel d ≤ max 1 (stSub s.kMaxLevel 1) :=
  randomLevelAux_le _ _ _ _ _ _

/-- For `1 ≤ k < 2^64` the `size_t` expression `k - 1` is the plain
subtraction. -/
theorem stSub_one {k : Nat} (h1 : 1 ≤ k) (h2 : k < M64) : stSub k 1 = k - 1 := by
  have hM : 0 < M64 := by norm_num [M64]
  rw [stSub]
  have he : k + M64 - 1 = M64 + (k - 1) := by omega
  rw [he, Nat.add_mod_left]
  exact Nat.mod_eq_of_lt (by omega)

/-- `insFinish` preserves the level and the configuration. -/
theorem insFinish_level {s : Skip_List} {U : List (Option NodeId)} {W : List Nat}
    {key : Int} {lvl : Nat} {s' : Skip_List} {rid : NodeId}
    (h : insFinish s U W key lvl = some (s', rid)) :
    s'.level = s.level ∧ s'.kMaxLevel = s.kMaxLevel ∧ s'.p = s.p := by
  rw [insFinish] at h
  split at h <;> try exact Option.noConfusion h
  rename_i s4 heq
  cases h
  obtain ⟨hk, hp, hl, _, _⟩ := spliceLoopAux_meta _ _ _ _ _ _ _ heq
  exact ⟨hl, hk, hp⟩

/-- The duplicate check and splice tail of `insert` preserve the level and
the configuration. -/
theorem insAfterRaise_level {s : Skip_List} {U : List (Option NodeId)} {W : List Nat}
    {key : Int} {x : NodeId} {lvl : Nat} {s' : Skip_List} {rid : NodeId}
    (h : insAfterRaise s U W key x lvl = some (s', rid)) :
    s'.level = s.level ∧ s'.kMaxLevel = s.kMaxLevel ∧ s'.p = s.p := by
  rw [insAfterRaise] at h
  split at h <;> try exact Option.noConfusion h
  · split at h <;> try exact Option.noConfusion h
    split at h
    · cases h; exact ⟨rfl, rfl, rfl⟩
    · exact insFinish_level h
  · exact insFinish_level h

/-- Successful `insert` sets `level_` to the maximum of the old level and
the drawn level, and preserves the configuration. -/
theorem insert_level {s : Skip_List} {key : Int} {d : List Rat} {s' : Skip_List}
    {rid : NodeId} (h : s.insert key d = some (s', rid)) :
    s'.level = max s.level (s.RandomLevel d) ∧
    s'.kMaxLevel = s.kMaxLevel ∧ s'.p = s.p := by
  rw [Skip_List.insert] at h
  split at h <;> try exact Option.noConfusion h
  split at h
  · rename_i hgt
    split at h <;> try exact Option.noConfusion h
    rename_i pr heqr
    obtain ⟨hl, hk, hp⟩ := insAfterRaise_level h
    obtain ⟨hk2, hp2, hl2, _, _⟩ := raiseLoopAux_meta _ _ _ _ _ _ heqr
    refine ⟨?_, ?_, ?_⟩
    · rw [hl]
      exact (Nat.max_eq_right (le_of_lt hgt)).symm
    · rw [hk]; exact hk2
    · rw [hp]; exact hp2
  · rename_i hng
    obtain ⟨hl, hk, hp⟩ := insAfterRaise_level h
    refine ⟨?_, hk, hp⟩
    rw [hl]
    exact (Nat.max_eq_left (Nat.le_of_not_lt hng)).symm

/-- The shrink loop of `remove` can only lower the level, and not below 1
when it starts at 1 or above. -/
theorem shrinkLoop_bounds (s : Skip_List) :
    ∀ (lvl lvl' : Nat), shrinkLoop s lvl = some lvl' →
      lvl' ≤ lvl ∧ (1 ≤ lvl → 1 ≤ lvl') := by
  intro lvl
  induction lvl using Nat.strong_induction_on with
  | _ lvl ih =>
    match lvl with
    | 0 => intro lvl' h; rw [shrinkLoop] at h; cases h; exact ⟨le_refl 0, fun hc => hc⟩
    | 1 => intro lvl' h; rw [shrinkLoop] at h; cases h; exact ⟨le_refl 1, fun _ => le_refl 1⟩
    | n + 2 =>
      intro lvl' h
      rw [shrinkLoop] at h
      split at h <;> try exact Option.noConfusion h
      · have := ih (n + 1) (by omega) lvl' h
        exact ⟨by omega, fun _ => this.2 (by omega)⟩
      · cases h; exact ⟨le_refl _, fun _ => by omega⟩

/-- Successful `remove` preserves the configuration and can only lower the
level (not below 1). -/
theorem remove_level {s : Skip_List} {key : Int} {s' : Skip_List} {r : Option Int}
    (h : s.remove key = some (s', r)) :
    s'.kMaxLevel = s.kMaxLevel ∧ s'.p = s.p ∧ s'.level ≤ s.level ∧
    (1 ≤ s.level → 1 ≤ s'.level) := by
  rw [Skip_List.remove] at h
  split at h <;> try exact Option.noConfusion h
  split at h <;> try exact Option.noConfusion h
  split at h <;> try exact Option.noConfusion h
  split at h
  · cases h; exact ⟨rfl, rfl, le_refl _, fun hc => hc⟩
  · split at h <;> try exact Option.noConfusion h
    rename_i s1 heq1
    split at h <;> try exact Option.noConfusion h
    split at h <;> try exact Option.noConfusion h
    rename_i s2 heq2
    split at h <;> try exact Option.noConfusion h
    rename_i lvl2 heq3
    cases h
    obtain ⟨hk1, hp1, hl1, _, _⟩ := removeLoopAux_meta _ _ _ _ _ _ heq1
    obtain ⟨hk2, hp2, hl2, _, _⟩ := freeNode_meta heq2
    have hb := shrinkLoop_bounds _ _ _ heq3
    refine ⟨hk2.trans hk1, hp2.trans hp1, ?_, ?_⟩
    · have : s2.level = s.level := hl2.trans hl1
      simpa [this] using hb.1
    · intro hs
      have : s2.level = s.level := hl2.trans hl1
      exact hb.2 (by omega)

/-- Induction principle over operation sequences: a property preserved by
every successful step holds in every state a run reaches. -/
theorem runOps_inv {P : Skip_List → Prop}
    (hstep : ∀ (s : Skip_List) (op : SLOp) (s' : Skip_List),
      P s → stepOp s op = some s' → P s') :
    ∀ (ops : List SLOp) (s s' : Skip_List), P s → runOps s ops = some s' → P s' := by
  intro ops
  induction ops with
  | nil =>
    intro s s' hP h
    rw [runOps] at h
    cases h
    exact hP
  | cons op rest ih =>
    intro s s' hP h
    rw [runOps] at h
    split at h <;> try exact Option.noConfusion h
    rename_i s1 heq
    exact ih _ _ (hstep _ _ _ hP heq) h

/-- Configuration and level bounds are preserved by every step (any
accepted `maxLevel ≥ 1`). -/
theorem step_level_inv (K : Nat) (hK : 1 ≤ K) (hM : K < M64) :
    ∀ (s : Skip_List) (op : SLOp) (s' : Skip_List),
      (s.kMaxLevel = K ∧ 1 ≤ s.level ∧ s.level ≤ K) →
      stepOp s op = some s' →
      (s'.kMaxLevel = K ∧ 1 ≤ s'.level ∧ s'.level ≤ K) := by
  intro s op s' hP h
  obtain ⟨hkm, hl1, hlK⟩ := hP
  cases op with
  | ins x d =>
    rw [stepOp] at h
    rw [Option.map_eq_some'] at h
    obtain ⟨⟨sa, rid⟩, heq, hfst⟩ := h
    obtain ⟨hl, hk, _⟩ := insert_level heq
    have hrl : s.RandomLevel d ≤ max 1 (stSub s.kMaxLevel 1) := RandomLevel_le s d
    have hcap : stSub s.kMaxLevel 1 = K - 1 := by
      rw [hkm]; exact stSub_one (by omega) hM
    have hrl2 : s.RandomLevel d ≤ K := by
      rw [hcap] at hrl
      omega
    have hr1 : 1 ≤ s.RandomLevel d := RandomLevel_pos s d
    subst hfst
    refine ⟨hk.trans hkm, ?_, ?_⟩
    · rw [hl]; omega
    · rw [hl]; omega
  | rem x =>
    rw [stepOp] at h
    rw [Option.map_eq_some'] at h
    obtain ⟨⟨sa, rv⟩, heq, hfst⟩ := h
    obtain ⟨hk, _, hle, hge⟩ := remove_level heq
    subst hfst
    exact ⟨hk.trans hkm, hge hl1, hle.trans hlK⟩

/-- Claim C7 (amended): CONFIRMED in both halves.  In every reachable state
of a list constructed with `1 ≤ maxLevel < 2^64`: the level `RandomLevel`
generates for a new node is at least 1 and, when `maxLevel ≥ 2`, at most
`maxLevel - 1`; for `maxLevel = 1` the generated level is always exactly 1
(equal to `maxLevel`, exceeding `maxLevel - 1 = 0`, the cap of the `size_t`
subtraction); and in every case `currentLevel` stays between 1 and
`maxLevel` after any sequence of operations. -/
theorem level_and_random_level_bounds (K : Nat) (q : Rat) (s : Skip_List)
    (d : List Rat) (hK : 1 ≤ K) (hM : K < M64) (hR : Reachable K q s) :
    1 ≤ s.RandomLevel d ∧
    (2 ≤ K → s.RandomLevel d ≤ K - 1) ∧
    (K = 1 → s.RandomLevel d = 1) ∧
    1 ≤ s.level ∧ s.level ≤ K := by
  obtain ⟨ops, hrun⟩ := hR
  have hbase : (initSL K q).kMaxLevel = K ∧ 1 ≤ (initSL K q).level ∧
      (initSL K q).level ≤ K := by
    have h1 : (initSL K q).level = 1 := rfl
    exact ⟨rfl, by omega, by omega⟩
  have hInv := runOps_inv (step_level_inv K hK hM) ops (initSL K q) s hbase hrun
  obtain ⟨hkm, hl1, hlK⟩ := hInv
  have hrl : s.RandomLevel d ≤ max 1 (stSub s.kMaxLevel 1) := RandomLevel_le s d
  have hcap : stSub s.kMaxLevel 1 = K - 1 := by
    rw [hkm]; exact stSub_one (by omega) hM
  rw [hcap] at hrl
  have hr1 : 1 ≤ s.RandomLevel d := RandomLevel_pos s d
  exact ⟨hr1, fun h2K => by omega, fun h1K => by omega, hl1, hlK⟩

/-- Witness for the amended C7 at concrete inputs: the reachable state
`listC` of a default list (maxLevel 16), and a freshly constructed list
with maxLevel 1 whose draw (1/10 < 1/2) would raise the level were it not
for the cap. -/
theorem level_and_random_level_bounds_w :
    (1 ≤ listC.RandomLevel [] ∧
     (2 ≤ 16 → listC.RandomLevel [] ≤ 16 - 1) ∧
     (16 = 1 → listC.RandomLevel [] = 1) ∧
     1 ≤ listC.level ∧ listC.level ≤ 16) ∧
    (1 ≤ (initSL 1 (mkRat 1 2)).RandomLevel [mkRat 1 10] ∧
     (2 ≤ 1 → (initSL 1 (mkRat 1 2)).RandomLevel [mkRat 1 10] ≤ 1 - 1) ∧
     (1 = 1 → (initSL 1 (mkRat 1 2)).RandomLevel [mkRat 1 10] = 1) ∧
     1 ≤ (initSL 1 (mkRat 1 2)).level ∧ (initSL 1 (mkRat 1 2)).level ≤ 1) :=
  ⟨level_and_random_level_bounds 16 (mkRat 1 2) listC [] (by norm_num)
      (by norm_num [M64]) ⟨[SLOp.ins 3 [mkRat 9 10]], by decide⟩,
   level_and_random_level_bounds 1 (mkRat 1 2) (initSL 1 (mkRat 1 2))
      [mkRat 1 10] (le_refl 1) (by norm_num [M64]) ⟨[], by decide⟩⟩

/-- A valid node id is inside the arena. -/
theorem nodeAt_lt {s : Skip_List} {x : NodeId} {n : Skip_Node}
    (h : nodeAt s x = some n) : x < s.arena.length := by
  rw [nodeAt] at h
  split at h <;> try exact Option.noConfusion h
  rename_i heq
  rw [List.get?_eq_some] at heq
  exact heq.1

/-- Updating one arena slot does not affect the others. -/
theorem nodeAt_set_ne {s : Skip_List} {x a : NodeId} {w : Option Skip_Node}
    (h : a ≠ x) : nodeAt { s with arena := s.arena.set x w } a = nodeAt s a := by
  rw [nodeAt, nodeAt]
  rw [show (s.arena.set x w).get? a = s.arena.get? a from List.get?_set_ne _ _ (fun hc => h hc.symm)]

/-- Reading back an updated arena slot holding a node. -/
theorem nodeAt_set_some {s : Skip_List} {x : NodeId} (n' : Skip_Node)
    (h : x < s.arena.length) :
    nodeAt { s with arena := s.arena.set x (some n') } x = some n' := by
  rw [nodeAt]
  rw [show (s.arena.set x (some n')).get? x = some (some n') from
    List.get?_set_eq_of_lt _ h]

/-- Reading back a tombstoned arena slot. -/
theorem nodeAt_set_none {s : Skip_List} {x : NodeId}
    (h : x < s.arena.length) :
    nodeAt { s with arena := s.arena.set x none } x = none := by
  rw [nodeAt]
  rw [show (s.arena.set x none).get? x = some none from List.get?_set_eq_of_lt _ h]

/-- Appending to the arena preserves the existing slots. -/
theorem nodeAt_append {s : Skip_List} {w : Option Skip_Node} {a : NodeId}
    (h : a < s.arena.length) :
    nodeAt { s with arena := s.arena ++ [w] } a = nodeAt s a := by
  rw [nodeAt, nodeAt]
  rw [show (s.arena ++ [w]).get? a = s.arena.get? a from List.get?_append h]

/-- Reading the appended arena slot. -/
theorem nodeAt_append_self {s : Skip_List} {n : Skip_Node} :
    nodeAt { s with arena := s.arena ++ [some n] } s.arena.length = some n := by
  rw [nodeAt]
  have : (s.arena ++ [some n]).get? s.arena.length = some (some n) := by simp
  rw [this]

/-- Updating the bookkeeping fields does not affect the arena reads. -/
theorem nodeAt_level_update (s : Skip_List) (L : Nat) (a : NodeId) :
    nodeAt { s with level := L } a = nodeAt s a := rfl

/-- Updating `width_` does not affect the arena reads. -/
theorem nodeAt_width_update (s : Skip_List) (W : Nat) (a : NodeId) :
    nodeAt { s with width := W } a = nodeAt s a := rfl

/-- All derived reads are determined by `nodeAt`. -/
theorem reads_congr {s s' : Skip_List} {a : NodeId} (h : nodeAt s' a = nodeAt s a) :
    ptrAt s' a = ptrAt s a ∧ lenAt s' a = lenAt s a ∧
    (∀ m, targetAt s' a m = targetAt s a m) ∧
    (∀ m, widthAt s' a m = widthAt s a m) ∧ elemAt s' a = elemAt s a := by
  refine ⟨?_, ?_, ?_, ?_, ?_⟩ <;>
    simp [ptrAt, lenAt, targetAt, widthAt, elemAt, linkAt, h]

/-- A node whose element pointer holds `v` dereferences to `v`. -/
theorem elemAt_of_ptrAt {s : Skip_List} {a : NodeId} {v : Int}
    (h : ptrAt s a = some (some v)) : elemAt s a = some v := by
  rw [ptrAt] at h
  rw [elemAt]
  cases hn : nodeAt s a with
  | none => rw [hn] at h; exact Option.noConfusion h
  | some n =>
    rw [hn] at h
    simp at h
    simp [h]

/-- A level below the node's height has a link. -/
theorem linkAt_isSome {s : Skip_List} {a : NodeId} {L m : Nat}
    (h : lenAt s a = some L) (hm : m < L) : ∃ lk, linkAt s a m = some lk := by
  rw [lenAt] at h
  cases hn : nodeAt s a with
  | none => rw [hn] at h; exact Option.noConfusion h
  | some n =>
    rw [hn] at h
    simp at h
    rw [linkAt, hn]
    subst h
    exact ⟨n.forward.get ⟨m, hm⟩, List.get?_eq_get hm⟩

/-- A `targetAt` read from a level below the node's height succeeds. -/
theorem targetAt_isSome {s : Skip_List} {a : NodeId} {L m : Nat}
    (h : lenAt s a = some L) (hm : m < L) : ∃ t, targetAt s a m = some t := by
  obtain ⟨lk, hlk⟩ := linkAt_isSome h hm
  exact ⟨lk.node, by rw [targetAt, hlk]; rfl⟩

/-- Pointwise effect of `setLinkNode`: the targeted link's pointer changes
and nothing else. -/
theorem setLinkNode_effect {s s' : Skip_List} {x : NodeId} {l : Nat} {v : Option NodeId}
    (h : setLinkNode s x l v = some s') :
    (∀ a, ptrAt s' a = ptrAt s a) ∧ (∀ a, lenAt s' a = lenAt s a) ∧
    (∀ a m, widthAt s' a m = widthAt s a m) ∧
    (∀ a m, ¬(a = x ∧ m = l) → targetAt s' a m = targetAt s a m) ∧
    targetAt s' x l = some v := by
  rw [setLinkNode] at h
  split at h <;> try exact Option.noConfusion h
  rename_i n hn
  split at h <;> try exact Option.noConfusion h
  rename_i lk hlk
  cases h
  have hnode : nodeAt s x = some n := by rw [nodeAt, hn]
  have hx : x < s.arena.length := nodeAt_lt hnode
  have hl : l < n.forward.length := by
    rw [List.get?_eq_some] at hlk
    exact hlk.1
  have hset := nodeAt_set_some { n with forward := n.forward.set l { lk with node := v } } hx
  refine ⟨?_, ?_, ?_, ?_, ?_⟩
  · intro a
    by_cases ha : a = x
    · subst ha
      rw [ptrAt, ptrAt, hset, hnode]
      rfl
    · exact (reads_congr (nodeAt_set_ne ha)).1
  · intro a
    by_cases ha : a = x
    · subst ha
      rw [lenAt, lenAt, hset, hnode]
      simp
    · exact (reads_congr (nodeAt_set_ne ha)).2.1
  · intro a m
    by_cases ha : a = x
    · subst ha
      rw [widthAt, widthAt, linkAt, linkAt, hset, hnode]
      show Option.map Skip_Link.width ((n.forward.set l { lk with node := v }).get? m) =
        Option.map Skip_Link.width (n.forward.get? m)
      by_cases hm : m = l
      · subst hm
        rw [List.get?_set_eq_of_lt _ hl, hlk]
        rfl
      · rw [List.get?_set_ne _ _ (fun hc => hm hc.symm)]
    · exact (reads_congr (nodeAt_set_ne ha)).2.2.2.1 m
  · intro a m hne
    by_cases ha : a = x
    · subst ha
      have hm : m ≠ l := fun hc => hne ⟨rfl, hc⟩
      rw [targetAt, targetAt, linkAt, linkAt, hset, hnode]
      show Option.map Skip_Link.node ((n.forward.set l { lk with node := v }).get? m) =
        Option.map Skip_Link.node (n.forward.get? m)
      rw [List.get?_set_ne _ _ (fun hc => hm hc.symm)]
    · exact (reads_congr (nodeAt_set_ne ha)).2.2.1 m
  · rw [targetAt, linkAt, hset]
    show Option.map Skip_Link.node ((n.forward.set l { lk with node := v }).get? l) = some v
    rw [List.get?_set_eq_of_lt _ hl]
    rfl

/-- Pointwise effect of `setLinkWidth`: the targeted link's width changes
and nothing else (in particular no link target changes). -/
theorem setLinkWidth_effect {s s' : Skip_List} {x : NodeId} {l : Nat} {w : Nat}
    (h : setLinkWidth s x l w = some s') :
    (∀ a, ptrAt s' a = ptrAt s a) ∧ (∀ a, lenAt s' a = lenAt s a) ∧
    (∀ a m, targetAt s' a m = targetAt s a m) ∧
    (∀ a m, ¬(a = x ∧ m = l) → widthAt s' a m = widthAt s a m) ∧
    widthAt s' x l = some w := by
  rw [setLinkWidth] at h
  split at h <;> try exact Option.noConfusion h
  rename_i n hn
  split at h <;> try exact Option.noConfusion h
  rename_i lk hlk
  cases h
  have hnode : nodeAt s x = some n := by rw [nodeAt, hn]
  have hx : x < s.arena.length := nodeAt_lt hnode
  have hl : l < n.forward.length := by
    rw [List.get?_eq_some] at hlk
    exact hlk.1
  have hset := nodeAt_set_some { n with forward := n.forward.set l { lk with width := w } } hx
  refine ⟨?_, ?_, ?_, ?_, ?_⟩
  · intro a
    by_cases ha : a = x
    · subst ha
      rw [ptrAt, ptrAt, hset, hnode]
      rfl
    · exact (reads_congr (nodeAt_set_ne ha)).1
  · intro a
    by_cases ha : a = x
    · subst ha
      rw [lenAt, lenAt, hset, hnode]
      simp
    · exact (reads_congr (nodeAt_set_ne ha)).2.1
  · intro a m
    by_cases ha : a = x
    · subst ha
      rw [targetAt, targetAt, linkAt, linkAt, hset, hnode]
      show Option.map Skip_Link.node ((n.forward.set l { lk with width := w }).get? m) =
        Option.map Skip_Link.node (n.forward.get? m)
      by_cases hm : m = l
      · subst hm
        rw [List.get?_set_eq_of_lt _ hl, hlk]
        rfl
      · rw [List.get?_set_ne _ _ (fun hc => hm hc.symm)]
    · exact (reads_congr (nodeAt_set_ne ha)).2.2.1 m
  · intro a m hne
    by_cases ha : a = x
    · subst ha
      have hm : m ≠ l := fun hc => hne ⟨rfl, hc⟩
      rw [widthAt, widthAt, linkAt, linkAt, hset, hnode]
      show Option.map Skip_Link.width ((n.forward.set l { lk with width := w }).get? m) =
        Option.map Skip_Link.width (n.forward.get? m)
      rw [List.get?_set_ne _ _ (fun hc => hm hc.symm)]
    · exact (reads_congr (nodeAt_set_ne ha)).2.2.2.1 m
  · rw [widthAt, linkAt, hset]
    show Option.map Skip_Link.width ((n.forward.set l { lk with width := w }).get? l) = some w
    rw [List.get?_set_eq_of_lt _ hl]
    rfl

/-- Pointwise effect of `freeNode`. -/
theorem freeNode_effect {s s' : Skip_List} {x : NodeId}
    (h : freeNode s x = some s') :
    nodeAt s' x = none ∧ ∀ a, a ≠ x → nodeAt s' a = nodeAt s a := by
  rw [freeNode] at h
  split at h <;> try exact Option.noConfusion h
  rename_i n hn
  cases h
  have hx : x < s.arena.length := nodeAt_lt (by rw [nodeAt, hn])
  exact ⟨nodeAt_set_none hx, fun a ha => nodeAt_set_ne ha⟩

/-- The lane of `A` splits at `key` into the below-key lane and the
rest. -/
theorem laneIds_split (A : List Entry) (key : Int) (l : Nat) :
    laneIds A l = laneIds (belowK A key) l ++ laneIds (afterK A key) l := by
  rw [laneIds, laneIds, laneIds, belowK, afterK]
  rw [show A = A.takeWhile (fun e => decide (e.elem < key)) ++
    A.dropWhile (fun e => decide (e.elem < key)) from
    (List.takeWhile_append_dropWhile _ _).symm]
  rw [List.filter_append, List.map_append]
  simp [List.takeWhile_append_dropWhile]

/-- Membership in a lane. -/
theorem mem_laneIds {B : List Entry} {l : Nat} {y : NodeId} :
    y ∈ laneIds B l ↔ ∃ e, e ∈ B ∧ e.id = y ∧ l < e.ht := by
  rw [laneIds]
  simp only [List.mem_map, List.mem_filter]
  constructor
  · rintro ⟨e, ⟨he, hht⟩, hid⟩
    exact ⟨e, he, hid, of_decide_eq_true hht⟩
  · rintro ⟨e, he, hid, hht⟩
    exact ⟨e, ⟨he, decide_eq_true hht⟩, hid⟩

/-- Entries below the key belong to the abstract list. -/
theorem belowK_subset {A : List Entry} {key : Int} {e : Entry}
    (h : e ∈ belowK A key) : e ∈ A :=
  (List.takeWhile_sublist _).subset h

/-- Entries from the split point belong to the abstract list. -/
theorem afterK_subset {A : List Entry} {key : Int} {e : Entry}
    (h : e ∈ afterK A key) : e ∈ A :=
  (List.dropWhile_sublist _).subset h

/-- Entries below the key have elements below the key. -/
theorem belowK_lt {A : List Entry} {key : Int} {e : Entry}
    (h : e ∈ belowK A key) : e.elem < key := by
  rw [belowK] at h
  have h2 := List.mem_takeWhile_imp h
  simpa using h2

/-- The head of a `dropWhile` fails the predicate. -/
theorem dropWhile_head_not {α : Type} (p : α → Bool) :
    ∀ (L : List α) (e : α) (rest : List α), L.dropWhile p = e :: rest → p e = false := by
  intro L
  induction L with
  | nil => intro e rest h; exact List.noConfusion h
  | cons a L ih =>
    intro e rest h
    rw [List.dropWhile_cons] at h
    split at h
    · exact ih e rest h
    · cases h
      rename_i hp
      exact Bool.of_not_eq_true hp

/-- On a sorted abstract list no entry from the split point is below the
key. -/
theorem afterK_not_lt {A : List Entry} {key : Int}
    (hsort : List.Chain' (fun a b => a < b) (A.map Entry.elem)) :
    ∀ e ∈ afterK A key, ¬ e.elem < key := by
  cases hA : afterK A key with
  | nil => intro e he; rw [List.mem_nil_iff] at he; exact absurd he (fun h => h)
  | cons e0 rest =>
    have h0 : ¬ e0.elem < key := by
      rw [afterK] at hA
      have := dropWhile_head_not (fun e => decide (e.elem < key)) A e0 rest hA
      simpa using this
    intro e he
    rw [List.mem_cons] at he
    cases he with
    | inl h => subst h; exact h0
    | inr h =>
      have hsplit : A = belowK A key ++ e0 :: rest := by
        rw [belowK, ← hA, afterK, List.takeWhile_append_dropWhile]
      rw [hsplit, List.map_append] at hsort
      have h2 := (List.chain'_append.mp hsort).2.1
      rw [List.map_cons] at h2
      have h3 := List.chain'_iff_pairwise.mp h2
      have h4 : e0.elem < e.elem := by
        rw [List.pairwise_cons] at h3
        exact h3.1 e.elem (List.mem_map_of_mem Entry.elem h)
      intro hc
      exact h0 (lt_trans h4 hc)

/-- An entry's element dereferences through its node. -/
theorem entry_elemAt {s : Skip_List} {A : List Entry} (hR : SLRepr s A)
    {e : Entry} (he : e ∈ A) : elemAt s e.id = some e.elem := by
  obtain ⟨_, _, _, _, _, _, hnodes, _, _, _⟩ := hR
  exact elemAt_of_ptrAt (hnodes e he).1

/-- A `ptrAt` read implies the node exists. -/
theorem ptrAt_nodeAt {s : Skip_List} {a : NodeId} {o : Option Int}
    (h : ptrAt s a = some o) : ∃ n, nodeAt s a = some n := by
  rw [ptrAt] at h
  cases hn : nodeAt s a with
  | none => rw [hn] at h; exact Option.noConfusion h
  | some n => exact ⟨n, rfl⟩

/-- The abstract list is strictly smaller than the arena (all ids are
distinct valid indices, besides the head sentinel). -/
theorem SLRepr_length {s : Skip_List} {A : List Entry} (hR : SLRepr s A) :
    A.length < s.arena.length := by
  obtain ⟨_, _, _, hp0, _, hnd, hnodes, _, _, _⟩ := hR
  have hmem : ∀ y ∈ 0 :: A.map Entry.id, y < s.arena.length := by
    intro y hy
    rw [List.mem_cons] at hy
    cases hy with
    | inl h =>
      subst h
      obtain ⟨n, hn⟩ := ptrAt_nodeAt hp0
      exact nodeAt_lt hn
    | inr h =>
      rw [List.mem_map] at h
      obtain ⟨e, he, hid⟩ := h
      obtain ⟨n, hn⟩ := ptrAt_nodeAt (hnodes e he).1
      subst hid
      exact nodeAt_lt hn
  have hcard : (0 :: A.map Entry.id).toFinset.card = (0 :: A.map Entry.id).length :=
    List.toFinset_card_of_nodup hnd
  have hsub : (0 :: A.map Entry.id).toFinset ⊆ Finset.range s.arena.length := by
    intro y hy
    rw [List.mem_toFinset] at hy
    rw [Finset.mem_range]
    exact hmem y hy
  have := Finset.card_le_card hsub
  rw [hcard, Finset.card_range] at this
  simp at this
  omega

/-- The lane lists are no longer than the abstract list. -/
theorem laneIds_length_le (A : List Entry) (l : Nat) :
    (laneIds A l).length ≤ A.length := by
  rw [laneIds, List.length_map]
  exact List.length_filter_le _ _

/-- A lane is a sublist of the id list. -/
theorem laneIds_sublist (A : List Entry) (l : Nat) :
    (laneIds A l).Sublist (A.map Entry.id) :=
  (List.filter_sublist A).map Entry.id

/-- One `scanKey` step: the next link is null, the loop stops. -/
theorem scanKey_step_none {s : Skip_List} {key : Int} {l : Nat} {x : NodeId} {fuel : Nat}
    (h : targetAt s x l = some none) : scanKey s key l x (fuel + 1) = some x := by
  simp [scanKey, h]

/-- One `scanKey` step: the next element is not below the key, the loop
stops. -/
theorem scanKey_step_stop {s : Skip_List} {key : Int} {l : Nat} {x y : NodeId} {v : Int}
    {fuel : Nat} (h : targetAt s x l = some (some y)) (hv : elemAt s y = some v)
    (hk : ¬ v < key) : scanKey s key l x (fuel + 1) = some x := by
  simp [scanKey, h, hv, hk]

/-- One `scanKey` step: the next element is below the key, advance. -/
theorem scanKey_step_adv {s : Skip_List} {key : Int} {l : Nat} {x y : NodeId} {v : Int}
    {fuel : Nat} (h : targetAt s x l = some (some y)) (hv : elemAt s y = some v)
    (hk : v < key) : scanKey s key l x (fuel + 1) = scanKey s key l y fuel := by
  simp [scanKey, h, hv, hk]

/-- Core loop lemma for the key scan: starting anywhere on a chain whose
elements are below the key and whose final link leads to null or to an
element not below the key, the scan stops exactly at the chain's last
node. -/
theorem scanKey_go (s : Skip_List) (key : Int) (l : Nat) :
    ∀ (l1 : List NodeId) (x : NodeId) (fuel : Nat) (stop : Option NodeId),
      l1.length + 1 ≤ fuel →
      List.Chain' (fun a b => targetAt s a l = some (some b)) (x :: l1) →
      (∀ y ∈ l1, ∃ v, elemAt s y = some v ∧ v < key) →
      targetAt s ((x :: l1).getLast (List.cons_ne_nil x l1)) l = some stop →
      (stop = none ∨ ∃ z v, stop = some z ∧ elemAt s z = some v ∧ ¬ v < key) →
      scanKey s key l x fuel = some ((x :: l1).getLast (List.cons_ne_nil x l1)) := by
  intro l1
  induction l1 with
  | nil =>
    intro x fuel stop hfuel hchain hmem htail hstop
    match fuel, hfuel with
    | fuel + 1, _ =>
      have hlast : ([x] : List NodeId).getLast (List.cons_ne_nil x []) = x := rfl
      rw [hlast] at htail ⊢
      cases hstop with
      | inl h =>
        subst h
        exact scanKey_step_none htail
      | inr h =>
        obtain ⟨z, v, hz, hv, hnv⟩ := h
        subst hz
        exact scanKey_step_stop htail hv hnv
  | cons y l1 ih =>
    intro x fuel stop hfuel hchain hmem htail hstop
    match fuel, hfuel with
    | fuel + 1, hf =>
      have hcc := List.chain'_cons.mp hchain
      obtain ⟨v, hv, hvk⟩ := hmem y (List.mem_cons_self y l1)
      have hlast : ((x :: y :: l1).getLast (List.cons_ne_nil x (y :: l1))) =
          ((y :: l1).getLast (List.cons_ne_nil y l1)) := List.getLast_cons _
      rw [hlast] at htail ⊢
      rw [scanKey_step_adv hcc.1 hv hvk]
      exact ih y fuel stop (by simpa using Nat.lt_succ_iff.mp (by simpa using hf))
        hcc.2 (fun z hz => hmem z (List.mem_cons_of_mem y hz)) htail hstop

/-- Key fact about the descent: on a represented state, the level-`l` scan
started anywhere on the below-key part of the level-`l` lane stops exactly
at the last level-`l` node below the key. -/
theorem scanKey_spec {s : Skip_List} {A : List Entry} (hR : SLRepr s A) (key : Int)
    {l : Nat} (hl : l < s.kMaxLevel) {x : NodeId}
    (hx : x ∈ 0 :: laneIds (belowK A key) l) {fuel : Nat}
    (hfuel : s.arena.length + 1 ≤ fuel) :
    scanKey s key l x fuel = some (predId A key l) := by
  obtain ⟨hM, hl1, hlk, hp0, hlen0, hnd, hnodes, hsort, hht, hch⟩ := hR
  have hRfull : SLRepr s A := ⟨hM, hl1, hlk, hp0, hlen0, hnd, hnodes, hsort, hht, hch⟩
  have hlane := hch l hl
  have hchain : List.Chain' (fun a b => targetAt s a l = some (some b)) (0 :: laneIds A l) :=
    hlane.1
  have hlastq : ∀ a, (0 :: laneIds A l).getLast? = some a → targetAt s a l = some none := by
    intro a ha
    rw [List.getLast?_eq_getLast _ (List.cons_ne_nil _ _)] at ha
    cases ha
    exact hlane.2
  have hsplitIds : laneIds A l = laneIds (belowK A key) l ++ laneIds (afterK A key) l :=
    laneIds_split A key l
  obtain ⟨P1, P2, h12⟩ := List.mem_iff_append.mp hx
  have hPbsub : ∀ y ∈ P2, y ∈ laneIds (belowK A key) l := by
    intro y hy
    cases P1 with
    | nil =>
      rw [List.nil_append] at h12
      injection h12 with hx0 hPb
      rw [hPb]
      exact hy
    | cons a P1' =>
      rw [List.cons_append] at h12
      injection h12 with h0 hPb
      rw [hPb]
      exact List.mem_append_right _ (List.mem_cons_of_mem _ hy)
  have hmemP2 : ∀ y ∈ P2, ∃ v, elemAt s y = some v ∧ v < key := by
    intro y hy
    obtain ⟨e, heB, hid, _⟩ := mem_laneIds.mp (hPbsub y hy)
    subst hid
    exact ⟨e.elem, entry_elemAt hRfull (belowK_subset heB), belowK_lt heB⟩
  have hgl : (0 :: laneIds (belowK A key) l).getLast? = some (predId A key l) :=
    List.getLast?_eq_getLast _ (List.cons_ne_nil _ _)
  have hgl2 : (x :: P2).getLast? = some (predId A key l) := by
    rw [← hgl, h12]
    exact (List.getLast?_append_of_ne_nil _ (List.cons_ne_nil x P2)).symm
  have hglval : (x :: P2).getLast (List.cons_ne_nil x P2) = predId A key l := by
    have h3 := List.getLast?_eq_getLast (x :: P2) (List.cons_ne_nil x P2)
    rw [h3] at hgl2
    exact Option.some.inj hgl2
  have hchainA : List.Chain' (fun a b => targetAt s a l = some (some b))
      ((0 :: laneIds (belowK A key) l) ++ laneIds (afterK A key) l) := by
    rw [List.cons_append]
    rw [← hsplitIds]
    exact hchain
  have hchain3 : List.Chain' (fun a b => targetAt s a l = some (some b))
      ((x :: P2) ++ laneIds (afterK A key) l) := by
    have hc2 := hchainA
    rw [h12, List.append_assoc] at hc2
    rw [List.cons_append] at hc2 ⊢
    exact (List.chain'_append.mp hc2).2.1
  have hchainP2 : List.Chain' (fun a b => targetAt s a l = some (some b)) (x :: P2) :=
    (List.chain'_append.mp hchain3).1
  have hfuel2 : P2.length + 1 ≤ fuel := by
    have hlen1 : (laneIds (belowK A key) l).length ≤ (belowK A key).length :=
      laneIds_length_le _ _
    have hlen2 : (belowK A key).length ≤ A.length := by
      rw [belowK]
      exact (List.takeWhile_sublist _).length_le
    have hlen3 : A.length < s.arena.length := SLRepr_length hRfull
    have hlen4 : P2.length ≤ (laneIds (belowK A key) l).length := by
      have := congrArg List.length h12
      simp at this
      omega
    omega
  rw [← hglval]
  cases hPa : laneIds (afterK A key) l with
  | nil =>
    have htail : targetAt s ((x :: P2).getLast (List.cons_ne_nil x P2)) l = some none := by
      apply hlastq
      rw [hsplitIds, hPa, List.append_nil, hglval]
      exact hgl
    refine scanKey_go s key l P2 x fuel none hfuel2 hchainP2 hmemP2 htail (Or.inl rfl)
  | cons c Pa' =>
    have hcross := (List.chain'_append.mp hchainA).2.2
    have hRpc : targetAt s (predId A key l) l = some (some c) := by
      apply hcross
      · rw [Option.mem_def]
        exact hgl
      · rw [hPa]
        rfl
    have hc : c ∈ laneIds (afterK A key) l := by
      rw [hPa]
      exact List.mem_cons_self c Pa'
    obtain ⟨e, heA, hid, _⟩ := mem_laneIds.mp hc
    have helem : elemAt s c = some e.elem := by
      rw [← hid]
      exact entry_elemAt hRfull (afterK_subset heA)
    have hnlt : ¬ e.elem < key := afterK_not_lt hsort e heA
    have htail : targetAt s ((x :: P2).getLast (List.cons_ne_nil x P2)) l =
        some (some c) := by
      rw [hglval]
      exact hRpc
    exact scanKey_go s key l P2 x fuel (some c) hfuel2 hchainP2 hmemP2 htail
      (Or.inr ⟨c, e.elem, rfl, helem, hnlt⟩)

/-- The descent predecessor is on the below-key lane. -/
theorem predId_mem (A : List Entry) (key : Int) (l : Nat) :
    predId A key l ∈ 0 :: laneIds (belowK A key) l :=
  List.getLast_mem _

/-- The descent predecessor of a higher level is on every lower below-key
lane. -/
theorem predId_mem_lower {A : List Entry} {key : Int} {l m : Nat} (h : l ≤ m) :
    predId A key m ∈ 0 :: laneIds (belowK A key) l := by
  have hm := predId_mem A key m
  rw [List.mem_cons] at hm ⊢
  cases hm with
  | inl h0 => exact Or.inl h0
  | inr h1 =>
    obtain ⟨e, he, hid, hht⟩ := mem_laneIds.mp h1
    exact Or.inr (mem_laneIds.mpr ⟨e, he, hid, by omega⟩)

/-- Above the current level the below-key lanes are empty, so the
predecessor is the head sentinel. -/
theorem predId_high {s : Skip_List} {A : List Entry} (hR : SLRepr s A) (key : Int)
    {m : Nat} (h : s.level ≤ m) : predId A key m = 0 := by
  obtain ⟨_, _, _, _, _, _, _, _, hht, _⟩ := hR
  have hnil : laneIds (belowK A key) m = [] := by
    rw [laneIds]
    apply List.map_eq_nil.mpr
    apply List.filter_eq_nil.mpr
    intro e he
    have := (hht e (belowK_subset he)).2
    simp
    omega
  rw [predId]
  have : (0 :: laneIds (belowK A key) m) = [0] := by rw [hnil]
  simp [this]

/-- The accumulating scan of `insert` visits the same nodes as the plain
scan of `find`/`remove`. -/
theorem scanKeyW_fst (s : Skip_List) (key : Int) (l : Nat) :
    ∀ (fuel : Nat) (x : NodeId) (acc : Nat),
      (scanKeyW s key l x acc fuel).map Prod.fst = scanKey s key l x fuel := by
  intro fuel
  induction fuel with
  | zero => intro x acc; rfl
  | succ n ih =>
    intro x acc
    cases hlk : linkAt s x l with
    | none => simp [scanKeyW, scanKey, targetAt, hlk]
    | some lk =>
      cases hn : lk.node with
      | none => simp [scanKeyW, scanKey, targetAt, hlk, hn]
      | some y =>
        cases he : elemAt s y with
        | none => simp [scanKeyW, scanKey, targetAt, hlk, hn, he]
        | some v =>
          by_cases hv : v < key
          · simp [scanKeyW, scanKey, targetAt, hlk, hn, he, hv, ih]
          · simp [scanKeyW, scanKey, targetAt, hlk, hn, he, hv]

/-- Unfolding step of the `insert` descent. -/
theorem insDescend_step {s : Skip_List} {key : Int} {i : Nat} {x x' : NodeId}
    {U : List (Option NodeId)} {W : List Nat} {w : Nat}
    (h : scanKeyW s key i x 0 (s.arena.length + 1) = some (x', w)) :
    insDescend s key (i + 1) x U W =
      insDescend s key i x' (U.set i (some x')) (W.set i w) := by
  simp [insDescend, h]

/-- Unfolding step of the `remove` descent. -/
theorem removeDescend_step {s : Skip_List} {key : Int} {i : Nat} {x x' : NodeId}
    {U : List (Option NodeId)}
    (h : scanKey s key i x (s.arena.length + 1) = some x') :
    removeDescend s key (i + 1) x U = removeDescend s key i x' (U.set i (some x')) := by
  simp [removeDescend, h]

/-- The `insert` descent lands on the level-0 predecessor and fills the
update array with the per-level predecessors. -/
theorem insDescend_spec {s : Skip_List} {A : List Entry} (hR : SLRepr s A) (key : Int) :
    ∀ (i : Nat) (U : List (Option NodeId)) (W : List Nat),
      i ≤ s.level → i ≤ U.length →
      ∃ U' W', insDescend s key i (predId A key i) U W = some (predId A key 0, U', W') ∧
        U'.length = U.length ∧ W'.length = W.length ∧
        (∀ j, j < i → U'.get? j = some (some (predId A key j))) ∧
        (∀ j, i ≤ j → U'.get? j = U.get? j) := by
  have hRkeep := hR
  obtain ⟨hM, hl1, hlk, _, _, _, _, _, _, _⟩ := hR
  intro i
  induction i with
  | zero =>
    intro U W _ _
    refine ⟨U, W, by rw [insDescend], rfl, rfl, fun j hj => absurd hj (by omega),
      fun j _ => rfl⟩
  | succ n ih =>
    intro U W hi hU
    have hmem : predId A key (n + 1) ∈ 0 :: laneIds (belowK A key) n :=
      predId_mem_lower (by omega)
    have hn_lt : n < s.kMaxLevel := by omega
    have hscan := scanKey_spec hRkeep key hn_lt hmem (le_refl (s.arena.length + 1))
    have hmap := scanKeyW_fst s key n (s.arena.length + 1) (predId A key (n + 1)) 0
    rw [hscan] at hmap
    obtain ⟨pr, hpr, hfst⟩ := Option.map_eq_some'.mp hmap
    obtain ⟨p1, p2⟩ := pr
    simp at hfst
    subst hfst
    obtain ⟨U', W', hrun, hlU, hlW, hlow, hhigh⟩ :=
      ih (U.set n (some (predId A key n))) (W.set n p2) (by omega)
        (by rw [List.length_set]; omega)
    refine ⟨U', W', ?_, by rw [hlU, List.length_set], by rw [hlW, List.length_set],
      ?_, ?_⟩
    · rw [insDescend_step hpr]
      exact hrun
    · intro j hj
      by_cases hje : j = n
      · subst hje
        rw [hhigh j (le_refl j)]
        exact List.get?_set_eq_of_lt _ (by omega)
      · exact hlow j (by omega)
    · intro j hj
      rw [hhigh j (by omega)]
      exact List.get?_set_ne _ _ (by omega)

/-- The `remove` descent lands on the level-0 predecessor and fills the
update array with the per-level predecessors. -/
theorem removeDescend_spec {s : Skip_List} {A : List Entry} (hR : SLRepr s A) (key : Int) :
    ∀ (i : Nat) (U : List (Option NodeId)),
      i ≤ s.level → i ≤ U.length →
      ∃ U', removeDescend s key i (predId A key i) U = some (predId A key 0, U') ∧
        U'.length = U.length ∧
        (∀ j, j < i → U'.get? j = some (some (predId A key j))) ∧
        (∀ j, i ≤ j → U'.get? j = U.get? j) := by
  have hRkeep := hR
  obtain ⟨hM, hl1, hlk, _, _, _, _, _, _, _⟩ := hR
  intro i
  induction i with
  | zero =>
    intro U _ _
    refine ⟨U, by rw [removeDescend], rfl, fun j hj => absurd hj (by omega), fun j _ => rfl⟩
  | succ n ih =>
    intro U hi hU
    have hmem : predId A key (n + 1) ∈ 0 :: laneIds (belowK A key) n :=
      predId_mem_lower (by omega)
    have hn_lt : n < s.kMaxLevel := by omega
    have hscan := scanKey_spec hRkeep key hn_lt hmem (le_refl (s.arena.length + 1))
    obtain ⟨U', hrun, hlU, hlow, hhigh⟩ :=
      ih (U.set n (some (predId A key n))) (by omega) (by rw [List.length_set]; omega)
    refine ⟨U', ?_, by rw [hlU, List.length_set], ?_, ?_⟩
    · rw [removeDescend_step hscan]
      exact hrun
    · intro j hj
      by_cases hje : j = n
      · subst hje
        rw [hhigh j (le_refl j)]
        exact List.get?_set_eq_of_lt _ (by omega)
      · exact hlow j (by omega)
    · intro j hj
      rw [hhigh j (by omega)]
      exact List.get?_set_ne _ _ (by omega)

/-- The chain predicate only depends on the targets of the listed nodes. -/
theorem chain'_target_congr {s s' : Skip_List} {l : Nat} :
    ∀ (L : List NodeId),
      (∀ a ∈ L, targetAt s' a l = targetAt s a l) →
      List.Chain' (fun a b => targetAt s a l = some (some b)) L →
      List.Chain' (fun a b => targetAt s' a l = some (some b)) L := by
  intro L
  induction L with
  | nil => intro _ _; exact List.chain'_nil
  | cons a L ih =>
    intro h hc
    cases L with
    | nil => exact List.chain'_singleton a
    | cons b L' =>
      rw [List.chain'_cons] at hc ⊢
      refine ⟨?_, ih (fun y hy => h y (List.mem_cons_of_mem _ hy)) hc.2⟩
      rw [h a (List.mem_cons_self _ _)]
      exact hc.1

/-- The chain predicate only depends on the targets of the nodes that have a
successor, i.e. all but the last. -/
theorem chain'_target_congr_ne_last {s s' : Skip_List} {l : Nat} :
    ∀ (L : List NodeId) (hL : L ≠ []), L.Nodup →
      (∀ a ∈ L, a ≠ L.getLast hL → targetAt s' a l = targetAt s a l) →
      List.Chain' (fun a b => targetAt s a l = some (some b)) L →
      List.Chain' (fun a b => targetAt s' a l = some (some b)) L := by
  intro L
  induction L with
  | nil => intro hL; exact absurd rfl hL
  | cons a L ih =>
    intro _ hnd h hc
    cases L with
    | nil => exact List.chain'_singleton a
    | cons b L' =>
      rw [List.chain'_cons] at hc ⊢
      have hlast : (a :: b :: L').getLast (List.cons_ne_nil _ _) =
          (b :: L').getLast (List.cons_ne_nil _ _) := List.getLast_cons _
      have hane : a ≠ (a :: b :: L').getLast (List.cons_ne_nil _ _) := by
        rw [hlast]
        intro hcst
        have hmem : (b :: L').getLast (List.cons_ne_nil _ _) ∈ b :: L' :=
          List.getLast_mem _
        rw [← hcst] at hmem
        exact (List.nodup_cons.mp hnd).1 hmem
      refine ⟨?_, ?_⟩
      · rw [h a (List.mem_cons_self _ _) hane]
        exact hc.1
      · refine ih (List.cons_ne_nil _ _) (List.nodup_cons.mp hnd).2 ?_ hc.2
        intro y hy hyne
        refine h y (List.mem_cons_of_mem _ hy) ?_
        rw [hlast]
        exact hyne

/-- A lane is preserved between states that agree on the targets of its
nodes. -/
theorem laneOk_congr {s s' : Skip_List} {l : Nat} {ids : List NodeId}
    (h : ∀ a ∈ 0 :: ids, targetAt s' a l = targetAt s a l)
    (hOk : laneOk s l ids) : laneOk s' l ids := by
  obtain ⟨h1, h2⟩ := hOk
  refine ⟨chain'_target_congr _ h h1, ?_⟩
  rw [h _ (List.getLast_mem _)]
  exact h2

/-- The second component of `laneOk` through `getLast?`. -/
theorem laneOk_last {s : Skip_List} {l : Nat} {ids : List NodeId}
    (hOk : laneOk s l ids) {a : NodeId} (ha : (0 :: ids).getLast? = some a) :
    targetAt s a l = some none := by
  rw [List.getLast?_eq_getLast _ (List.cons_ne_nil 0 ids)] at ha
  cases ha
  exact hOk.2

/-- Building `laneOk` from the `getLast?` form. -/
theorem laneOk_mk {s : Skip_List} {l : Nat} {ids : List NodeId}
    (h1 : List.Chain' (fun a b => targetAt s a l = some (some b)) (0 :: ids))
    (h2 : ∀ a, (0 :: ids).getLast? = some a → targetAt s a l = some none) :
    laneOk s l ids :=
  ⟨h1, h2 _ (List.getLast?_eq_getLast _ (List.cons_ne_nil 0 ids))⟩

/-- Splicing one new node after the below-key predecessor preserves a lane:
the predecessor now points at the new node, the new node points at the
predecessor's old target, and every other target on the lane is untouched. -/
theorem laneOk_insert {s s' : Skip_List} {l : Nat} {Pb Pa : List NodeId} {nid : NodeId}
    (hOk : laneOk s l (Pb ++ Pa))
    (hnd : (0 :: (Pb ++ Pa)).Nodup)
    (hnid : nid ∉ 0 :: (Pb ++ Pa))
    (hpred : targetAt s' ((0 :: Pb).getLast (List.cons_ne_nil 0 Pb)) l = some (some nid))
    (hnew : targetAt s' nid l =
      targetAt s ((0 :: Pb).getLast (List.cons_ne_nil 0 Pb)) l)
    (hother : ∀ a ∈ 0 :: (Pb ++ Pa),
      a ≠ (0 :: Pb).getLast (List.cons_ne_nil 0 Pb) →
      targetAt s' a l = targetAt s a l) :
    laneOk s' l (Pb ++ nid :: Pa) := by
  obtain ⟨hchain, hlast⟩ := hOk
  have hchainA : List.Chain' (fun a b => targetAt s a l = some (some b))
      ((0 :: Pb) ++ Pa) := by rw [List.cons_append]; exact hchain
  obtain ⟨c1, c2, c3⟩ := List.chain'_append.mp hchainA
  have hndA : ((0 :: Pb) ++ Pa).Nodup := by rw [List.cons_append]; exact hnd
  have hnd1 : (0 :: Pb).Nodup := (List.Nodup.of_append_left hndA)
  have hnd2 : Pa.Nodup := (List.Nodup.of_append_right hndA)
  have hdisj : ∀ a ∈ Pa, a ∉ (0 :: Pb) := by
    intro a ha hb
    exact (List.disjoint_of_nodup_append hndA) hb ha
  have hg := List.getLast_mem (List.cons_ne_nil 0 Pb)
  have hglq : (0 :: Pb).getLast? = some ((0 :: Pb).getLast (List.cons_ne_nil 0 Pb)) :=
    List.getLast?_eq_getLast _ _
  -- chain on the prefix in the new state
  have c1' : List.Chain' (fun a b => targetAt s' a l = some (some b)) (0 :: Pb) := by
    refine chain'_target_congr_ne_last (0 :: Pb) (List.cons_ne_nil 0 Pb) hnd1 ?_ c1
    intro a ha hane
    exact hother a (by rw [← List.cons_append]; exact List.mem_append_left _ ha) hane
  -- chain on the suffix in the new state
  have c2' : List.Chain' (fun a b => targetAt s' a l = some (some b)) Pa := by
    refine chain'_target_congr Pa ?_ c2
    intro a ha
    refine hother a (by rw [← List.cons_append]; exact List.mem_append_right _ ha) ?_
    intro hcst
    exact hdisj a ha (by rw [hcst]; exact hg)
  -- targets out of the new node
  have hnewtgt : targetAt s' nid l = some (Pa.head?) := by
    rw [hnew]
    cases hPa : Pa with
    | nil =>
      have hlq : (0 :: (Pb ++ Pa)).getLast? =
          some ((0 :: Pb).getLast (List.cons_ne_nil 0 Pb)) := by
        rw [hPa, List.append_nil]
        exact hglq
      exact laneOk_last ⟨hchain, hlast⟩ hlq
    | cons c Pa' =>
      show targetAt s ((0 :: Pb).getLast (List.cons_ne_nil 0 Pb)) l = some (some c)
      refine c3 _ ?_ c ?_
      · rw [Option.mem_def]; exact hglq
      · rw [hPa]; rfl
  refine laneOk_mk ?_ ?_
  · rw [show (0 : NodeId) :: (Pb ++ nid :: Pa) = (0 :: Pb) ++ nid :: Pa from rfl]
    rw [List.chain'_append]
    refine ⟨c1', ?_, ?_⟩
    · cases hPa : Pa with
      | nil => exact List.chain'_singleton nid
      | cons c Pa' =>
        rw [List.chain'_cons]
        constructor
        · rw [hnewtgt, hPa]
          rfl
        · rw [← hPa]; exact c2'
    · intro a ha b hb
      rw [Option.mem_def] at ha hb
      rw [hglq] at ha
      cases ha
      cases hb
      exact hpred
  · intro a ha
    cases hPa : Pa with
    | nil =>
      have : ((0 : NodeId) :: (Pb ++ nid :: Pa)).getLast? = some nid := by
        rw [hPa]
        rw [show (0 : NodeId) :: (Pb ++ [nid]) = (0 :: Pb) ++ [nid] from rfl]
        rw [List.getLast?_append_of_ne_nil _ (List.cons_ne_nil nid [])]
        rfl
      rw [this] at ha
      cases ha
      rw [hnewtgt, hPa]
      rfl
    | cons c Pa' =>
      have hq : ((0 : NodeId) :: (Pb ++ nid :: Pa)).getLast? = Pa.getLast? := by
        rw [show (0 : NodeId) :: (Pb ++ nid :: Pa) = (0 :: Pb) ++ nid :: Pa from rfl]
        rw [List.getLast?_append_of_ne_nil _ (List.cons_ne_nil nid Pa)]
        rw [show nid :: Pa = [nid] ++ Pa from rfl]
        rw [List.getLast?_append_of_ne_nil _ (by rw [hPa]; exact List.cons_ne_nil c Pa')]
      rw [hq] at ha
      have haPa : a ∈ Pa := by
        have := List.getLast?_eq_getLast Pa (by rw [hPa]; exact List.cons_ne_nil c Pa')
        rw [this] at ha
        cases ha
        exact List.getLast_mem _
      have hane : a ≠ (0 :: Pb).getLast (List.cons_ne_nil 0 Pb) := by
        intro hcst
        exact hdisj a haPa (by rw [hcst]; exact hg)
      rw [hother a (by rw [← List.cons_append]; exact List.mem_append_right _ haPa) hane]
      apply laneOk_last ⟨hchain, hlast⟩
      rw [show (0 : NodeId) :: (Pb ++ Pa) = (0 :: Pb) ++ Pa from rfl]
      rw [List.getLast?_append_of_ne_nil _ (by rw [hPa]; exact List.cons_ne_nil c Pa')]
      exact ha

/-- Unlinking one node after the below-key predecessor preserves a lane: the
predecessor now points at the removed node's old target and every other
target on the remaining lane is untouched. -/
theorem laneOk_erase {s s' : Skip_List} {l : Nat} {Pb Pa : List NodeId} {xid : NodeId}
    (hOk : laneOk s l (Pb ++ xid :: Pa))
    (hnd : (0 :: (Pb ++ xid :: Pa)).Nodup)
    (hpred : targetAt s' ((0 :: Pb).getLast (List.cons_ne_nil 0 Pb)) l =
      targetAt s xid l)
    (hother : ∀ a ∈ 0 :: (Pb ++ Pa),
      a ≠ (0 :: Pb).getLast (List.cons_ne_nil 0 Pb) →
      targetAt s' a l = targetAt s a l) :
    laneOk s' l (Pb ++ Pa) := by
  obtain ⟨hchain, hlast⟩ := hOk
  have hchainA : List.Chain' (fun a b => targetAt s a l = some (some b))
      ((0 :: Pb) ++ xid :: Pa) := by rw [List.cons_append]; exact hchain
  obtain ⟨c1, c2, c3⟩ := List.chain'_append.mp hchainA
  have hndA : ((0 :: Pb) ++ xid :: Pa).Nodup := by rw [List.cons_append]; exact hnd
  have hnd1 : (0 :: Pb).Nodup := List.Nodup.of_append_left hndA
  have hdisj : ∀ a ∈ xid :: Pa, a ∉ (0 :: Pb) := by
    intro a ha hb
    exact (List.disjoint_of_nodup_append hndA) hb ha
  have hndx : xid ∉ Pa := (List.nodup_cons.mp (List.Nodup.of_append_right hndA)).1
  have hg := List.getLast_mem (List.cons_ne_nil 0 Pb)
  have hglq : (0 :: Pb).getLast? = some ((0 :: Pb).getLast (List.cons_ne_nil 0 Pb)) :=
    List.getLast?_eq_getLast _ _
  -- the removed node's own old target
  have hxtgt : targetAt s xid l = some (Pa.head?) := by
    cases hPa : Pa with
    | nil =>
      apply laneOk_last ⟨hchain, hlast⟩
      rw [show (0 : NodeId) :: (Pb ++ xid :: Pa) = (0 :: Pb) ++ xid :: Pa from rfl]
      rw [List.getLast?_append_of_ne_nil _ (List.cons_ne_nil xid Pa), hPa]
      rfl
    | cons c Pa' =>
      rw [hPa] at c2
      rw [List.chain'_cons] at c2
      exact c2.1
  have c1' : List.Chain' (fun a b => targetAt s' a l = some (some b)) (0 :: Pb) := by
    refine chain'_target_congr_ne_last (0 :: Pb) (List.cons_ne_nil 0 Pb) hnd1 ?_ c1
    intro a ha hane
    exact hother a (by rw [← List.cons_append]; exact List.mem_append_left _ ha) hane
  have c2' : List.Chain' (fun a b => targetAt s' a l = some (some b)) Pa := by
    refine @chain'_target_congr s s' l Pa ?_ ((List.chain'_cons'.mp c2).2)
    intro a ha
    refine hother a (by rw [← List.cons_append]; exact List.mem_append_right _ ha) ?_
    intro hcst
    exact hdisj a (List.mem_cons_of_mem _ ha) (by rw [hcst]; exact hg)
  refine laneOk_mk ?_ ?_
  · rw [show (0 : NodeId) :: (Pb ++ Pa) = (0 :: Pb) ++ Pa from rfl]
    rw [List.chain'_append]
    refine ⟨c1', c2', ?_⟩
    intro a ha b hb
    rw [Option.mem_def] at ha hb
    rw [hglq] at ha
    cases ha
    rw [hpred, hxtgt, hb]
  · intro a ha
    cases hPa : Pa with
    | nil =>
      have : ((0 : NodeId) :: (Pb ++ Pa)).getLast? =
          some ((0 :: Pb).getLast (List.cons_ne_nil 0 Pb)) := by
        rw [hPa, List.append_nil]
        exact hglq
      rw [this] at ha
      cases ha
      rw [hpred, hxtgt, hPa]
      rfl
    | cons c Pa' =>
      have hq : ((0 : NodeId) :: (Pb ++ Pa)).getLast? = Pa.getLast? := by
        rw [show (0 : NodeId) :: (Pb ++ Pa) = (0 :: Pb) ++ Pa from rfl]
        rw [List.getLast?_append_of_ne_nil _ (by rw [hPa]; exact List.cons_ne_nil c Pa')]
      rw [hq] at ha
      have haPa : a ∈ Pa := by
        have := List.getLast?_eq_getLast Pa (by rw [hPa]; exact List.cons_ne_nil c Pa')
        rw [this] at ha
        cases ha
        exact List.getLast_mem _
      have hane : a ≠ (0 :: Pb).getLast (List.cons_ne_nil 0 Pb) := by
        intro hcst
        exact hdisj a (List.mem_cons_of_mem _ haPa) (by rw [hcst]; exact hg)
      rw [hother a (by rw [← List.cons_append]; exact List.mem_append_right _ haPa) hane]
      apply laneOk_last ⟨hchain, hlast⟩
      rw [show (0 : NodeId) :: (Pb ++ xid :: Pa) = (0 :: Pb) ++ xid :: Pa from rfl]
      rw [List.getLast?_append_of_ne_nil _ (List.cons_ne_nil xid Pa)]
      rw [show xid :: Pa = [xid] ++ Pa from rfl]
      rw [List.getLast?_append_of_ne_nil _ (by rw [hPa]; exact List.cons_ne_nil c Pa')]
      exact ha

/-- The two halves of the key split reassemble the abstract list. -/
theorem belowK_append_afterK (A : List Entry) (key : Int) :
    belowK A key ++ afterK A key = A := by
  rw [belowK, afterK]
  exact List.takeWhile_append_dropWhile _ _

/-- What the level-`l` descent predecessor points at: the first level-`l`
node at or after the key split (or null when there is none). -/
theorem pred_target {s : Skip_List} {A : List Entry} (hR : SLRepr s A) (key : Int)
    {l : Nat} (hl : l < s.kMaxLevel) :
    targetAt s (predId A key l) l = some ((laneIds (afterK A key) l).head?) := by
  have hRfull := hR
  obtain ⟨_, _, _, _, _, _, _, _, _, hch⟩ := hR
  have hlane := hch l hl
  have hsplitIds : laneIds A l = laneIds (belowK A key) l ++ laneIds (afterK A key) l :=
    laneIds_split A key l
  have hchainA : List.Chain' (fun a b => targetAt s a l = some (some b))
      ((0 :: laneIds (belowK A key) l) ++ laneIds (afterK A key) l) := by
    rw [List.cons_append, ← hsplitIds]
    exact hlane.1
  have hglq : (0 :: laneIds (belowK A key) l).getLast? = some (predId A key l) :=
    List.getLast?_eq_getLast _ _
  cases hPa : laneIds (afterK A key) l with
  | nil =>
    apply laneOk_last hlane
    rw [hsplitIds, hPa, List.append_nil]
    exact hglq
  | cons c Pa' =>
    refine (List.chain'_append.mp hchainA).2.2 _ ?_ c ?_
    · rw [Option.mem_def]
      exact hglq
    · rw [hPa]
      rfl

/-- On a sorted abstract list the key occurs exactly when the entry at the
split point carries it. -/
theorem key_mem_afterK {A : List Entry} {key : Int}
    (hsort : List.Chain' (fun a b => a < b) (A.map Entry.elem)) :
    key ∈ A.map Entry.elem ↔
      ∃ e rest, afterK A key = e :: rest ∧ e.elem = key := by
  constructor
  · intro hk
    cases hA : afterK A key with
    | nil =>
      exfalso
      obtain ⟨e, he, helem⟩ := List.mem_map.mp hk
      have hsplit : A = belowK A key := by
        conv_lhs => rw [← belowK_append_afterK A key]
        rw [hA, List.append_nil]
      rw [hsplit] at he
      have := belowK_lt he
      omega
    | cons e0 rest =>
      by_cases he0 : e0.elem = key
      · exact ⟨e0, rest, rfl, he0⟩
      · exfalso
        obtain ⟨e, he, helem⟩ := List.mem_map.mp hk
        have hsplit : A = belowK A key ++ e0 :: rest := by
          conv_lhs => rw [← belowK_append_afterK A key]
          rw [hA]
        rw [hsplit] at he
        rw [List.mem_append] at he
        cases he with
        | inl h => have := belowK_lt h; omega
        | inr h =>
          have hge : ∀ f ∈ afterK A key, ¬ f.elem < key := afterK_not_lt hsort
          rw [List.mem_cons] at h
          cases h with
          | inl h1 => subst h1; exact he0 helem
          | inr h1 =>
            have h0lt : ¬ e0.elem < key := by
              apply hge
              rw [hA]
              exact List.mem_cons_self _ _
            rw [hsplit, List.map_append] at hsort
            have h2 := (List.chain'_append.mp hsort).2.1
            rw [List.map_cons] at h2
            have h3 := List.chain'_iff_pairwise.mp h2
            rw [List.pairwise_cons] at h3
            have h4 : e0.elem < e.elem := h3.1 e.elem (List.mem_map_of_mem Entry.elem h1)
            omega
  · rintro ⟨e, rest, hA, he⟩
    have hmem : e ∈ A := afterK_subset (by rw [hA]; exact List.mem_cons_self e rest)
    rw [← he]
    exact List.mem_map_of_mem Entry.elem hmem

/-- A `nodeAt` read exposes the arena slot. -/
theorem nodeAt_some {s : Skip_List} {x : NodeId} {n : Skip_Node}
    (h : nodeAt s x = some n) : s.arena.get? x = some (some n) := by
  rw [nodeAt] at h
  split at h
  · rename_i heq
    cases h
    exact heq
  · exact Option.noConfusion h

/-- A `widthAt` read from a level below the node's height succeeds. -/
theorem widthAt_isSome {s : Skip_List} {a : NodeId} {L m : Nat}
    (h : lenAt s a = some L) (hm : m < L) : ∃ w, widthAt s a m = some w := by
  obtain ⟨lk, hlk⟩ := linkAt_isSome h hm
  exact ⟨lk.width, by rw [widthAt, hlk]; rfl⟩

/-- `linkAt` through `nodeAt`. -/
theorem linkAt_of_nodeAt {s : Skip_List} {x : NodeId} {n : Skip_Node}
    (h : nodeAt s x = some n) (l : Nat) : linkAt s x l = n.forward.get? l := by
  rw [linkAt, h]
  rfl

/-- A link write succeeds exactly on a valid node/level pair. -/
theorem setLinkNode_succeeds {s : Skip_List} {x : NodeId} {l : Nat} {lk : Skip_Link}
    (h : linkAt s x l = some lk) (v : Option NodeId) :
    ∃ s', setLinkNode s x l v = some s' := by
  rw [linkAt] at h
  cases hn : nodeAt s x with
  | none => rw [hn] at h; exact Option.noConfusion h
  | some n =>
    rw [hn] at h
    rw [Option.some_bind] at h
    have hs : (setLinkNode s x l v).isSome := by
      rw [List.get?_eq_getElem?] at h
      rw [setLinkNode, nodeAt_some hn]
      simp [h]
    obtain ⟨s', hs'⟩ := Option.isSome_iff_exists.mp hs
    exact ⟨s', hs'⟩

/-- A width write succeeds exactly on a valid node/level pair. -/
theorem setLinkWidth_succeeds {s : Skip_List} {x : NodeId} {l : Nat} {lk : Skip_Link}
    (h : linkAt s x l = some lk) (w : Nat) :
    ∃ s', setLinkWidth s x l w = some s' := by
  rw [linkAt] at h
  cases hn : nodeAt s x with
  | none => rw [hn] at h; exact Option.noConfusion h
  | some n =>
    rw [hn] at h
    rw [Option.some_bind] at h
    have hs : (setLinkWidth s x l w).isSome := by
      rw [List.get?_eq_getElem?] at h
      rw [setLinkWidth, nodeAt_some hn]
      simp [h]
    obtain ⟨s', hs'⟩ := Option.isSome_iff_exists.mp hs
    exact ⟨s', hs'⟩

/-- Unfolding step of the raise loop. -/
theorem raiseLoopAux_step {s s' : Skip_List} {U : List (Option NodeId)} {i k : Nat}
    (h : setLinkWidth s 0 i 0 = some s') :
    raiseLoopAux s U i (k + 1) = raiseLoopAux s' (U.set i (some 0)) (i + 1) k := by
  simp [raiseLoopAux, h]

/-- Effect of the raise loop of `insert`: it writes head widths on the new
levels, records the head in the update array there, and changes no target,
element or height. -/
theorem raiseLoopAux_spec :
    ∀ (k i : Nat) (s : Skip_List) (U : List (Option NodeId)) (L : Nat),
      lenAt s 0 = some L → i + k ≤ L → i + k ≤ U.length →
      ∃ s1 U1, raiseLoopAux s U i k = some (s1, U1) ∧
        (∀ a, ptrAt s1 a = ptrAt s a) ∧
        (∀ a, lenAt s1 a = lenAt s a) ∧
        (∀ a m, targetAt s1 a m = targetAt s a m) ∧
        U1.length = U.length ∧
        (∀ j, j < i ∨ i + k ≤ j → U1.get? j = U.get? j) ∧
        (∀ j, i ≤ j → j < i + k → U1.get? j = some (some 0)) ∧
        MetaSame s s1 := by
  intro k
  induction k with
  | zero =>
    intro i s U L hL hik hiU
    exact ⟨s, U, by rw [raiseLoopAux], fun a => rfl, fun a => rfl, fun a m => rfl, rfl,
      fun j _ => rfl, fun j h1 h2 => absurd (lt_of_le_of_lt h1 h2) (by omega),
      MetaSame.refl s⟩
  | succ n ih =>
    intro i s U L hL hik hiU
    obtain ⟨lk, hlk⟩ := @linkAt_isSome s 0 L i hL (by omega)
    obtain ⟨s', hset⟩ := setLinkWidth_succeeds hlk 0
    have hE := setLinkWidth_effect hset
    have hL' : lenAt s' 0 = some L := by rw [hE.2.1 0]; exact hL
    obtain ⟨s1, U1, hrun, hptr, hlen, htgt, hUlen, hUout, hUin, hmeta⟩ :=
      ih (i + 1) s' (U.set i (some 0)) L hL' (by omega) (by rw [List.length_set]; omega)
    refine ⟨s1, U1, ?_, ?_, ?_, ?_, ?_, ?_, ?_, ?_⟩
    · rw [raiseLoopAux_step hset]
      exact hrun
    · intro a
      rw [hptr a, hE.1 a]
    · intro a
      rw [hlen a, hE.2.1 a]
    · intro a m
      rw [htgt a m, hE.2.2.1 a m]
    · rw [hUlen, List.length_set]
    · intro j hj
      have : j < i + 1 ∨ i + 1 + n ≤ j := by omega
      rw [hUout j this]
      exact List.get?_set_ne _ _ (by omega)
    · intro j hj1 hj2
      by_cases hje : j = i
      · subst hje
        rw [hUout j (Or.inl (by omega))]
        exact List.get?_set_eq_of_lt _ (by omega)
      · exact hUin j (by omega) (by omega)
    · exact (setLinkWidth_meta hset).comp hmeta

/-- Reading the target through an existing link. -/
theorem targetAt_of_linkAt {s : Skip_List} {x : NodeId} {l : Nat} {lk : Skip_Link}
    (h : linkAt s x l = some lk) : targetAt s x l = some lk.node := by
  rw [targetAt, h]
  rfl

/-- Unfolding step of the splice loop at level 0. -/
theorem spliceLoopAux_step_zero {U : List (Option NodeId)} {W : List Nat}
    {newId : NodeId} {s s1 s2 : Skip_List} {k : Nat} {ui : NodeId} {t : Option NodeId}
    (hU : U.get? 0 = some (some ui))
    (ht : targetAt s ui 0 = some t)
    (h1 : setLinkNode s newId 0 t = some s1)
    (h2 : setLinkNode s1 ui 0 (some newId) = some s2) :
    spliceLoopAux U W newId s 0 (k + 1) = spliceLoopAux U W newId s2 1 k := by
  rw [List.get?_eq_getElem?] at hU
  simp [spliceLoopAux, hU, ht, h1, h2]

/-- Unfolding step of the splice loop at a positive level. -/
theorem spliceLoopAux_step_pos {U : List (Option NodeId)} {W : List Nat}
    {newId : NodeId} {s s1 s2 s3 s4 : Skip_List} {i k : Nat} {ui u' : NodeId}
    {t : Option NodeId} {pw uw cw : Nat}
    (hi : i ≠ 0)
    (hU : U.get? i = some (some ui))
    (ht : targetAt s ui i = some t)
    (h1 : setLinkNode s newId i t = some s1)
    (h2 : setLinkNode s1 ui i (some newId) = some s2)
    (hU' : U.get? (i - 1) = some (some u'))
    (hpw : widthAt s2 u' (i - 1) = some pw)
    (hW : W.get? (i - 1) = some uw)
    (hcw : widthAt s2 ui i = some cw)
    (h3 : setLinkWidth s2 newId i
      (if 0 < cw then stSub (stAdd cw 1) (stAdd uw pw) else 0) = some s3)
    (h4 : setLinkWidth s3 ui i (stAdd uw pw) = some s4) :
    spliceLoopAux U W newId s i (k + 1) = spliceLoopAux U W newId s4 (i + 1) k := by
  rw [List.get?_eq_getElem?] at hU hU' hW
  simp [spliceLoopAux, hU, ht, h1, h2, hi, hU', hpw, hW, hcw, h3, h4]

/-- Effect of the splice loop of `insert`: at every level in the iteration
range the level-`m` predecessor `u m` is re-pointed at the new node, the new
node is pointed at the predecessor's old target, and no other target (nor any
element or height) changes. -/
theorem spliceLoopAux_spec :
    ∀ (k i : Nat) (s : Skip_List) (U : List (Option NodeId)) (W : List Nat)
      (newId : NodeId) (u : Nat → NodeId) (LN : Nat),
      (∀ j, j < i + k → U.get? j = some (some (u j))) →
      (∀ j, j < i + k → ∃ Lj, lenAt s (u j) = some Lj ∧ j < Lj) →
      lenAt s newId = some LN → i + k ≤ LN →
      (∀ j, j < i + k → u j ≠ newId) →
      i + k ≤ W.length + 1 →
      ∃ s4, spliceLoopAux U W newId s i k = some s4 ∧
        (∀ a, ptrAt s4 a = ptrAt s a) ∧
        (∀ a, lenAt s4 a = lenAt s a) ∧
        (∀ a m, ¬(i ≤ m ∧ m < i + k ∧ (a = u m ∨ a = newId)) →
          targetAt s4 a m = targetAt s a m) ∧
        (∀ m, i ≤ m → m < i + k → targetAt s4 (u m) m = some (some newId)) ∧
        (∀ m, i ≤ m → m < i + k → targetAt s4 newId m = targetAt s (u m) m) ∧
        MetaSame s s4 := by
  intro k
  induction k with
  | zero =>
    intro i s U W newId u LN hU hlen hLN hiLN hne hW
    exact ⟨s, by rw [spliceLoopAux], fun a => rfl, fun a => rfl, fun a m _ => rfl,
      fun m h1 h2 => absurd (lt_of_le_of_lt h1 h2) (by omega),
      fun m h1 h2 => absurd (lt_of_le_of_lt h1 h2) (by omega), MetaSame.refl s⟩
  | succ n ih =>
    intro i s U W newId u LN hU hlen hLN hiLN hne hW
    -- iteration i
    obtain ⟨Li, hLi, hiLi⟩ := hlen i (by omega)
    obtain ⟨lki, hlki⟩ := @linkAt_isSome s (u i) Li i hLi hiLi
    have ht : targetAt s (u i) i = some lki.node := targetAt_of_linkAt hlki
    obtain ⟨lkN, hlkN⟩ := @linkAt_isSome s newId LN i hLN (by omega)
    obtain ⟨s1, h1⟩ := setLinkNode_succeeds hlkN lki.node
    have hE1 := setLinkNode_effect h1
    obtain ⟨lki1, hlki1⟩ := @linkAt_isSome s1 (u i) Li i (by rw [hE1.2.1]; exact hLi) hiLi
    obtain ⟨s2, h2⟩ := setLinkNode_succeeds hlki1 (some newId)
    have hE2 := setLinkNode_effect h2
    -- reads through to s2
    have hlen2 : ∀ a, lenAt s2 a = lenAt s a := fun a => by
      rw [hE2.2.1 a, hE1.2.1 a]
    have hptr2 : ∀ a, ptrAt s2 a = ptrAt s a := fun a => by
      rw [hE2.1 a, hE1.1 a]
    have htgt2 : ∀ a m, ¬(a = newId ∧ m = i) → ¬(a = u i ∧ m = i) →
        targetAt s2 a m = targetAt s a m := fun a m hn1 hn2 => by
      rw [hE2.2.2.2.1 a m hn2, hE1.2.2.2.1 a m hn1]
    have htgt2ui : targetAt s2 (u i) i = some (some newId) := hE2.2.2.2.2
    have htgt2new : targetAt s2 newId i = targetAt s (u i) i := by
      by_cases hsame : newId = u i
      · exact absurd hsame.symm (hne i (by omega))
      · rw [hE2.2.2.2.1 newId i (fun hc => hsame hc.1), hE1.2.2.2.2, ht]
    -- continue, splitting on i = 0
    by_cases hi0 : i = 0
    · subst hi0
      obtain ⟨s4, hrun, hptr, hlen4, htgtO, htgtU, htgtN, hmeta⟩ :=
        ih 1 s2 U W newId u LN (fun j hj => hU j (by omega))
          (fun j hj => by
            obtain ⟨Lj, hLj, hjLj⟩ := hlen j (by omega)
            exact ⟨Lj, by rw [hlen2]; exact hLj, hjLj⟩)
          (by rw [hlen2]; exact hLN) (by omega) (fun j hj => hne j (by omega)) (by omega)
      refine ⟨s4, ?_, ?_, ?_, ?_, ?_, ?_, ?_⟩
      · rw [spliceLoopAux_step_zero (hU 0 (by omega)) ht h1 h2]
        exact hrun
      · intro a; rw [hptr a, hptr2 a]
      · intro a; rw [hlen4 a, hlen2 a]
      · intro a m hm
        push_neg at hm
        have hm0 : 0 ≤ m := by omega
        by_cases hmi : m = 0
        · subst hmi
          have hcase := hm hm0 (by omega)
          rw [htgtO a 0 (by push_neg; intro h1c h2c; omega)]
          exact htgt2 a 0 (fun hc => hcase.2 hc.1) (fun hc => hcase.1 hc.1)
        · by_cases hrange : m < 0 + (n + 1)
          · have hcase := hm hm0 hrange
            rw [htgtO a m (by push_neg; intro h1c h2c; exact hcase)]
            exact htgt2 a m (fun hc => absurd hc.2 hmi) (fun hc => absurd hc.2 hmi)
          · rw [htgtO a m (by push_neg; intro h1c h2c; omega)]
            exact htgt2 a m (fun hc => absurd hc.2 hmi) (fun hc => absurd hc.2 hmi)
      · intro m hm1 hm2
        by_cases hmi : m = 0
        · subst hmi
          rw [htgtO (u 0) 0 ?_]
          · exact htgt2ui
          · push_neg
            intro h1c
            omega
        · exact htgtU m (by omega) (by omega)
      · intro m hm1 hm2
        by_cases hmi : m = 0
        · subst hmi
          rw [htgtO newId 0 ?_]
          · exact htgt2new
          · push_neg
            intro h1c
            omega
        · rw [htgtN m (by omega) (by omega)]
          exact htgt2 (u m) m (fun hc => (hne m (by omega)) hc.1)
            (fun hc => absurd hc.2 hmi)
      · exact ((setLinkNode_meta h1).comp (setLinkNode_meta h2)).comp hmeta
    · -- width bookkeeping at level i > 0
      obtain ⟨L', hL', hL'lt⟩ := hlen (i - 1) (by omega)
      obtain ⟨pw, hpw⟩ := @widthAt_isSome s2 (u (i - 1)) L' (i - 1)
        (by rw [hlen2]; exact hL') hL'lt
      have hWlt : i - 1 < W.length := by omega
      obtain ⟨uw, hW'⟩ : ∃ uw, W.get? (i - 1) = some uw :=
        ⟨W.get ⟨i - 1, hWlt⟩, List.get?_eq_get hWlt⟩
      obtain ⟨cw, hcw⟩ := @widthAt_isSome s2 (u i) Li i (by rw [hlen2]; exact hLi) hiLi
      obtain ⟨lkN2, hlkN2⟩ := @linkAt_isSome s2 newId LN i (by rw [hlen2]; exact hLN)
        (by omega)
      obtain ⟨s3, h3⟩ := setLinkWidth_succeeds hlkN2
        (if 0 < cw then stSub (stAdd cw 1) (stAdd uw pw) else 0)
      have hE3 := setLinkWidth_effect h3
      obtain ⟨lki3, hlki3⟩ := @linkAt_isSome s3 (u i) Li i
        (by rw [hE3.2.1, hlen2]; exact hLi) hiLi
      obtain ⟨s4a, h4⟩ := setLinkWidth_succeeds hlki3 (stAdd uw pw)
      have hE4 := setLinkWidth_effect h4
      have hlen4a : ∀ a, lenAt s4a a = lenAt s a := fun a => by
        rw [hE4.2.1 a, hE3.2.1 a, hlen2 a]
      have hptr4a : ∀ a, ptrAt s4a a = ptrAt s a := fun a => by
        rw [hE4.1 a, hE3.1 a, hptr2 a]
      have htgt4a : ∀ a m, ¬(a = newId ∧ m = i) → ¬(a = u i ∧ m = i) →
          targetAt s4a a m = targetAt s a m := fun a m hn1 hn2 => by
        rw [hE4.2.2.1 a m, hE3.2.2.1 a m]
        exact htgt2 a m hn1 hn2
      have htgt4aui : targetAt s4a (u i) i = some (some newId) := by
        rw [hE4.2.2.1, hE3.2.2.1]
        exact htgt2ui
      have htgt4anew : targetAt s4a newId i = targetAt s (u i) i := by
        rw [hE4.2.2.1, hE3.2.2.1]
        exact htgt2new
      obtain ⟨s4, hrun, hptr, hlen4, htgtO, htgtU, htgtN, hmeta⟩ :=
        ih (i + 1) s4a U W newId u LN (fun j hj => hU j (by omega))
          (fun j hj => by
            obtain ⟨Lj, hLj, hjLj⟩ := hlen j (by omega)
            exact ⟨Lj, by rw [hlen4a]; exact hLj, hjLj⟩)
          (by rw [hlen4a]; exact hLN) (by omega) (fun j hj => hne j (by omega)) (by omega)
      refine ⟨s4, ?_, ?_, ?_, ?_, ?_, ?_, ?_⟩
      · rw [spliceLoopAux_step_pos hi0 (hU i (by omega)) ht h1 h2
          (hU (i - 1) (by omega)) hpw hW' hcw h3 h4]
        exact hrun
      · intro a; rw [hptr a, hptr4a a]
      · intro a; rw [hlen4 a, hlen4a a]
      · intro a m hm
        push_neg at hm
        by_cases hmi : m = i
        · subst hmi
          have hcase := hm (le_refl m) (by omega)
          rw [htgtO a m (by push_neg; intro h1c h2c; omega)]
          exact htgt4a a m (fun hc => hcase.2 hc.1) (fun hc => hcase.1 hc.1)
        · by_cases hlow : m < i
          · rw [htgtO a m (by push_neg; intro h1c h2c; omega)]
            exact htgt4a a m (fun hc => absurd hc.2 hmi) (fun hc => absurd hc.2 hmi)
          · by_cases hrange : m < i + (n + 1)
            · have hcase := hm (by omega) hrange
              rw [htgtO a m (by push_neg; intro h1c h2c; exact hcase)]
              exact htgt4a a m (fun hc => absurd hc.2 hmi) (fun hc => absurd hc.2 hmi)
            · rw [htgtO a m (by push_neg; intro h1c h2c; omega)]
              exact htgt4a a m (fun hc => absurd hc.2 hmi) (fun hc => absurd hc.2 hmi)
      · intro m hm1 hm2
        by_cases hmi : m = i
        · subst hmi
          rw [htgtO (u m) m ?_]
          · exact htgt4aui
          · push_neg
            intro h1c
            omega
        · exact htgtU m (by omega) (by omega)
      · intro m hm1 hm2
        by_cases hmi : m = i
        · subst hmi
          rw [htgtO newId m ?_]
          · exact htgt4anew
          · push_neg
            intro h1c
            omega
        · rw [htgtN m (by omega) (by omega)]
          exact htgt4a (u m) m (fun hc => (hne m (by omega)) hc.1)
            (fun hc => absurd hc.2 hmi)
      · exact ((((setLinkNode_meta h1).comp (setLinkNode_meta h2)).comp
          (setLinkWidth_meta h3)).comp (setLinkWidth_meta h4)).comp hmeta

/-- Unfolding step of the unlink loop: decrement branch. -/
theorem removeLoopAux_step_dec {U : List (Option NodeId)} {x : NodeId}
    {s s' : Skip_List} {i k : Nat} {ui : NodeId} {t : Option NodeId} {w : Nat}
    (hU : U.get? i = some (some ui))
    (ht : targetAt s ui i = some t)
    (hne : t ≠ some x)
    (hw : widthAt s ui i = some w)
    (hset : setLinkWidth s ui i (stSub w 1) = some s') :
    removeLoopAux U x s i (k + 1) = removeLoopAux U x s' (i + 1) k := by
  rw [List.get?_eq_getElem?] at hU
  simp [removeLoopAux, hU, ht, hne, hw, hset]

/-- Unfolding step of the unlink loop: relink branch, positive width. -/
theorem removeLoopAux_step_un_pos {U : List (Option NodeId)} {x : NodeId}
    {s s1 s2 s3 : Skip_List} {i k : Nat} {ui : NodeId} {xt : Option NodeId}
    {xw uw : Nat}
    (hU : U.get? i = some (some ui))
    (ht : targetAt s ui i = some (some x))
    (hxt : targetAt s x i = some xt)
    (h1 : setLinkNode s ui i xt = some s1)
    (h2 : setLinkNode s1 x i none = some s2)
    (hxw : widthAt s2 x i = some xw)
    (hpos : 0 < xw)
    (huw : widthAt s2 ui i = some uw)
    (h3 : setLinkWidth s2 ui i (stAdd uw (stSub xw 1)) = some s3) :
    removeLoopAux U x s i (k + 1) = removeLoopAux U x s3 (i + 1) k := by
  rw [List.get?_eq_getElem?] at hU
  simp [removeLoopAux, hU, ht, hxt, h1, h2, hxw, hpos, huw, h3]

/-- Unfolding step of the unlink loop: relink branch, zero width. -/
theorem removeLoopAux_step_un_zero {U : List (Option NodeId)} {x : NodeId}
    {s s1 s2 s3 : Skip_List} {i k : Nat} {ui : NodeId} {xt : Option NodeId} {xw : Nat}
    (hU : U.get? i = some (some ui))
    (ht : targetAt s ui i = some (some x))
    (hxt : targetAt s x i = some xt)
    (h1 : setLinkNode s ui i xt = some s1)
    (h2 : setLinkNode s1 x i none = some s2)
    (hxw : widthAt s2 x i = some xw)
    (hpos : ¬ 0 < xw)
    (h3 : setLinkWidth s2 ui i 0 = some s3) :
    removeLoopAux U x s i (k + 1) = removeLoopAux U x s3 (i + 1) k := by
  rw [List.get?_eq_getElem?] at hU
  simp [removeLoopAux, hU, ht, hxt, h1, h2, hxw, hpos, h3]

/-- Effect of the unlink loop of `remove`: at every level of the removed
node, the level predecessor is re-pointed at the removed node's old target;
at the levels above the removed node's height only a width changes; no
element, height or other target changes (the removed node's own links are
excluded). -/
theorem removeLoopAux_spec :
    ∀ (k i : Nat) (s : Skip_List) (U : List (Option NodeId)) (x : NodeId)
      (u : Nat → NodeId) (htx : Nat),
      (∀ j, j < i + k → U.get? j = some (some (u j))) →
      (∀ j, j < i + k → ∃ Lj, lenAt s (u j) = some Lj ∧ j < Lj) →
      lenAt s x = some htx →
      (∀ j, j < i + k → u j ≠ x) →
      (∀ j, i ≤ j → j < i + k → (targetAt s (u j) j = some (some x) ↔ j < htx)) →
      ∃ s', removeLoopAux U x s i k = some s' ∧
        (∀ a, ptrAt s' a = ptrAt s a) ∧
        (∀ a, lenAt s' a = lenAt s a) ∧
        (∀ a m, a ≠ x → ¬(i ≤ m ∧ m < i + k ∧ a = u m ∧ m < htx) →
          targetAt s' a m = targetAt s a m) ∧
        (∀ m, i ≤ m → m < i + k → m < htx →
          targetAt s' (u m) m = targetAt s x m) ∧
        MetaSame s s' := by
  intro k
  induction k with
  | zero =>
    intro i s U x u htx hU hlen hx hne hiff
    exact ⟨s, by rw [removeLoopAux], fun a => rfl, fun a => rfl, fun a m _ _ => rfl,
      fun m h1 h2 => absurd (lt_of_le_of_lt h1 h2) (by omega), MetaSame.refl s⟩
  | succ n ih =>
    intro i s U x u htx hU hlen hx hne hiff
    obtain ⟨Li, hLi, hiLi⟩ := hlen i (by omega)
    obtain ⟨lki, hlki⟩ := @linkAt_isSome s (u i) Li i hLi hiLi
    have ht : targetAt s (u i) i = some lki.node := targetAt_of_linkAt hlki
    by_cases hbr : lki.node = some x
    · -- relink branch: i < htx
      have hilt : i < htx := (hiff i (le_refl i) (by omega)).mp (by rw [ht, hbr])
      obtain ⟨lkx, hlkx⟩ := @linkAt_isSome s x htx i hx hilt
      have hxt : targetAt s x i = some lkx.node := targetAt_of_linkAt hlkx
      obtain ⟨s1, h1⟩ := setLinkNode_succeeds hlki lkx.node
      have hE1 := setLinkNode_effect h1
      obtain ⟨lkx1, hlkx1⟩ := @linkAt_isSome s1 x htx i (by rw [hE1.2.1]; exact hx) hilt
      obtain ⟨s2, h2⟩ := setLinkNode_succeeds hlkx1 none
      have hE2 := setLinkNode_effect h2
      have hlen2 : ∀ a, lenAt s2 a = lenAt s a := fun a => by
        rw [hE2.2.1 a, hE1.2.1 a]
      have hptr2 : ∀ a, ptrAt s2 a = ptrAt s a := fun a => by
        rw [hE2.1 a, hE1.1 a]
      have htgt2 : ∀ a m, ¬(a = u i ∧ m = i) → ¬(a = x ∧ m = i) →
          targetAt s2 a m = targetAt s a m := fun a m hn1 hn2 => by
        rw [hE2.2.2.2.1 a m hn2, hE1.2.2.2.1 a m hn1]
      have htgt2ui : targetAt s2 (u i) i = some lkx.node := by
        have hne1 : ¬((u i) = x ∧ i = i) := fun hc => (hne i (by omega)) hc.1
        rw [hE2.2.2.2.1 (u i) i hne1, hE1.2.2.2.2]
      obtain ⟨xw, hxw⟩ := @widthAt_isSome s2 x htx i (by rw [hlen2]; exact hx) hilt
      obtain ⟨uw, huw⟩ := @widthAt_isSome s2 (u i) Li i (by rw [hlen2]; exact hLi) hiLi
      -- both width branches write the same kind of state
      have hbuild : ∃ s3, removeLoopAux U x s i (n + 1) = removeLoopAux U x s3 (i + 1) n ∧
          (∀ a, ptrAt s3 a = ptrAt s a) ∧ (∀ a, lenAt s3 a = lenAt s a) ∧
          (∀ a m, ¬(a = u i ∧ m = i) → ¬(a = x ∧ m = i) →
            targetAt s3 a m = targetAt s a m) ∧
          targetAt s3 (u i) i = some lkx.node ∧
          MetaSame s s3 := by
        by_cases hpos : 0 < xw
        · obtain ⟨lki2, hlki2⟩ := @linkAt_isSome s2 (u i) Li i (by rw [hlen2]; exact hLi) hiLi
          obtain ⟨s3, h3⟩ := setLinkWidth_succeeds hlki2 (stAdd uw (stSub xw 1))
          have hE3 := setLinkWidth_effect h3
          have hrw : targetAt s (u i) i = some (some x) := by rw [ht, hbr]
          refine ⟨s3, removeLoopAux_step_un_pos (hU i (by omega)) hrw hxt h1 h2 hxw hpos
            huw h3, ?_, ?_, ?_, ?_, ?_⟩
          · intro a; rw [hE3.1 a, hptr2 a]
          · intro a; rw [hE3.2.1 a, hlen2 a]
          · intro a m hn1 hn2
            rw [hE3.2.2.1 a m]
            exact htgt2 a m hn1 hn2
          · rw [hE3.2.2.1]
            exact htgt2ui
          · exact (((setLinkNode_meta h1).comp (setLinkNode_meta h2)).comp
              (setLinkWidth_meta h3))
        · obtain ⟨lki2, hlki2⟩ := @linkAt_isSome s2 (u i) Li i (by rw [hlen2]; exact hLi) hiLi
          obtain ⟨s3, h3⟩ := setLinkWidth_succeeds hlki2 0
          have hE3 := setLinkWidth_effect h3
          have hrw : targetAt s (u i) i = some (some x) := by rw [ht, hbr]
          refine ⟨s3, removeLoopAux_step_un_zero (hU i (by omega)) hrw hxt h1 h2 hxw hpos
            h3, ?_, ?_, ?_, ?_, ?_⟩
          · intro a; rw [hE3.1 a, hptr2 a]
          · intro a; rw [hE3.2.1 a, hlen2 a]
          · intro a m hn1 hn2
            rw [hE3.2.2.1 a m]
            exact htgt2 a m hn1 hn2
          · rw [hE3.2.2.1]
            exact htgt2ui
          · exact (((setLinkNode_meta h1).comp (setLinkNode_meta h2)).comp
              (setLinkWidth_meta h3))
      obtain ⟨s3, hstep, hptr3, hlen3, htgt3, htgt3ui, hmeta3⟩ := hbuild
      obtain ⟨s', hrun, hptr, hlen', htgtO, htgtU, hmeta⟩ :=
        ih (i + 1) s3 U x u htx (fun j hj => hU j (by omega))
          (fun j hj => by
            obtain ⟨Lj, hLj, hjLj⟩ := hlen j (by omega)
            exact ⟨Lj, by rw [hlen3]; exact hLj, hjLj⟩)
          (by rw [hlen3]; exact hx) (fun j hj => hne j (by omega))
          (fun j hj1 hj2 => by
            have hne1 : ¬(u j = u i ∧ j = i) := fun hc => absurd hc.2 (by omega)
            have hne2 : ¬(u j = x ∧ j = i) := fun hc => (hne j (by omega)) hc.1
            rw [htgt3 (u j) j hne1 hne2]
            exact hiff j (by omega) (by omega))
      refine ⟨s', by rw [hstep]; exact hrun, ?_, ?_, ?_, ?_, ?_⟩
      · intro a; rw [hptr a, hptr3 a]
      · intro a; rw [hlen' a, hlen3 a]
      · intro a m hax hm
        push_neg at hm
        by_cases hmi : m = i
        · subst hmi
          have hcase := hm (le_refl m) (by omega)
          rw [htgtO a m hax (by push_neg; intro h1c h2c h3c; omega)]
          exact htgt3 a m (fun hc => absurd (hcase hc.1) (by omega)) (fun hc => hax hc.1)
        · rw [htgtO a m hax
            (by push_neg; intro h1c h2c h3c; exact hm (by omega) (by omega) h3c)]
          exact htgt3 a m (fun hc => absurd hc.2 hmi) (fun hc => hax hc.1)
      · intro m hm1 hm2 hm3
        by_cases hmi : m = i
        · subst hmi
          rw [htgtO (u m) m (hne m (by omega)) ?_]
          · rw [htgt3ui, hxt]
          · push_neg
            intro h1c
            omega
        · rw [htgtU m (by omega) (by omega) hm3]
          exact htgt3 x m (fun hc => (hne i (by omega)) hc.1.symm) (fun hc => absurd hc.2 hmi)
      · exact hmeta3.comp hmeta
    · -- decrement branch: i ≥ htx and only a width changes
      obtain ⟨uw, huw⟩ := @widthAt_isSome s (u i) Li i hLi hiLi
      obtain ⟨s3, h3⟩ := setLinkWidth_succeeds hlki (stSub uw 1)
      have hE3 := setLinkWidth_effect h3
      have hige : ¬ i < htx := by
        intro hc
        exact hbr (Option.some.inj ((ht.symm.trans ((hiff i (le_refl i) (by omega)).mpr hc))))
      obtain ⟨s', hrun, hptr, hlen', htgtO, htgtU, hmeta⟩ :=
        ih (i + 1) s3 U x u htx (fun j hj => hU j (by omega))
          (fun j hj => by
            obtain ⟨Lj, hLj, hjLj⟩ := hlen j (by omega)
            exact ⟨Lj, by rw [hE3.2.1]; exact hLj, hjLj⟩)
          (by rw [hE3.2.1]; exact hx) (fun j hj => hne j (by omega))
          (fun j hj1 hj2 => by
            rw [hE3.2.2.1 (u j) j]
            exact hiff j (by omega) (by omega))
      have hne2 : lki.node ≠ some x := hbr
      refine ⟨s', by
        rw [removeLoopAux_step_dec (hU i (by omega)) ht hne2 huw h3]
        exact hrun, ?_, ?_, ?_, ?_, ?_⟩
      · intro a; rw [hptr a, hE3.1 a]
      · intro a; rw [hlen' a, hE3.2.1 a]
      · intro a m hax hm
        push_neg at hm
        rw [htgtO a m hax ?_]
        · exact hE3.2.2.1 a m
        · push_neg
          intro h1c h2c h3c
          exact hm (by omega) (by omega) h3c
      · intro m hm1 hm2 hm3
        by_cases hmi : m = i
        · subst hmi
          exact absurd hm3 hige
        · rw [htgtU m (by omega) (by omega) hm3]
          exact hE3.2.2.1 x m
      · exact (setLinkWidth_meta h3).comp hmeta

/-- An empty lane means no entry reaches above the level. -/
theorem laneIds_nil_ht {A : List Entry} {l : Nat} (h : laneIds A l = []) :
    ∀ e ∈ A, e.ht ≤ l := by
  intro e he
  rw [laneIds] at h
  have h2 := List.map_eq_nil.mp h
  have h3 := List.filter_eq_nil.mp h2 e he
  simp at h3
  exact h3

/-- Effect of the shrink loop of `remove`: it lowers `level_` to a value
between 1 and the start that still bounds every remaining height. -/
theorem shrinkLoop_spec {s : Skip_List} {A : List Entry}
    (hch : ∀ l, l < s.kMaxLevel → laneOk s l (laneIds A l))
    (hhead : lenAt s 0 = some s.kMaxLevel) :
    ∀ (start : Nat), 1 ≤ start → start ≤ s.kMaxLevel →
      (∀ e ∈ A, e.ht ≤ start) →
      ∃ lvl', shrinkLoop s start = some lvl' ∧ 1 ≤ lvl' ∧ lvl' ≤ start ∧
        ∀ e ∈ A, e.ht ≤ lvl' := by
  intro start
  induction start using Nat.strong_induction_on with
  | _ start ih =>
    match start with
    | 0 => intro h1; omega
    | 1 =>
      intro _ _ hht
      exact ⟨1, by rw [shrinkLoop], le_refl 1, le_refl 1, hht⟩
    | n + 2 =>
      intro _ hsk hht
      have hlane := hch (n + 1) (by omega)
      cases hPa : laneIds A (n + 1) with
      | nil =>
        have htgt : targetAt s 0 (n + 1) = some none := by
          have := hlane.2
          rw [hPa] at this
          exact this
        have hrec : shrinkLoop s (n + 2) = shrinkLoop s (n + 1) := by
          rw [shrinkLoop, htgt]
        obtain ⟨lvl', hrun, hl1, hl2, hbnd⟩ := ih (n + 1) (by omega) (by omega)
          (by omega) (fun e he => by
            have := laneIds_nil_ht hPa e he
            omega)
        exact ⟨lvl', by rw [hrec]; exact hrun, hl1, by omega, hbnd⟩
      | cons c rest =>
        have htgt : targetAt s 0 (n + 1) = some (some c) := by
          have := hlane.1
          rw [hPa, List.chain'_cons] at this
          exact this.1
        refine ⟨n + 2, ?_, by omega, le_refl _, hht⟩
        rw [shrinkLoop, htgt]

/-- Every id the invariant mentions is a valid arena index. -/
theorem SLRepr_id_lt {s : Skip_List} {A : List Entry} (hR : SLRepr s A) :
    ∀ y ∈ 0 :: A.map Entry.id, y < s.arena.length := by
  obtain ⟨_, _, _, hp0, _, _, hnodes, _, _, _⟩ := hR
  intro y hy
  rw [List.mem_cons] at hy
  cases hy with
  | inl h =>
    subst h
    obtain ⟨n, hn⟩ := ptrAt_nodeAt hp0
    exact nodeAt_lt hn
  | inr h =>
    rw [List.mem_map] at h
    obtain ⟨e, he, hid⟩ := h
    obtain ⟨n, hn⟩ := ptrAt_nodeAt (hnodes e he).1
    subst hid
    exact nodeAt_lt hn

/-- Lanes distribute over list append. -/
theorem laneIds_append (B C : List Entry) (l : Nat) :
    laneIds (B ++ C) l = laneIds B l ++ laneIds C l := by
  rw [laneIds, laneIds, laneIds, List.filter_append, List.map_append]

/-- A leading entry tall enough for the level heads its lane. -/
theorem laneIds_cons_lt {e : Entry} {l : Nat} (h : l < e.ht) (B : List Entry) :
    laneIds (e :: B) l = e.id :: laneIds B l := by
  simp [laneIds, List.filter_cons, h]

/-- A leading entry too short for the level is not on its lane. -/
theorem laneIds_cons_ge {e : Entry} {l : Nat} (h : ¬ l < e.ht) (B : List Entry) :
    laneIds (e :: B) l = laneIds B l := by
  simp [laneIds, List.filter_cons, h]

/-- When every height is positive the level-0 lane is the full id list. -/
theorem laneIds_zero {A : List Entry} (h : ∀ e ∈ A, 1 ≤ e.ht) :
    laneIds A 0 = A.map Entry.id := by
  rw [laneIds]
  have : A.filter (fun e => decide (0 < e.ht)) = A := by
    apply List.filter_eq_self.mpr
    intro e he
    simp
    exact h e he
  rw [this]

/-- For an accepted configuration the drawn level never exceeds
`kMaxLevel_`. -/
theorem RandomLevel_le_kMax {s : Skip_List} (d : List Rat)
    (h1 : 1 ≤ s.kMaxLevel) (h2 : s.kMaxLevel < M64) :
    s.RandomLevel d ≤ s.kMaxLevel := by
  have h := RandomLevel_le s d
  rw [stSub_one h1 h2] at h
  have hmax : max 1 (s.kMaxLevel - 1) ≤ s.kMaxLevel :=
    Nat.max_le.mpr ⟨h1, by omega⟩
  omega

/-- Width effect of the raise loop: the head widths on the written range are
zero, every other width is untouched. -/
theorem raiseLoopAux_width :
    ∀ (k i : Nat) (s : Skip_List) (U : List (Option NodeId)) (s1 : Skip_List)
      (U1 : List (Option NodeId)),
      raiseLoopAux s U i k = some (s1, U1) →
      (∀ a m, ¬(a = 0 ∧ i ≤ m ∧ m < i + k) → widthAt s1 a m = widthAt s a m) ∧
      (∀ m, i ≤ m → m < i + k → widthAt s1 0 m = some 0) := by
  intro k
  induction k with
  | zero =>
    intro i s U s1 U1 h
    rw [raiseLoopAux] at h
    cases h
    exact ⟨fun a m _ => rfl, fun m h1 h2 => absurd (lt_of_le_of_lt h1 h2) (by omega)⟩
  | succ n ih =>
    intro i s U s1 U1 h
    rw [raiseLoopAux] at h
    split at h <;> try exact Option.noConfusion h
    rename_i s' hset
    have hE := setLinkWidth_effect hset
    obtain ⟨hoth, hin⟩ := ih (i + 1) s' (U.set i (some 0)) s1 U1 h
    constructor
    · intro a m hm
      have hstep : widthAt s' a m = widthAt s a m := by
        refine hE.2.2.2.1 a m ?_
        rintro ⟨rfl, rfl⟩
        exact hm ⟨rfl, le_refl _, by omega⟩
      have hrest : widthAt s1 a m = widthAt s' a m := by
        apply hoth
        rintro ⟨rfl, hm1, hm2⟩
        exact hm ⟨rfl, by omega, by omega⟩
      rw [hrest, hstep]
    · intro m h1 h2
      by_cases hme : m = i
      · subst hme
        have : widthAt s1 0 m = widthAt s' 0 m := by
          apply hoth
          rintro ⟨_, hm1, _⟩
          omega
        rw [this]
        exact hE.2.2.2.2
      · exact hin m (by omega) (by omega)

/-- Freeing a live node succeeds. -/
theorem freeNode_succeeds {s : Skip_List} {x : NodeId} {n : Skip_Node}
    (h : nodeAt s x = some n) : ∃ s', freeNode s x = some s' := by
  rw [freeNode, nodeAt_some h]
  exact ⟨_, rfl⟩

/-- Common prefix of `insert` (descent plus optional raise, lines 319-345):
the call reduces to the duplicate check on a state with unchanged targets,
elements and heights, `level_` raised to the maximum of old level and drawn
level, head widths zeroed on the newly activated levels, and the update
array holding the per-level descent predecessors. -/
theorem insert_prefix_spec {s : Skip_List} {A : List Entry} (hR : SLRepr s A)
    (key : Int) (draws : List Rat) :
    ∃ sp Up Wp,
      s.insert key draws = insAfterRaise sp Up Wp key (predId A key 0)
        (s.RandomLevel draws) ∧
      (∀ a, ptrAt sp a = ptrAt s a) ∧
      (∀ a, lenAt sp a = lenAt s a) ∧
      (∀ a m, targetAt sp a m = targetAt s a m) ∧
      (∀ a m, ¬(a = 0 ∧ s.level ≤ m ∧ m < s.RandomLevel draws) →
        widthAt sp a m = widthAt s a m) ∧
      (∀ m, s.level ≤ m → m < s.RandomLevel draws → widthAt sp 0 m = some 0) ∧
      sp.kMaxLevel = s.kMaxLevel ∧ sp.p = s.p ∧ sp.width = s.width ∧
      sp.arena.length = s.arena.length ∧
      sp.level = max s.level (s.RandomLevel draws) ∧
      Up.length = s.kMaxLevel ∧ Wp.length = s.kMaxLevel ∧
      (∀ j, j < s.RandomLevel draws → Up.get? j = some (some (predId A key j))) := by
  have hRk := hR
  obtain ⟨hM, hl1, hlk, hp0, hlen0, _, _, _, _, _⟩ := hRk
  have hRL1 : 1 ≤ s.RandomLevel draws := RandomLevel_pos s draws
  have hRLk : s.RandomLevel draws ≤ s.kMaxLevel :=
    RandomLevel_le_kMax draws (by omega) hM
  have h0 : (0 : NodeId) = predId A key s.level :=
    (predId_high hR key (le_refl _)).symm
  obtain ⟨U', W', hdesc, hUlen, hWlen, hUlow, hUhigh⟩ :=
    insDescend_spec hR key s.level (List.replicate s.kMaxLevel none)
      (List.replicate s.kMaxLevel 0) (le_refl _)
      (by rw [List.length_replicate]; omega)
  rw [← h0] at hdesc
  have hUlen2 : U'.length = s.kMaxLevel := by rw [hUlen, List.length_replicate]
  have hWlen2 : W'.length = s.kMaxLevel := by rw [hWlen, List.length_replicate]
  by_cases hgt : s.RandomLevel draws > s.level
  · obtain ⟨s1, U1, hraise, hptr1, hlen1, htgt1, hU1len, hU1out, hU1in, hmeta1⟩ :=
      raiseLoopAux_spec (s.RandomLevel draws - s.level) s.level s U' s.kMaxLevel
        hlen0 (by omega) (by omega)
    obtain ⟨hw1, hw2⟩ :=
      raiseLoopAux_width (s.RandomLevel draws - s.level) s.level s U' s1 U1 hraise
    obtain ⟨hmk, hmp, hml, hmw, hma⟩ := hmeta1
    refine ⟨{ s1 with level := s.RandomLevel draws }, U1, W', ?_, ?_, ?_, ?_, ?_, ?_,
      ?_, ?_, ?_, ?_, ?_, ?_, ?_, ?_⟩
    · simp only [Skip_List.insert, hdesc]
      rw [if_pos hgt, hraise]
    · intro a
      rw [(reads_congr (nodeAt_level_update s1 _ a)).1, hptr1 a]
    · intro a
      rw [(reads_congr (nodeAt_level_update s1 _ a)).2.1, hlen1 a]
    · intro a m
      rw [(reads_congr (nodeAt_level_update s1 _ a)).2.2.1 m, htgt1 a m]
    · intro a m hc
      rw [(reads_congr (nodeAt_level_update s1 _ a)).2.2.2.1 m]
      apply hw1
      rintro ⟨rfl, hm1, hm2⟩
      exact hc ⟨rfl, hm1, by omega⟩
    · intro m h1 h2
      rw [(reads_congr (nodeAt_level_update s1 _ 0)).2.2.2.1 m]
      exact hw2 m h1 (by omega)
    · exact hmk
    · exact hmp
    · exact hmw
    · exact hma
    · show s.RandomLevel draws = max s.level (s.RandomLevel draws)
      exact (Nat.max_eq_right (le_of_lt hgt)).symm
    · rw [hU1len, hUlen2]
    · exact hWlen2
    · intro j hj
      by_cases hjl : j < s.level
      · rw [hU1out j (Or.inl hjl)]
        exact hUlow j hjl
      · rw [hU1in j (by omega) (by omega)]
        rw [predId_high hR key (by omega : s.level ≤ j)]
  · refine ⟨s, U', W', ?_, fun a => rfl, fun a => rfl, fun a m => rfl, fun a m _ => rfl,
      fun m h1 h2 => absurd (lt_of_le_of_lt h1 h2) (by omega), rfl, rfl, rfl, rfl, ?_,
      hUlen2, hWlen2, ?_⟩
    · simp only [Skip_List.insert, hdesc]
      rw [if_neg hgt]
    · exact (Nat.max_eq_left (Nat.not_lt.mp hgt)).symm
    · intro j hj
      exact hUlow j (by omega)

/-- Full effect of inserting an already-present key: the existing node is
returned, size, targets, elements and heights are untouched, but the level
is raised to the drawn level and the head widths on the newly activated
levels are zeroed (the duplicate check at lines 347-349 runs after the
raise at lines 333-345). -/
theorem insert_dup_effect {s : Skip_List} {A : List Entry} (hR : SLRepr s A)
    (key : Int) (draws : List Rat) (hkey : key ∈ A.map Entry.elem) :
    ∃ s' y, s.insert key draws = some (s', y) ∧
      (∃ e, e ∈ A ∧ e.id = y ∧ e.elem = key) ∧
      s'.width = s.width ∧
      s'.level = max s.level (s.RandomLevel draws) ∧
      s'.kMaxLevel = s.kMaxLevel ∧ s'.p = s.p ∧
      s'.arena.length = s.arena.length ∧
      (∀ a, ptrAt s' a = ptrAt s a) ∧
      (∀ a, lenAt s' a = lenAt s a) ∧
      (∀ a m, targetAt s' a m = targetAt s a m) ∧
      (∀ a m, ¬(a = 0 ∧ s.level ≤ m ∧ m < s.RandomLevel draws) →
        widthAt s' a m = widthAt s a m) ∧
      (∀ m, s.level ≤ m → m < s.RandomLevel draws → widthAt s' 0 m = some 0) := by
  obtain ⟨sp, Up, Wp, hins, hptr, hlen, htgt, hwo, hwi, hk, hp, hw, ha, hlv, hUl,
    hWl, hUg⟩ := insert_prefix_spec hR key draws
  have hRk := hR
  obtain ⟨hM, hl1, hlkM, hp0, hlen0, hnd, hnodes, hsort, hhts, hch⟩ := hRk
  obtain ⟨e, rest, hsplit, hek⟩ := (key_mem_afterK hsort).mp hkey
  have heA : e ∈ A := afterK_subset (hsplit ▸ List.mem_cons_self e rest)
  have hht0 : 0 < e.ht := (hhts e heA).1
  have htgt0 : targetAt sp (predId A key 0) 0 = some (some e.id) := by
    rw [htgt, pred_target hR key (by omega), hsplit, laneIds_cons_lt hht0]
    rfl
  have helem : elemAt sp e.id = some key := by
    apply elemAt_of_ptrAt
    rw [hptr, (hnodes e heA).1, hek]
  have hred : insAfterRaise sp Up Wp key (predId A key 0) (s.RandomLevel draws) =
      some (sp, e.id) := by
    simp [insAfterRaise, htgt0, helem]
  exact ⟨sp, e.id, by rw [hins, hred], ⟨e, heA, rfl, hek⟩, hw, hlv, hk, hp, ha,
    hptr, hlen, htgt, hwo, hwi⟩

/-- Claim C6 (amended): inserting a key equal to an element already present
returns the node already holding that element and does not change size, any
link target, any stored element, or any link width at levels outside
`[currentLevel, drawnLevel)`; but because the duplicate check runs after the
level-raise step, if the drawn random level exceeds `currentLevel` the call
raises `currentLevel` to the drawn level and zeroes the head sentinel's link
widths at the newly activated levels. -/
theorem duplicate_insert_effect {s : Skip_List} {A : List Entry} (hR : SLRepr s A)
    (key : Int) (draws : List Rat) (hkey : key ∈ A.map Entry.elem) :
    ∃ s' y, s.insert key draws = some (s', y) ∧
      (∃ e, e ∈ A ∧ e.id = y ∧ e.elem = key) ∧
      s'.width = s.width ∧
      s'.level = max s.level (s.RandomLevel draws) ∧
      s'.kMaxLevel = s.kMaxLevel ∧ s'.p = s.p ∧
      s'.arena.length = s.arena.length ∧
      (∀ a, ptrAt s' a = ptrAt s a) ∧
      (∀ a, lenAt s' a = lenAt s a) ∧
      (∀ a m, targetAt s' a m = targetAt s a m) ∧
      (∀ a m, ¬(a = 0 ∧ s.level ≤ m ∧ m < s.RandomLevel draws) →
        widthAt s' a m = widthAt s a m) ∧
      (∀ m, s.level ≤ m → m < s.RandomLevel draws → widthAt s' 0 m = some 0) :=
  insert_dup_effect hR key draws hkey

/-- Witness for the amended C6 at a concrete input: re-inserting 5 into the
one-element list `listD` (drawn level 1 = current level, so here nothing at
all changes). -/
theorem duplicate_insert_effect_w :
    ∃ s' y, listD.insert 5 [] = some (s', y) ∧
      (∃ e, e ∈ [Entry.mk 1 5 1] ∧ e.id = y ∧ e.elem = 5) ∧
      s'.width = listD.width ∧
      s'.level = max listD.level (listD.RandomLevel []) ∧
      s'.kMaxLevel = listD.kMaxLevel ∧ s'.p = listD.p ∧
      s'.arena.length = listD.arena.length ∧
      (∀ a, ptrAt s' a = ptrAt listD a) ∧
      (∀ a, lenAt s' a = lenAt listD a) ∧
      (∀ a m, targetAt s' a m = targetAt listD a m) ∧
      (∀ a m, ¬(a = 0 ∧ listD.level ≤ m ∧ m < listD.RandomLevel []) →
        widthAt s' a m = widthAt listD a m) ∧
      (∀ m, listD.level ≤ m → m < listD.RandomLevel [] → widthAt s' 0 m = some 0) :=
  @duplicate_insert_effect listD [Entry.mk 1 5 1] (by decide) 5 [] (by decide)

/-- Effect of `insFinish` (node creation, splice, size increment): under a
valid update array the tail of `insert` succeeds, returns the fresh arena
id, stores the key at height `lvl` there, re-points the level-`m`
predecessor at the new node for every `m < lvl` (giving the new node the
predecessor's old target), and leaves every other target, element and
height unchanged. -/
theorem insFinish_spec {sp : Skip_List} {Up : List (Option NodeId)} {Wp : List Nat}
    (key : Int) (lvl : Nat) (u : Nat → NodeId)
    (hU : ∀ j, j < lvl → Up.get? j = some (some (u j)))
    (hulen : ∀ j, j < lvl → ∃ Lj, lenAt sp (u j) = some Lj ∧ j < Lj)
    (hult : ∀ j, j < lvl → u j < sp.arena.length)
    (hWlen : lvl ≤ Wp.length + 1) :
    ∃ sF, insFinish sp Up Wp key lvl = some (sF, sp.arena.length) ∧
      sF.kMaxLevel = sp.kMaxLevel ∧ sF.p = sp.p ∧ sF.level = sp.level ∧
      sF.width = stAdd sp.width 1 ∧ sF.arena.length = sp.arena.length + 1 ∧
      (∀ a, a < sp.arena.length → ptrAt sF a = ptrAt sp a) ∧
      (∀ a, a < sp.arena.length → lenAt sF a = lenAt sp a) ∧
      ptrAt sF sp.arena.length = some (some key) ∧
      lenAt sF sp.arena.length = some lvl ∧
      (∀ a m, a < sp.arena.length → ¬(m < lvl ∧ a = u m) →
        targetAt sF a m = targetAt sp a m) ∧
      (∀ m, m < lvl → targetAt sF (u m) m = some (some sp.arena.length)) ∧
      (∀ m, m < lvl → targetAt sF sp.arena.length m = targetAt sp (u m) m) := by
  have hLN : lenAt { sp with arena := sp.arena ++ [some (createNode key lvl)] }
      sp.arena.length = some lvl := by
    rw [lenAt, nodeAt_append_self]
    simp [createNode]
  have hmida : ∀ a, a < sp.arena.length →
      nodeAt { sp with arena := sp.arena ++ [some (createNode key lvl)] } a =
        nodeAt sp a :=
    fun a haa => nodeAt_append haa
  obtain ⟨s4, hsplice, h4ptr, h4len, h4tgtO, h4tgtP, h4tgtN, h4meta⟩ :=
    spliceLoopAux_spec lvl 0 { sp with arena := sp.arena ++ [some (createNode key lvl)] }
      Up Wp sp.arena.length u lvl
      (fun j hj => hU j (by omega))
      (fun j hj => by
        obtain ⟨Lj, hLj, hjL⟩ := hulen j (by omega)
        exact ⟨Lj, by
          rw [(reads_congr (hmida _ (hult j (by omega)))).2.1]
          exact hLj, hjL⟩)
      hLN (by omega)
      (fun j hj hc => by
        have h1 := hult j (by omega)
        exact absurd hc (Nat.ne_of_lt h1))
      (by omega)
  obtain ⟨hmk, hmp, hml, hmw, hmar⟩ := h4meta
  have hFeq : insFinish sp Up Wp key lvl =
      some ({ s4 with width := stAdd s4.width 1 }, sp.arena.length) := by
    rw [insFinish, hsplice]
  refine ⟨{ s4 with width := stAdd s4.width 1 }, hFeq, hmk, hmp, hml, ?_, ?_,
    ?_, ?_, ?_, ?_, ?_, ?_, ?_⟩
  · show stAdd s4.width 1 = stAdd sp.width 1
    rw [hmw]
  · show s4.arena.length = sp.arena.length + 1
    rw [hmar]
    simp
  · intro a haa
    rw [(reads_congr (nodeAt_width_update s4 _ a)).1, h4ptr a,
      (reads_congr (hmida a haa)).1]
  · intro a haa
    rw [(reads_congr (nodeAt_width_update s4 _ a)).2.1, h4len a,
      (reads_congr (hmida a haa)).2.1]
  · rw [(reads_congr (nodeAt_width_update s4 _ _)).1, h4ptr, ptrAt, nodeAt_append_self]
    rfl
  · rw [(reads_congr (nodeAt_width_update s4 _ _)).2.1, h4len]
    exact hLN
  · intro a m haa hcond
    rw [(reads_congr (nodeAt_width_update s4 _ a)).2.2.1 m]
    rw [h4tgtO a m ?_, (reads_congr (hmida a haa)).2.2.1 m]
    rintro ⟨-, hm2, hc | hc⟩
    · exact hcond ⟨by omega, hc⟩
    · rw [hc] at haa
      omega
  · intro m hm
    rw [(reads_congr (nodeAt_width_update s4 _ _)).2.2.1 m]
    exact h4tgtP m (by omega) (by omega)
  · intro m hm
    rw [(reads_congr (nodeAt_width_update s4 _ _)).2.2.1 m,
      h4tgtN m (by omega) (by omega),
      (reads_congr (hmida _ (hult m hm))).2.2.1 m]

/-- Full effect of inserting a fresh key: the call succeeds, returns the new
arena id, increments `width_`, and the resulting state satisfies the
representation invariant for the abstract list with the new entry (of the
drawn height) spliced in at its sorted position. -/
theorem insert_newkey_spec {s : Skip_List} {A : List Entry} (hR : SLRepr s A)
    (key : Int) (draws : List Rat) (hkey : key ∉ A.map Entry.elem) :
    ∃ s', s.insert key draws = some (s', s.arena.length) ∧
      SLRepr s' (belowK A key ++
        { id := s.arena.length, elem := key, ht := s.RandomLevel draws } ::
          afterK A key) ∧
      s'.width = stAdd s.width 1 ∧
      s'.arena.length = s.arena.length + 1 ∧
      s'.kMaxLevel = s.kMaxLevel ∧ s'.p = s.p ∧
      s'.level = max s.level (s.RandomLevel draws) := by
  obtain ⟨sp, Up, Wp, hins, hptr, hlen, htgt, hwo, hwi, hk, hp, hw, ha, hlv, hUl,
    hWl, hUg⟩ := insert_prefix_spec hR key draws
  have hRk := hR
  obtain ⟨hM, hl1, hlkM, hp0, hlen0, hnd, hnodes, hsort, hhts, hch⟩ := hRk
  have hRL1 : 1 ≤ s.RandomLevel draws := RandomLevel_pos s draws
  have hRLk : s.RandomLevel draws ≤ s.kMaxLevel :=
    RandomLevel_le_kMax draws (by omega) hM
  have hids := SLRepr_id_lt hR
  have h0lt : 0 < s.arena.length := hids 0 (List.mem_cons_self _ _)
  have htgt0 : targetAt sp (predId A key 0) 0 =
      some ((laneIds (afterK A key) 0).head?) := by
    rw [htgt]
    exact pred_target hR key (by omega)
  have hfin : insAfterRaise sp Up Wp key (predId A key 0) (s.RandomLevel draws) =
      insFinish sp Up Wp key (s.RandomLevel draws) := by
    cases hA : afterK A key with
    | nil =>
      have h1 : targetAt sp (predId A key 0) 0 = some none := by
        rw [htgt0, hA]
        rfl
      simp [insAfterRaise, h1]
    | cons e rest =>
      have heA : e ∈ A := afterK_subset (hA ▸ List.mem_cons_self e rest)
      have hht0 : 0 < e.ht := (hhts e heA).1
      have h1 : targetAt sp (predId A key 0) 0 = some (some e.id) := by
        rw [htgt0, hA, laneIds_cons_lt hht0]
        rfl
      have helem : elemAt sp e.id = some e.elem := by
        apply elemAt_of_ptrAt
        rw [hptr]
        exact (hnodes e heA).1
      have henk : ¬ (e.elem = key) := fun hc =>
        hkey (hc ▸ List.mem_map_of_mem Entry.elem heA)
      simp [insAfterRaise, h1, helem, henk]
  have hpred_lt : ∀ j, predId A key j < s.arena.length := by
    intro j
    cases List.mem_cons.mp (predId_mem A key j) with
    | inl h0 => rw [h0]; exact h0lt
    | inr hml =>
      obtain ⟨e, he, hid, _⟩ := mem_laneIds.mp hml
      rw [← hid]
      exact hids e.id (List.mem_cons_of_mem _
        (List.mem_map_of_mem _ (belowK_subset he)))
  have hpred_len : ∀ j, j < s.RandomLevel draws →
      ∃ Lj, lenAt s (predId A key j) = some Lj ∧ j < Lj := by
    intro j hj
    cases List.mem_cons.mp (predId_mem A key j) with
    | inl h0 => exact ⟨s.kMaxLevel, by rw [h0]; exact hlen0, by omega⟩
    | inr hml =>
      obtain ⟨e, he, hid, hht⟩ := mem_laneIds.mp hml
      exact ⟨e.ht, by rw [← hid]; exact (hnodes e (belowK_subset he)).2, hht⟩
  obtain ⟨sF, hFeq, hFk, hFp, hFl, hFw, hFa, hFptr, hFlen, hFptrN, hFlenN,
      hFtgtO, hFtgtP, hFtgtN⟩ :=
    @insFinish_spec sp Up Wp key (s.RandomLevel draws) (fun j => predId A key j)
      (fun j hj => hUg j hj)
      (fun j hj => by
        obtain ⟨Lj, hLj, hjL⟩ := hpred_len j hj
        exact ⟨Lj, by rw [hlen]; exact hLj, hjL⟩)
      (fun j hj => by rw [ha]; exact hpred_lt j)
      (by omega)
  rw [ha] at hFeq hFa hFptr hFlen hFptrN hFlenN hFtgtO hFtgtP hFtgtN
  have hinseq : s.insert key draws = some (sF, s.arena.length) := by
    rw [hins, hfin, hFeq]
  have hFptrS : ∀ a, a < s.arena.length → ptrAt sF a = ptrAt s a := by
    intro a haa
    rw [hFptr a haa, hptr]
  have hFlenS : ∀ a, a < s.arena.length → lenAt sF a = lenAt s a := by
    intro a haa
    rw [hFlen a haa, hlen]
  have hkMF : sF.kMaxLevel = s.kMaxLevel := by rw [hFk, hk]
  have hpF : sF.p = s.p := by rw [hFp, hp]
  have hlF : sF.level = max s.level (s.RandomLevel draws) := by rw [hFl, hlv]
  have hwF : sF.width = stAdd s.width 1 := by rw [hFw, hw]
  have haF : sF.arena.length = s.arena.length + 1 := hFa
  refine ⟨sF, hinseq, ?_, hwF, haF, hkMF, hpF, hlF⟩
  refine ⟨?_, ?_, ?_, ?_, ?_, ?_, ?_, ?_, ?_, ?_⟩
  · rw [hkMF]
    exact hM
  · rw [hlF]
    exact le_trans hl1 (le_max_left _ _)
  · rw [hlF, hkMF]
    exact Nat.max_le.mpr ⟨hlkM, hRLk⟩
  · rw [hFptrS 0 h0lt]
    exact hp0
  · rw [hFlenS 0 h0lt, hkMF]
    exact hlen0
  · -- nodup of the ids
    have hpermA : List.Perm
        ((belowK A key ++
          ({ id := s.arena.length, elem := key, ht := s.RandomLevel draws } : Entry) ::
            afterK A key).map Entry.id)
        (s.arena.length :: A.map Entry.id) := by
      rw [List.map_append, List.map_cons]
      refine List.perm_middle.trans ?_
      refine List.Perm.cons _ ?_
      rw [← List.map_append, belowK_append_afterK]
    have hnodupR : ((0 : NodeId) :: s.arena.length :: A.map Entry.id).Nodup := by
      obtain ⟨h0nin, hndA⟩ := List.nodup_cons.mp hnd
      rw [List.nodup_cons, List.nodup_cons]
      refine ⟨?_, ?_, hndA⟩
      · rw [List.mem_cons]
        rintro (hc | hc)
        · exact absurd hc (Nat.ne_of_lt h0lt)
        · exact h0nin hc
      · intro hc
        have hlt2 := hids _ (List.mem_cons_of_mem _ hc)
        exact absurd hlt2 (lt_irrefl _)
    exact ((List.Perm.cons 0 hpermA).nodup_iff).mpr hnodupR
  · -- stored elements and heights
    intro e' he'
    rw [List.mem_append, List.mem_cons] at he'
    rcases he' with hb | he0 | haf
    · have heA' : e' ∈ A := belowK_subset hb
      have hlt : e'.id < s.arena.length :=
        hids e'.id (List.mem_cons_of_mem _ (List.mem_map_of_mem _ heA'))
      exact ⟨by rw [hFptrS e'.id hlt]; exact (hnodes e' heA').1,
        by rw [hFlenS e'.id hlt]; exact (hnodes e' heA').2⟩
    · subst he0
      exact ⟨hFptrN, hFlenN⟩
    · have heA' : e' ∈ A := afterK_subset haf
      have hlt : e'.id < s.arena.length :=
        hids e'.id (List.mem_cons_of_mem _ (List.mem_map_of_mem _ heA'))
      exact ⟨by rw [hFptrS e'.id hlt]; exact (hnodes e' heA').1,
        by rw [hFlenS e'.id hlt]; exact (hnodes e' heA').2⟩
  · -- strict ordering of the elements
    rw [List.map_append, List.map_cons]
    show List.Chain' (fun a b => a < b)
      ((belowK A key).map Entry.elem ++ key :: (afterK A key).map Entry.elem)
    have hsplitE : (belowK A key).map Entry.elem ++ (afterK A key).map Entry.elem =
        A.map Entry.elem := by
      rw [← List.map_append, belowK_append_afterK]
    have hsortBA : List.Chain' (fun a b => a < b)
        ((belowK A key).map Entry.elem ++ (afterK A key).map Entry.elem) := by
      rw [hsplitE]
      exact hsort
    obtain ⟨hc1, hc2, hc3⟩ := List.chain'_append.mp hsortBA
    rw [List.chain'_append]
    refine ⟨hc1, ?_, ?_⟩
    · rw [List.chain'_cons']
      refine ⟨?_, hc2⟩
      intro y hy
      cases hA : afterK A key with
      | nil =>
        rw [hA] at hy
        simp at hy
      | cons e0 r0 =>
        rw [hA] at hy
        simp at hy
        have heA0 : e0 ∈ A := afterK_subset (hA ▸ List.mem_cons_self e0 r0)
        have h1 : ¬ e0.elem < key :=
          afterK_not_lt hsort e0 (hA ▸ List.mem_cons_self e0 r0)
        have h2 : e0.elem ≠ key := fun hc =>
          hkey (hc ▸ List.mem_map_of_mem Entry.elem heA0)
        subst hy
        omega
    · intro x hx y hy
      rw [List.head?_cons, Option.mem_def] at hy
      cases hy
      cases hB : (belowK A key).map Entry.elem with
      | nil =>
        rw [hB] at hx
        simp at hx
      | cons b0 bs =>
        rw [hB, Option.mem_def,
          List.getLast?_eq_getLast _ (List.cons_ne_nil b0 bs)] at hx
        injection hx with hx2
        have hxmem : x ∈ (belowK A key).map Entry.elem := by
          rw [hB, ← hx2]
          exact List.getLast_mem _
        obtain ⟨eb, hebm, hebe⟩ := List.mem_map.mp hxmem
        rw [← hebe]
        exact belowK_lt hebm
  · -- height bounds
    intro e' he'
    rw [List.mem_append, List.mem_cons] at he'
    rw [hlF]
    rcases he' with hb | he0 | haf
    · have h1 := hhts e' (belowK_subset hb)
      exact ⟨h1.1, le_trans h1.2 (le_max_left _ _)⟩
    · subst he0
      exact ⟨hRL1, le_max_right _ _⟩
    · have h1 := hhts e' (afterK_subset haf)
      exact ⟨h1.1, le_trans h1.2 (le_max_left _ _)⟩
  · -- the lane chains
    intro l hlK'
    have hlK : l < s.kMaxLevel := by rw [hkMF] at hlK'; exact hlK'
    have hbase := hch l hlK
    have hsplitL : laneIds A l =
        laneIds (belowK A key) l ++ laneIds (afterK A key) l := laneIds_split A key l
    have hmem_lt : ∀ a ∈ (0 : NodeId) :: laneIds A l, a < s.arena.length := by
      intro a haa
      rcases List.mem_cons.mp haa with h0 | hm
      · subst h0
        exact h0lt
      · obtain ⟨e', he', hid, _⟩ := mem_laneIds.mp hm
        rw [← hid]
        exact hids e'.id (List.mem_cons_of_mem _ (List.mem_map_of_mem _ he'))
    by_cases hl : l < s.RandomLevel draws
    · rw [laneIds_append,
        @laneIds_cons_lt ⟨s.arena.length, key, s.RandomLevel draws⟩ l hl (afterK A key)]
      have hOk : laneOk sp l
          (laneIds (belowK A key) l ++ laneIds (afterK A key) l) := by
        rw [← hsplitL]
        exact laneOk_congr (fun a haa => htgt a l) hbase
      have hndL : ((0 : NodeId) ::
          (laneIds (belowK A key) l ++ laneIds (afterK A key) l)).Nodup := by
        rw [← hsplitL]
        exact hnd.sublist (List.Sublist.cons₂ _ (laneIds_sublist A l))
      have hnidL : s.arena.length ∉ (0 : NodeId) ::
          (laneIds (belowK A key) l ++ laneIds (afterK A key) l) := by
        rw [← hsplitL]
        intro hc
        have hlt2 := hmem_lt _ hc
        exact absurd hlt2 (lt_irrefl _)
      have hotherT : ∀ a ∈ (0 : NodeId) ::
          (laneIds (belowK A key) l ++ laneIds (afterK A key) l),
          a ≠ (0 :: laneIds (belowK A key) l).getLast
            (List.cons_ne_nil 0 (laneIds (belowK A key) l)) →
          targetAt sF a l = targetAt sp a l := by
        intro a haa hane
        have halt : a < s.arena.length := by
          rw [← hsplitL] at haa
          exact hmem_lt a haa
        refine hFtgtO a l halt ?_
        rintro ⟨hml, hau⟩
        exact hane hau
      exact laneOk_insert hOk hndL hnidL (hFtgtP l hl) (hFtgtN l hl) hotherT
    · rw [laneIds_append,
        @laneIds_cons_ge ⟨s.arena.length, key, s.RandomLevel draws⟩ l hl (afterK A key),
        ← hsplitL]
      refine laneOk_congr ?_ hbase
      intro a haa
      have halt : a < s.arena.length := hmem_lt a haa
      have h2 : targetAt sF a l = targetAt sp a l := by
        refine hFtgtO a l halt ?_
        rintro ⟨hml, -⟩
        omega
      rw [h2, htgt]

/-- When the key has no successor on level 0 (it is greater than every
element), `remove` dereferences the null successor: undefined behaviour. -/
theorem remove_empty_spec {s : Skip_List} {A : List Entry} (hR : SLRepr s A)
    {key : Int} (hA : afterK A key = []) : s.remove key = none := by
  have hRk := hR
  obtain ⟨hM, hl1, hlkM, hp0, hlen0, hnd, hnodes, hsort, hhts, hch⟩ := hRk
  have h0 : (0 : NodeId) = predId A key s.level :=
    (predId_high hR key (le_refl _)).symm
  obtain ⟨U, hdesc, hUlen, hUlow, hUhigh⟩ :=
    removeDescend_spec hR key s.level (List.replicate s.level none) (le_refl _)
      (by rw [List.length_replicate])
  rw [← h0] at hdesc
  have htgt0 : targetAt s (predId A key 0) 0 = some none := by
    rw [pred_target hR key (by omega), hA]
    rfl
  simp [Skip_List.remove, hdesc, htgt0]

/-- When the key is absent but has a successor, `remove` returns null and
performs no mutation. -/
theorem remove_absent_spec {s : Skip_List} {A : List Entry} (hR : SLRepr s A)
    {key : Int} {e : Entry} {rest : List Entry}
    (hA : afterK A key = e :: rest) (hek : ¬ (e.elem = key)) :
    s.remove key = some (s, none) := by
  have hRk := hR
  obtain ⟨hM, hl1, hlkM, hp0, hlen0, hnd, hnodes, hsort, hhts, hch⟩ := hRk
  have heA : e ∈ A := afterK_subset (hA ▸ List.mem_cons_self e rest)
  have hht0 : 0 < e.ht := (hhts e heA).1
  have h0 : (0 : NodeId) = predId A key s.level :=
    (predId_high hR key (le_refl _)).symm
  obtain ⟨U, hdesc, hUlen, hUlow, hUhigh⟩ :=
    removeDescend_spec hR key s.level (List.replicate s.level none) (le_refl _)
      (by rw [List.length_replicate])
  rw [← h0] at hdesc
  have htgt0 : targetAt s (predId A key 0) 0 = some (some e.id) := by
    rw [pred_target hR key (by omega), hA, laneIds_cons_lt hht0]
    rfl
  have helem : elemAt s e.id = some e.elem := entry_elemAt hR heA
  simp [Skip_List.remove, hdesc, htgt0, helem, hek]

/-- Full effect of removing a present key: the call succeeds, returns the
element, and the resulting state satisfies the representation invariant for
the abstract list without the removed entry (`width_` is not decremented:
that separate bug does not affect the invariant, which leaves the size
field unconstrained). -/
theorem remove_present_spec {s : Skip_List} {A : List Entry} (hR : SLRepr s A)
    {key : Int} {e : Entry} {rest : List Entry}
    (hA : afterK A key = e :: rest) (hek : e.elem = key) :
    ∃ s', s.remove key = some (s', some key) ∧
      SLRepr s' (belowK A key ++ rest) ∧
      s'.width = s.width ∧ s'.kMaxLevel = s.kMaxLevel ∧ s'.p = s.p ∧
      s'.arena.length = s.arena.length ∧ s'.level ≤ s.level := by
  have hRk := hR
  obtain ⟨hM, hl1, hlkM, hp0, hlen0, hnd, hnodes, hsort, hhts, hch⟩ := hRk
  have hids := SLRepr_id_lt hR
  have h0lt : 0 < s.arena.length := hids 0 (List.mem_cons_self _ _)
  have heA : e ∈ A := afterK_subset (hA ▸ List.mem_cons_self e rest)
  have hht1 : 1 ≤ e.ht := (hhts e heA).1
  have hhtl : e.ht ≤ s.level := (hhts e heA).2
  have hrsub : ∀ e' ∈ rest, e' ∈ A := fun e' hr =>
    afterK_subset (show e' ∈ afterK A key by
      rw [hA]; exact List.mem_cons_of_mem e hr)
  have hidsA : A.map Entry.id =
      (belowK A key).map Entry.id ++ e.id :: rest.map Entry.id := by
    conv_lhs => rw [← belowK_append_afterK A key]
    rw [hA, List.map_append, List.map_cons]
  have hndAm : (A.map Entry.id).Nodup := (List.nodup_cons.mp hnd).2
  have hndA : ((belowK A key).map Entry.id ++ e.id :: rest.map Entry.id).Nodup := by
    rw [← hidsA]
    exact hndAm
  have h0nin : (0 : NodeId) ∉ A.map Entry.id := (List.nodup_cons.mp hnd).1
  have heid0 : e.id ≠ 0 := fun hc =>
    h0nin (hc ▸ List.mem_map_of_mem Entry.id heA)
  have heid_nb : e.id ∉ (belowK A key).map Entry.id := fun hc =>
    (List.disjoint_of_nodup_append hndA) hc (List.mem_cons_self _ _)
  have heid_nr : e.id ∉ rest.map Entry.id :=
    (List.nodup_cons.mp (List.Nodup.of_append_right hndA)).1
  have hpred_ne : ∀ j, predId A key j ≠ e.id := by
    intro j hc
    cases List.mem_cons.mp (predId_mem A key j) with
    | inl hh =>
      rw [hc] at hh
      exact heid0 hh
    | inr hml =>
      obtain ⟨eb, hebm, hid, _⟩ := mem_laneIds.mp hml
      apply heid_nb
      rw [← hc, ← hid]
      exact List.mem_map_of_mem _ hebm
  -- descent
  have h0 : (0 : NodeId) = predId A key s.level :=
    (predId_high hR key (le_refl _)).symm
  obtain ⟨U, hdesc, hUlen, hUlow, hUhigh⟩ :=
    removeDescend_spec hR key s.level (List.replicate s.level none) (le_refl _)
      (by rw [List.length_replicate])
  rw [← h0] at hdesc
  have htgt0 : targetAt s (predId A key 0) 0 = some (some e.id) := by
    rw [pred_target hR key (by omega), hA, laneIds_cons_lt (show 0 < e.ht by omega)]
    rfl
  have helem : elemAt s e.id = some e.elem := entry_elemAt hR heA
  -- the branch test of the unlink loop
  have hiff : ∀ j, 0 ≤ j → j < 0 + s.level →
      (targetAt s (predId A key j) j = some (some e.id) ↔ j < e.ht) := by
    intro j _ hj
    rw [pred_target hR key (by omega)]
    constructor
    · intro hcj
      by_contra hge
      rw [hA, @laneIds_cons_ge e j hge rest] at hcj
      injection hcj with hcj2
      have hmemr : e.id ∈ laneIds rest j :=
        List.mem_of_mem_head? (Option.mem_def.mpr hcj2)
      obtain ⟨eb, hebm, hid, _⟩ := mem_laneIds.mp hmemr
      apply heid_nr
      rw [← hid]
      exact List.mem_map_of_mem _ hebm
    · intro hlt
      rw [hA, laneIds_cons_lt hlt]
      rfl
  have hpred_len : ∀ j, j < 0 + s.level →
      ∃ Lj, lenAt s (predId A key j) = some Lj ∧ j < Lj := by
    intro j hj
    cases List.mem_cons.mp (predId_mem A key j) with
    | inl hh => exact ⟨s.kMaxLevel, by rw [hh]; exact hlen0, by omega⟩
    | inr hml =>
      obtain ⟨eb, hebm, hid, hht⟩ := mem_laneIds.mp hml
      exact ⟨eb.ht, by rw [← hid]; exact (hnodes eb (belowK_subset hebm)).2, hht⟩
  -- the unlink loop
  obtain ⟨s1, hloop, h1ptr, h1len, h1tgtO, h1tgtP, h1meta⟩ :=
    removeLoopAux_spec s.level 0 s U e.id (fun j => predId A key j) e.ht
      (fun j hj => hUlow j (by omega))
      hpred_len
      (hnodes e heA).2
      (fun j hj => hpred_ne j)
      hiff
  obtain ⟨hm1k, hm1p, hm1l, hm1w, hm1a⟩ := h1meta
  -- free the removed node
  have helem1 : elemAt s1 e.id = some e.elem :=
    elemAt_of_ptrAt (by rw [h1ptr]; exact (hnodes e heA).1)
  obtain ⟨n1, hn1⟩ := ptrAt_nodeAt
    (show ptrAt s1 e.id = some (some e.elem) from by
      rw [h1ptr]; exact (hnodes e heA).1)
  obtain ⟨s2, hfree⟩ := freeNode_succeeds hn1
  obtain ⟨hfnone, hfoth⟩ := freeNode_effect hfree
  obtain ⟨hm2k, hm2p, hm2l, hm2w, hm2a⟩ := freeNode_meta hfree
  have h2ptr : ∀ a, a ≠ e.id → ptrAt s2 a = ptrAt s a := fun a ha => by
    rw [(reads_congr (hfoth a ha)).1, h1ptr]
  have h2len : ∀ a, a ≠ e.id → lenAt s2 a = lenAt s a := fun a ha => by
    rw [(reads_congr (hfoth a ha)).2.1, h1len]
  have h2tgtO : ∀ a m, a ≠ e.id → ¬(m < e.ht ∧ a = predId A key m) →
      targetAt s2 a m = targetAt s a m := by
    intro a m ha hcond
    rw [(reads_congr (hfoth a ha)).2.2.1 m]
    refine h1tgtO a m ha ?_
    rintro ⟨-, hm2, hau, hm3⟩
    exact hcond ⟨hm3, hau⟩
  have h2tgtP : ∀ m, m < e.ht →
      targetAt s2 (predId A key m) m = targetAt s e.id m := by
    intro m hm
    rw [(reads_congr (hfoth _ (hpred_ne m))).2.2.1 m]
    exact h1tgtP m (by omega) (by omega) (by omega)
  -- lanes of the shrunk abstract list
  have hch2 : ∀ l, l < s.kMaxLevel →
      laneOk s2 l (laneIds (belowK A key ++ rest) l) := by
    intro l hlK
    have hbase := hch l hlK
    have hsplitL : laneIds A l =
        laneIds (belowK A key) l ++ laneIds (afterK A key) l := laneIds_split A key l
    rw [laneIds_append]
    by_cases hl : l < e.ht
    · have hafL : laneIds (afterK A key) l = e.id :: laneIds rest l := by
        rw [hA, laneIds_cons_lt hl]
      have hOkA : laneOk s l
          (laneIds (belowK A key) l ++ e.id :: laneIds rest l) := by
        rw [← hafL, ← hsplitL]
        exact hbase
      have hndL : ((0 : NodeId) ::
          (laneIds (belowK A key) l ++ e.id :: laneIds rest l)).Nodup := by
        rw [← hafL, ← hsplitL]
        exact hnd.sublist (List.Sublist.cons₂ _ (laneIds_sublist A l))
      refine laneOk_erase hOkA hndL (h2tgtP l hl) ?_
      intro a haa hane
      have hanex : a ≠ e.id := by
        rcases List.mem_cons.mp haa with hh | hm
        · rw [hh]
          exact fun hc => heid0 hc.symm
        · rcases List.mem_append.mp hm with hmb | hmr
          · obtain ⟨eb, hebm, hid, _⟩ := mem_laneIds.mp hmb
            rw [← hid]
            intro hc
            exact heid_nb (hc ▸ List.mem_map_of_mem Entry.id hebm)
          · obtain ⟨eb, hebm, hid, _⟩ := mem_laneIds.mp hmr
            rw [← hid]
            intro hc
            exact heid_nr (hc ▸ List.mem_map_of_mem Entry.id hebm)
      refine h2tgtO a l hanex ?_
      rintro ⟨-, hau⟩
      exact hane hau
    · have hafL : laneIds (afterK A key) l = laneIds rest l := by
        rw [hA, @laneIds_cons_ge e l hl rest]
      rw [← hafL, ← hsplitL]
      refine laneOk_congr ?_ hbase
      intro a haa
      refine h2tgtO a l ?_ ?_
      · rcases List.mem_cons.mp haa with hh | hm
        · rw [hh]
          exact fun hc => heid0 hc.symm
        · obtain ⟨eb, hebm, hid, hhtb⟩ := mem_laneIds.mp hm
          rw [← hid]
          intro hc
          have hebe : eb = e := List.inj_on_of_nodup_map hndAm hebm heA hc
          rw [hebe] at hhtb
          exact hl hhtb
      · rintro ⟨hm3, -⟩
        exact hl hm3
  -- the shrink loop
  have hlvl2 : s2.level = s.level := by rw [hm2l, hm1l]
  have hk2 : s2.kMaxLevel = s.kMaxLevel := by rw [hm2k, hm1k]
  have hlen20 : lenAt s2 0 = some s2.kMaxLevel := by
    rw [h2len 0 (fun hc => heid0 hc.symm), hk2]
    exact hlen0
  obtain ⟨lvl2, hshrink, hlvl2a, hlvl2b, hbnd⟩ :=
    @shrinkLoop_spec s2 (belowK A key ++ rest)
      (by rw [hk2]; exact hch2) hlen20 s2.level
      (by rw [hlvl2]; omega) (by rw [hlvl2, hk2]; omega)
      (by
        rw [hlvl2]
        intro e' he'
        rcases List.mem_append.mp he' with hb | hr
        · exact (hhts e' (belowK_subset hb)).2
        · exact (hhts e' (hrsub e' hr)).2)
  -- assemble the call
  have helem' : elemAt s e.id = some key := by rw [helem, hek]
  have helem1' : elemAt s1 e.id = some key := by rw [helem1, hek]
  have hremeq : s.remove key = some ({ s2 with level := lvl2 }, some key) := by
    simp [Skip_List.remove, hdesc, htgt0, helem', hloop, helem1', hfree, hshrink]
  have hne' : ∀ e' ∈ belowK A key ++ rest, e'.id ≠ e.id := by
    intro e' he' hc
    rcases List.mem_append.mp he' with hb | hr
    · exact heid_nb (hc ▸ List.mem_map_of_mem Entry.id hb)
    · exact heid_nr (hc ▸ List.mem_map_of_mem Entry.id hr)
  have hin' : ∀ e' ∈ belowK A key ++ rest, e' ∈ A := by
    intro e' he'
    rcases List.mem_append.mp he' with hb | hr
    · exact belowK_subset hb
    · exact hrsub e' hr
  refine ⟨{ s2 with level := lvl2 }, hremeq, ?_, ?_, ?_, ?_, ?_, ?_⟩
  · refine ⟨?_, ?_, ?_, ?_, ?_, ?_, ?_, ?_, ?_, ?_⟩
    · show s2.kMaxLevel < M64
      rw [hk2]
      exact hM
    · exact hlvl2a
    · show lvl2 ≤ s2.kMaxLevel
      rw [hk2]
      omega
    · rw [(reads_congr (nodeAt_level_update s2 lvl2 0)).1,
        h2ptr 0 (fun hc => heid0 hc.symm)]
      exact hp0
    · show lenAt { s2 with level := lvl2 } 0 = some s2.kMaxLevel
      rw [(reads_congr (nodeAt_level_update s2 lvl2 0)).2.1]
      exact hlen20
    · have hsub : ((belowK A key ++ rest).map Entry.id).Sublist
          (A.map Entry.id) := by
        rw [hidsA, List.map_append]
        exact List.Sublist.append_left (List.sublist_cons_self _ _) _
      exact hnd.sublist (List.Sublist.cons₂ _ hsub)
    · intro e' he'
      constructor
      · rw [(reads_congr (nodeAt_level_update s2 lvl2 e'.id)).1,
          h2ptr e'.id (hne' e' he')]
        exact (hnodes e' (hin' e' he')).1
      · rw [(reads_congr (nodeAt_level_update s2 lvl2 e'.id)).2.1,
          h2len e'.id (hne' e' he')]
        exact (hnodes e' (hin' e' he')).2
    · have hsubA : (belowK A key ++ rest).Sublist A := by
        conv_rhs => rw [← belowK_append_afterK A key]
        rw [hA]
        exact List.Sublist.append_left (List.sublist_cons_self _ _) _
      exact List.chain'_iff_pairwise.mpr
        ((List.chain'_iff_pairwise.mp hsort).sublist (hsubA.map Entry.elem))
    · intro e' he'
      exact ⟨(hhts e' (hin' e' he')).1, hbnd e' he'⟩
    · intro l hlK'
      have hlK : l < s.kMaxLevel := by
        rw [← hk2]
        exact hlK'
      exact laneOk_congr
        (fun a haa => (reads_congr (nodeAt_level_update s2 lvl2 a)).2.2.1 l)
        (hch2 l hlK)
  · show s2.width = s.width
    rw [hm2w, hm1w]
  · show s2.kMaxLevel = s.kMaxLevel
    exact hk2
  · show s2.p = s.p
    rw [hm2p, hm1p]
  · show s2.arena.length = s.arena.length
    rw [hm2a, hm1a]
  · show lvl2 ≤ s.level
    omega

/-- A state whose targets, elements and heights agree with an invariant
state (and whose level did not drop below the old one) satisfies the same
invariant. -/
theorem SLRepr_of_reads {s s' : Skip_List} {A : List Entry} (hR : SLRepr s A)
    (hk : s'.kMaxLevel = s.kMaxLevel)
    (hl2 : s'.level ≤ s'.kMaxLevel) (hge : s.level ≤ s'.level)
    (hptr : ∀ a, ptrAt s' a = ptrAt s a)
    (hlen : ∀ a, lenAt s' a = lenAt s a)
    (htgt : ∀ a m, targetAt s' a m = targetAt s a m) :
    SLRepr s' A := by
  obtain ⟨hM, hl1, hlkM, hp0, hlen0, hnd, hnodes, hsort, hhts, hch⟩ := hR
  refine ⟨by rw [hk]; exact hM, by omega, hl2, by rw [hptr]; exact hp0,
    by rw [hlen, hk]; exact hlen0, hnd, ?_, hsort, ?_, ?_⟩
  · intro e he
    exact ⟨by rw [hptr]; exact (hnodes e he).1, by rw [hlen]; exact (hnodes e he).2⟩
  · intro e he
    exact ⟨(hhts e he).1, le_trans (hhts e he).2 hge⟩
  · intro l hlK
    rw [hk] at hlK
    exact laneOk_congr (fun a _ => htgt a l) (hch l hlK)

/-- Every successful operation preserves the representation invariant. -/
theorem stepOp_repr (s : Skip_List) (op : SLOp) (s' : Skip_List)
    (hI : ∃ A, SLRepr s A) (h : stepOp s op = some s') : ∃ A', SLRepr s' A' := by
  obtain ⟨A, hR⟩ := hI
  have hRk := hR
  obtain ⟨hM, hl1, hlkM, _, _, _, _, _, _, _⟩ := hRk
  cases op with
  | ins x d =>
    rw [stepOp] at h
    by_cases hkey : x ∈ A.map Entry.elem
    · obtain ⟨s2, y, heq2, hex, hwid, hlvl, hk2, hp2, harena, hptr2, hlen2, htgt2,
        hwo2, hwi2⟩ := insert_dup_effect hR x d hkey
      rw [heq2] at h
      simp at h
      rw [← h]
      refine ⟨A, SLRepr_of_reads hR hk2 ?_ ?_ hptr2 hlen2 htgt2⟩
      · rw [hlvl, hk2]
        exact Nat.max_le.mpr ⟨hlkM, RandomLevel_le_kMax d (by omega) hM⟩
      · rw [hlvl]
        exact le_max_left _ _
    · obtain ⟨s2, heq2, hRep, hw2, ha2, hk2, hp2, hl2v⟩ :=
        insert_newkey_spec hR x d hkey
      rw [heq2] at h
      simp at h
      rw [← h]
      exact ⟨_, hRep⟩
  | rem x =>
    rw [stepOp] at h
    cases hA : afterK A x with
    | nil =>
      rw [remove_empty_spec hR hA] at h
      exact Option.noConfusion h
    | cons e rest =>
      by_cases hek : e.elem = x
      · obtain ⟨s2, heq2, hRep, _, _, _, _, _⟩ := remove_present_spec hR hA hek
        rw [heq2] at h
        simp at h
        rw [← h]
        exact ⟨_, hRep⟩
      · rw [remove_absent_spec hR hA hek] at h
        simp at h
        rw [← h]
        exact ⟨A, hR⟩

/-- A freshly constructed list satisfies the invariant with the empty
abstract list. -/
theorem SLRepr_init (K : Nat) (q : Rat) (hK : 1 ≤ K) (hM : K < M64) :
    SLRepr (initSL K q) [] := by
  refine ⟨hM, le_refl 1, hK, rfl, ?_, by simp, by simp, by simp, by simp, ?_⟩
  · show some ((List.replicate K
      ({ width := 1, node := none } : Skip_Link)).length) = some K
    rw [List.length_replicate]
  · intro l hlK
    have hlK2 : l < K := hlK
    refine ⟨List.chain'_singleton 0, ?_⟩
    show targetAt (initSL K q) 0 l = some none
    rw [targetAt, linkAt]
    have hn : nodeAt (initSL K q) 0 = some
        { ptr := none,
          forward := List.replicate K ({ width := 1, node := none } : Skip_Link) } := rfl
    rw [hn]
    simp [List.getElem?_replicate, hlK2]

/-- Every reachable state satisfies the representation invariant for some
abstract list. -/
theorem reachable_repr {K : Nat} {q : Rat} {s : Skip_List}
    (hK : 1 ≤ K) (hM : K < M64) (h : Reachable K q s) : ∃ A, SLRepr s A := by
  obtain ⟨ops, hrun⟩ := h
  exact runOps_inv stepOp_repr ops (initSL K q) s ⟨[], SLRepr_init K q hK hM⟩ hrun

/-- The fueled chain walk reproduces a lane. -/
theorem chainFrom_spec {s : Skip_List} {l : Nat} :
    ∀ (ids : List NodeId) (x : NodeId) (fuel : Nat),
      List.Chain' (fun a b => targetAt s a l = some (some b)) (x :: ids) →
      targetAt s ((x :: ids).getLast (List.cons_ne_nil x ids)) l = some none →
      ids.length < fuel →
      chainFrom s l x fuel = some ids := by
  intro ids
  induction ids with
  | nil =>
    intro x fuel hchn hlast hfuel
    cases fuel with
    | zero => exact absurd hfuel (by omega)
    | succ f =>
      have h2 : targetAt s x l = some none := hlast
      simp [chainFrom, h2]
  | cons y ids ih =>
    intro x fuel hchn hlast hfuel
    rw [List.chain'_cons] at hchn
    cases fuel with
    | zero => exact absurd hfuel (by omega)
    | succ f =>
      have hlast2 : targetAt s ((y :: ids).getLast (List.cons_ne_nil y ids)) l =
          some none := by
        rw [← List.getLast_cons (List.cons_ne_nil y ids)]
        exact hlast
      have hrec := ih y f hchn.2 hlast2 (by
        rw [List.length_cons] at hfuel
        omega)
      simp [chainFrom, hchn.1, hrec]

/-- Dereferencing the id list of entries whose elements are stored yields
the element list. -/
theorem mapM_elemAt {s : Skip_List} :
    ∀ (B : List Entry), (∀ e ∈ B, elemAt s e.id = some e.elem) →
      (B.map Entry.id).mapM (elemAt s) = some (B.map Entry.elem) := by
  intro B
  induction B with
  | nil => intro _; rfl
  | cons e B ih =>
    intro h
    rw [List.map_cons, List.map_cons, List.mapM_cons,
      h e (List.mem_cons_self _ _),
      ih (fun e2 he2 => h e2 (List.mem_cons_of_mem _ he2))]
    rfl

/-- Under the invariant, walking level 0 from the head yields exactly the
abstract element list. -/
theorem levelZeroElems_of_repr {s : Skip_List} {A : List Entry} (hR : SLRepr s A) :
    levelZeroElems s = some (A.map Entry.elem) := by
  have hRk := hR
  obtain ⟨hM, hl1, hlkM, hp0, hlen0, hnd, hnodes, hsort, hhts, hch⟩ := hRk
  have hlane := hch 0 (by omega)
  have hzero : laneIds A 0 = A.map Entry.id :=
    laneIds_zero (fun e he => (hhts e he).1)
  have hchain := hlane.1
  have hlast := hlane.2
  rw [hzero] at hchain hlast
  have hAlen := SLRepr_length hR
  have hcf : chainFrom s 0 0 (s.arena.length + 1) = some (A.map Entry.id) :=
    chainFrom_spec (A.map Entry.id) 0 (s.arena.length + 1) hchain hlast
      (by rw [List.length_map]; omega)
  simp only [levelZeroElems, hcf]
  exact mapM_elemAt A (fun e he => entry_elemAt hR he)

/-- Claim C4: CONFIRMED.  In every state reachable by insert/remove
operations from a freshly constructed list (any `1 ≤ maxLevel < 2^64`), the
walk of the level-0 links from the head sentinel terminates on a null link
and the elements it visits form a strictly ascending (hence duplicate-free)
sequence. -/
theorem level_zero_strictly_ascending (K : Nat) (q : Rat) (s : Skip_List)
    (hK : 1 ≤ K) (hM : K < M64) (hreach : Reachable K q s) :
    ∃ es, levelZeroElems s = some es ∧
      List.Chain' (fun a b => a < b) es ∧ es.Nodup := by
  obtain ⟨A, hR⟩ := reachable_repr hK hM hreach
  have hsort : List.Chain' (fun a b => a < b) (A.map Entry.elem) := by
    obtain ⟨_, _, _, _, _, _, _, hs, _, _⟩ := hR
    exact hs
  refine ⟨A.map Entry.elem, levelZeroElems_of_repr hR, hsort, ?_⟩
  exact (List.chain'_iff_pairwise.mp hsort).imp (fun h => ne_of_lt h)

/-- Witness for C4 at a concrete input: the two-element reachable state
`listA` (insert 5 at level 2, then insert 3 at level 1). -/
theorem level_zero_strictly_ascending_w :
    ∃ es, levelZeroElems listA = some es ∧
      List.Chain' (fun a b => a < b) es ∧ es.Nodup :=
  level_zero_strictly_ascending 16 (mkRat 1 2) listA (by norm_num)
    (by norm_num [M64])
    ⟨[SLOp.ins 5 [mkRat 1 10, mkRat 9 10], SLOp.ins 3 [mkRat 9 10]], by decide⟩

end jhr
